import Mathlib

/-!
fatd: balance ledger, token ownership map, contract call, entry authentication.

A shallow embedding of the state-transition core of the daemon:

* `Fatd.DB`      : `db/address.go`, the per-address balance table;
* `Fatd.Fat1`    : `fat/fat1/addressnftokensmap.go`, the address to token-set map;
* `Fatd.Runtime` : `internal/runtime/runtime.go`, the sandboxed contract call;
* `Fatd.Fat0`    : `fat0/entry.go`, signing and validation of entries.

Definitions come first, theorems follow.
-/

namespace Fatd

/-- A 32-byte address hash (`factom.FAAddress`), read as one number. -/
structure FAAddress where
  val : Nat
deriving DecidableEq, Repr

deriving instance DecidableEq for Except

/-- The zero value of `factom.FAAddress`. -/
def FAAddress.zero : FAAddress := ⟨0⟩

/-! ## db/address.go -/

namespace DB

/-- One row of the `addresses` table: `id INTEGER PRIMARY KEY`, `address UNIQUE`,
`balance INTEGER CHECK (balance >= 0)`. -/
structure Row where
  id : Int
  address : FAAddress
  balance : Int
deriving DecidableEq, Repr

/-- The `addresses` table behind `chain.Conn`. -/
abbrev Table := List Row

/-- Errors of the storage layer that the statements of this file can raise. -/
inductive SqlErr where
  | noResults
  | constraintCheck
deriving DecidableEq, Repr

/-- How a run of ledger code ends: it returns, it panics, or SQLite leaves the
integer domain (a sum beyond 63 bits is stored as a REAL, which this integer
model does not follow any further). -/
inductive Outcome (α : Type) where
  | ret (a : α)
  | panicked (msg : String)
  | real
deriving DecidableEq, Repr

/-- Go's conversion `int64(u)` of an unsigned 64-bit value. -/
def int64 (u : Nat) : Int :=
  if u % 2 ^ 64 < 2 ^ 63 then ((u % 2 ^ 64 : Nat) : Int) else ((u % 2 ^ 64 : Nat) : Int) - 2 ^ 64

/-- Go's conversion `uint64(i)` of a signed 64-bit value. -/
def uint64 (i : Int) : Nat := (i % 2 ^ 64).toNat

/-- The schema constraints: ids are distinct and positive (SQLite picks them),
addresses are distinct, every balance is a non-negative 63-bit integer. -/
def WF (t : Table) : Prop :=
  (t.map Row.id).Nodup ∧ (t.map Row.address).Nodup ∧
    ∀ r ∈ t, 0 < r.id ∧ 0 ≤ r.balance ∧ r.balance < 2 ^ 63

/-- The row of an address, if any. -/
def findRow (t : Table) (adr : FAAddress) : Option Row :=
  t.find? (fun r => decide (r.address = adr))

/-- `SelectAddressID`: `sqlitex.ResultInt64` over the id of the address's row. -/
def SelectAddressID (t : Table) (adr : FAAddress) : Int × Option SqlErr :=
  match findRow t adr with
  | some r => (r.id, none)
  | none => (0, some SqlErr.noResults)

/-- `SelectAddressIDBalance`: `(adrID, bal)`, `adrID = -1` when there is no row. -/
def SelectAddressIDBalance (t : Table) (adr : FAAddress) : Int × Nat :=
  match findRow t adr with
  | some r => (r.id, uint64 r.balance)
  | none => (-1, 0)

/-- The rowid SQLite gives a new row: one more than the largest in use. -/
def nextId (t : Table) : Int :=
  (t.map Row.id).foldl max 0 + 1

/-- Result of `addressAdd`. -/
structure AddResult where
  table : Table
  id : Int
  err : Option SqlErr
deriving DecidableEq, Repr

/-- `addressAdd`: the upsert `INSERT ... ON CONFLICT("address") DO UPDATE SET
"balance" = "balance" + "excluded"."balance"` with `int64(add)` bound, followed
by `SelectAddressID`. The CHECK constraint is tested on the proposed row before
the conflict is looked at. -/
def addressAdd (t : Table) (adr : FAAddress) (add : Nat) : Outcome AddResult :=
  let v := int64 add
  if v < 0 then
    Outcome.ret ⟨t, -1, some SqlErr.constraintCheck⟩
  else
    match findRow t adr with
    | none =>
      let t1 := t ++ [⟨nextId t, adr, v⟩]
      let r := SelectAddressID t1 adr
      Outcome.ret ⟨t1, r.1, r.2⟩
    | some row =>
      if 2 ^ 63 ≤ row.balance + v then
        Outcome.real
      else
        let t1 := t.map (fun r => if r.address = adr then { r with balance := r.balance + v } else r)
        let r := SelectAddressID t1 adr
        Outcome.ret ⟨t1, r.1, r.2⟩

/-- Result of `addressSub`: `(id, txErr, err)` and the table it leaves. -/
structure SubResult where
  table : Table
  id : Int
  txErr : Option String
  err : Option SqlErr
deriving DecidableEq, Repr

/-- The semantic error of `addressSub`. -/
def insufficientBalance : String := "insufficient balance"

/-- `addressSub`: a zero amount goes through `addressAdd`; otherwise the id is
selected (no row is the semantic error), then `UPDATE addresses SET balance =
balance - ? WHERE rowid = ?` runs with `int64(sub)` bound: a CHECK failure is the
semantic error, no changed row is the panic. -/
def addressSub (t : Table) (adr : FAAddress) (sub : Nat) : Outcome SubResult :=
  if sub % 2 ^ 64 = 0 then
    match addressAdd t adr 0 with
    | Outcome.ret r => Outcome.ret ⟨r.table, r.id, none, r.err⟩
    | Outcome.panicked m => Outcome.panicked m
    | Outcome.real => Outcome.real
  else
    match SelectAddressID t adr with
    | (id, some SqlErr.noResults) => Outcome.ret ⟨t, id, some insufficientBalance, none⟩
    | (id, some e) => Outcome.ret ⟨t, id, none, some e⟩
    | (id, none) =>
      if id < 0 then
        Outcome.ret ⟨t, id, some insufficientBalance, none⟩
      else
        let v := int64 sub
        let hit := t.filter (fun r => decide (r.id = id))
        if hit.any (fun r => decide (r.balance - v < 0)) then
          Outcome.ret ⟨t, id, some insufficientBalance, none⟩
        else if hit.any (fun r => decide (2 ^ 63 ≤ r.balance - v)) then
          Outcome.real
        else if hit.length = 0 then
          Outcome.panicked "no balances updated"
        else
          Outcome.ret
            ⟨t.map (fun r => if r.id = id then { r with balance := r.balance - v } else r),
              id, none, none⟩

/-- A ledger call on one address: a credit (`addressAdd`) or a debit (`addressSub`). -/
inductive Op where
  | credit (amount : Nat)
  | debit (amount : Nat)
deriving DecidableEq, Repr

/-- What one call of a sequence did: whether it succeeded (no error of either
kind) and the table it left. -/
structure Step where
  op : Op
  ok : Bool
  table : Table
deriving DecidableEq, Repr

/-- One call of `Op` on the table. -/
def applyOp (t : Table) (adr : FAAddress) : Op → Outcome Step
  | Op.credit a =>
    match addressAdd t adr a with
    | Outcome.ret r => Outcome.ret ⟨Op.credit a, r.err.isNone, r.table⟩
    | Outcome.panicked m => Outcome.panicked m
    | Outcome.real => Outcome.real
  | Op.debit a =>
    match addressSub t adr a with
    | Outcome.ret r => Outcome.ret ⟨Op.debit a, r.txErr.isNone && r.err.isNone, r.table⟩
    | Outcome.panicked m => Outcome.panicked m
    | Outcome.real => Outcome.real

/-- A sequence of calls on one address, with the record of every step. -/
def run (t : Table) (adr : FAAddress) : List Op → Outcome (List Step)
  | [] => Outcome.ret []
  | op :: rest =>
    match applyOp t adr op with
    | Outcome.ret s =>
      match run s.table adr rest with
      | Outcome.ret ss => Outcome.ret (s :: ss)
      | Outcome.panicked m => Outcome.panicked m
      | Outcome.real => Outcome.real
    | Outcome.panicked m => Outcome.panicked m
    | Outcome.real => Outcome.real

/-- The stored balance of an address (0 when it has no row). -/
def balanceOf (t : Table) (adr : FAAddress) : Int :=
  match findRow t adr with
  | some r => r.balance
  | none => 0

/-- The table after the last step (the start table when there is none). -/
def finalTable (t : Table) (ss : List Step) : Table :=
  match ss.getLast? with
  | some s => s.table
  | none => t

/-- Sum of the amounts of the credits that succeeded. -/
def creditsDone : List Step → Int
  | [] => 0
  | ⟨Op.credit a, true, _⟩ :: ss => (a : Int) + creditsDone ss
  | _ :: ss => creditsDone ss

/-- Sum of the amounts of the debits that succeeded. -/
def debitsDone : List Step → Int
  | [] => 0
  | ⟨Op.debit a, true, _⟩ :: ss => (a : Int) + debitsDone ss
  | _ :: ss => debitsDone ss

/-- The amount of a call. -/
def Op.amount : Op → Nat
  | Op.credit a => a
  | Op.debit a => a

/-- Sum of the amounts of all the credits of a sequence. -/
def creditTotal : List Op → Int
  | [] => 0
  | Op.credit a :: ops => (a : Int) + creditTotal ops
  | Op.debit _ :: ops => creditTotal ops

end DB

end Fatd

/-! ## fat/fat1/addressnftokensmap.go -/

namespace Fatd

namespace Fat1

/-- `NFTokenID`: the number of one non-fungible token. -/
abbrev NFTokenID := Nat

/-- `NFTokens` (`map[NFTokenID]struct{}`): the ids of one set, in the order a
`range` visits them; a Go map holds every key once. -/
structure NFTokens where
  ids : List NFTokenID
  nodup : ids.Nodup
deriving DecidableEq

/-- `AddressNFTokensMap` (`map[factom.FAAddress]NFTokens`): the entries in the
order a `range` visits them; a Go map holds every key once. -/
structure AddressNFTokensMap where
  entries : List (FAAddress × NFTokens)
  nodupKeys : (entries.map Prod.fst).Nodup
deriving DecidableEq

/-- The errors the map operations return. -/
inductive Err where
  | empty
  | intersection (tknID : NFTokenID)
  | intersectionAt (tknID : NFTokenID) (adr : FAAddress)
  | intersectionOf (tknID : NFTokenID) (adr other : FAAddress)
  | numberDiffer
  | missing (tknID : NFTokenID)
  | duplicateAddress (adr : FAAddress)
  | capacity
  | unexpectedJSONLength
  | notJSON
  | badAddress (adrStr : String)
  | badTokens (adr : FAAddress)
deriving DecidableEq

/-- The empty token set, `make(NFTokens, n)`. -/
def NFTokens.empty : NFTokens := ⟨[], List.nodup_nil⟩

/-- Modelled from the spec: `NFTokens.NoIntersection` is not among the sources; it
checks one token set "against" another "for intersection" and its error is the
shared id (`errorNFTokenIDIntersection`, read back in
`NoInternalNFTokensIntersection`). -/
def NFTokens.NoIntersection (tkns newTkns : NFTokens) : Option NFTokenID :=
  tkns.ids.find? (fun t => decide (t ∈ newTkns.ids))

/-- Modelled from the spec: `NFTokens.Append` is not among the sources; it adds a
set to the receiver and fails with the shared id when the two intersect. -/
def NFTokens.Append (tkns newTkns : NFTokens) : Except NFTokenID NFTokens :=
  match tkns.NoIntersection newTkns with
  | some t => Except.error t
  | none => Except.ok ⟨tkns.ids ∪ newTkns.ids, List.Nodup.union _ newTkns.nodup⟩

/-- The empty map. -/
def AddressNFTokensMap.empty : AddressNFTokensMap := ⟨[], List.nodup_nil⟩

/-- The map without a key: `delete(m, adr)`. -/
def AddressNFTokensMap.delete (m : AddressNFTokensMap) (adr : FAAddress) : AddressNFTokensMap :=
  ⟨m.entries.filter (fun e => decide (e.1 ≠ adr)),
    List.Nodup.sublist (List.Sublist.map _ (List.filter_sublist _)) m.nodupKeys⟩

/-- The assignment `m[adr] = tkns`. -/
def AddressNFTokensMap.set (m : AddressNFTokensMap) (adr : FAAddress) (tkns : NFTokens) :
    AddressNFTokensMap :=
  ⟨(m.delete adr).entries ++ [(adr, tkns)], by
    rw [List.map_append]
    refine List.Nodup.append (m.delete adr).nodupKeys (List.nodup_singleton _) ?_
    intro a ha hb
    simp only [List.map_cons, List.map_nil, List.mem_singleton] at hb
    subst hb
    simp [AddressNFTokensMap.delete, List.mem_filter] at ha⟩

/-- The lookup `m[adr]`, the empty set when the key is absent. -/
def AddressNFTokensMap.get (m : AddressNFTokensMap) (adr : FAAddress) : NFTokens :=
  match m.entries.find? (fun e => decide (e.1 = adr)) with
  | some e => e.2
  | none => NFTokens.empty

/-- `NumNFTokenIDs`. -/
def AddressNFTokensMap.NumNFTokenIDs (m : AddressNFTokensMap) : Nat :=
  m.entries.foldl (fun numTknIDs e => numTknIDs + e.2.ids.length) 0

/-- Every token id of the map, address after address. -/
def AddressNFTokensMap.allIDs (m : AddressNFTokensMap) : List NFTokenID :=
  m.entries.flatMap (fun e => e.2.ids)

/-- The loop of `Owner`: `adr` is assigned at every iteration and the loop breaks
at the first set holding the id. -/
def ownerLoop (tknID : NFTokenID) : List (FAAddress × NFTokens) → FAAddress → FAAddress
  | [], adr => adr
  | (a, tkns) :: rest, _ => if tknID ∈ tkns.ids then a else ownerLoop tknID rest a

/-- `Owner`. -/
def AddressNFTokensMap.Owner (m : AddressNFTokensMap) (tknID : NFTokenID) : FAAddress :=
  ownerLoop tknID m.entries FAAddress.zero

/-- The loop of `NoInternalNFTokensIntersection` over the entries still to visit. -/
def noInternalLoop (m : AddressNFTokensMap) :
    List (FAAddress × NFTokens) → NFTokens → Option Err
  | [], _ => none
  | (rcdHash, tkns) :: rest, allTkns =>
    match allTkns.Append tkns with
    | Except.error tknID =>
      some (Err.intersectionOf tknID rcdHash ((m.delete rcdHash).Owner tknID))
    | Except.ok allTkns1 => noInternalLoop m rest allTkns1

/-- `NoInternalNFTokensIntersection`: `none` is Go's `nil`. -/
def AddressNFTokensMap.NoInternalNFTokensIntersection (m : AddressNFTokensMap) : Option Err :=
  noInternalLoop m m.entries NFTokens.empty

/-- The loop of `NoNFTokensIntersection`. -/
def noNFTokensLoop (newTkns : NFTokens) : List (FAAddress × NFTokens) → Option Err
  | [] => none
  | (adr, existingTkns) :: rest =>
    match existingTkns.NoIntersection newTkns with
    | some tknID => some (Err.intersectionAt tknID adr)
    | none => noNFTokensLoop newTkns rest

/-- `NoNFTokensIntersection`. -/
def AddressNFTokensMap.NoNFTokensIntersection (m : AddressNFTokensMap) (newTkns : NFTokens) :
    Option Err :=
  noNFTokensLoop newTkns m.entries

/-- The loop of `NoAddressIntersection` over the shorter map. -/
def noAddressLoop (long : AddressNFTokensMap) : List (FAAddress × NFTokens) → Option Err
  | [] => none
  | (rcdHash, tkns) :: rest =>
    if tkns.ids.length = 0 then noAddressLoop long rest
    else if (long.get rcdHash).ids.length ≠ 0 then some (Err.duplicateAddress rcdHash)
    else noAddressLoop long rest

/-- `NoAddressIntersection`: the map with fewer addresses is ranged over, the other
one is looked up. -/
def AddressNFTokensMap.NoAddressIntersection (m n : AddressNFTokensMap) : Option Err :=
  if m.entries.length > n.entries.length then noAddressLoop m n.entries
  else noAddressLoop n m.entries

/-- The address has a non-empty token set in the map. -/
def AddressNFTokensMap.HasTokens (m : AddressNFTokensMap) (adr : FAAddress) : Prop :=
  ∃ e ∈ m.entries, e.1 = adr ∧ e.2.ids ≠ []

/-- `NFTokenIDsConserved`: the count test, then the first id of `n` that no set
of `m` holds. -/
def AddressNFTokensMap.NFTokenIDsConserved (m n : AddressNFTokensMap) : Option Err :=
  if m.NumNFTokenIDs ≠ n.NumNFTokenIDs then
    some Err.numberDiffer
  else
    let allTkns := m.allIDs
    match n.allIDs.find? (fun tknID => decide (tknID ∉ allTkns)) with
    | some tknID => some (Err.missing tknID)
    | none => none

/-- Some address of the map holds the token id. -/
def AddressNFTokensMap.Holds (m : AddressNFTokensMap) (tknID : NFTokenID) : Prop :=
  ∃ e ∈ m.entries, tknID ∈ e.2.ids

/-- Global uniqueness: every token id is held under at most one address. -/
def AddressNFTokensMap.Unique (m : AddressNFTokensMap) : Prop :=
  ∀ e1 ∈ m.entries, ∀ e2 ∈ m.entries, ∀ tknID, tknID ∈ e1.2.ids → tknID ∈ e2.2.ids → e1.1 = e2.1

/-- A Go `map[string]V` in the order a `range` visits it. -/
abbrev StrMap (V : Type) := List (String × V)

/-- The assignment `sm[k] = v` on a `map[string]V`. -/
def StrMap.set {V : Type} (sm : StrMap V) (k : String) (v : V) : StrMap V :=
  sm.filter (fun e => decide (e.1 ≠ k)) ++ [(k, v)]

/-- The loop of `MarshalJSON` that fills `adrStrTknsMap`. -/
def marshalLoop (adrString : FAAddress → String) :
    List (FAAddress × NFTokens) → StrMap NFTokens → StrMap NFTokens
  | [], sm => sm
  | (adr, tkns) :: rest, sm =>
    if tkns.ids.length = 0 then marshalLoop adrString rest sm
    else marshalLoop adrString rest (sm.set (adrString adr) tkns)

/-- `MarshalJSON`, up to the call of `json.Marshal`: the result is the string-keyed
map handed to the encoder, which emits one member per key. `adrString` is
`factom.FAAddress.String`, which is not among the sources. -/
def AddressNFTokensMap.MarshalJSON (adrString : FAAddress → String) (m : AddressNFTokensMap) :
    Except Err (StrMap NFTokens) :=
  if m.NumNFTokenIDs = 0 then
    Except.error Err.empty
  else
    match m.NoInternalNFTokensIntersection with
    | some err => Except.error err
    | none => Except.ok (marshalLoop adrString m.entries [])

/-- A `json.RawMessage`: the text of one JSON value. -/
abbrev RawMessage := String

/-- Go's `len` of a string: its length in bytes. -/
def goLen (s : String) : Nat := s.utf8ByteSize

/-- One member of a JSON object text, as the decoder reads it: the decoded key,
the number of bytes the key's text spends on escape sequences beyond the decoded
key, and the text of the value. -/
structure Member where
  key : String
  escapes : Nat
  value : RawMessage
deriving DecidableEq

/-- The input bytes of `UnmarshalJSON`, as `encoding/json` reads them: no JSON
object, the JSON `null`, or an object with its members in text order. -/
inductive Data where
  | invalid
  | null
  | object (members : List Member)
deriving DecidableEq

/-- What `UnmarshalJSON` calls outside the sources: `factom.FAAddress.Set`
(`none` is an error) and the length of `factom.FAAddress{}.String()`,
`NFTokens.UnmarshalJSON` (`none` is an error), the length of `compactJSON` of a
value, the constant `maxCapacity`, and the order in which `range` visits the
decoded map. -/
structure Env where
  adrSet : String → Option FAAddress
  adrStringLen : Nat
  tknsUnmarshal : RawMessage → Option NFTokens
  compactLen : RawMessage → Nat
  maxCapacity : Nat
  range : StrMap RawMessage → StrMap RawMessage

/-- The map `json.Unmarshal` fills from an object: a key that occurs again takes
the later value. -/
def decodeObject (members : List Member) : StrMap RawMessage :=
  members.foldl (fun sm mb => sm.set mb.key mb.value) []

/-- The text length of one member once compacted: two quotes around the key text,
a colon and the compacted value. -/
def Env.memberLen (env : Env) (mb : Member) : Nat :=
  goLen mb.key + mb.escapes + 3 + env.compactLen mb.value

/-- The length of `compactJSON(data)` for the whole input: two braces, the
members, and one comma between neighbours. -/
def Env.compactJSONLen (env : Env) : Data → Nat
  | Data.invalid => 0
  | Data.null => 4
  | Data.object members =>
    2 + (members.map env.memberLen).sum + (members.length - 1)

/-- The loop of `UnmarshalJSON` over the decoded map, carrying `*m`, `numTkns`
and `expectedJSONLen`. -/
def unmarshalLoop (env : Env) :
    List (String × RawMessage) → AddressNFTokensMap → Nat → Nat →
      Except Err (AddressNFTokensMap × Nat)
  | [], m, _, expectedJSONLen => Except.ok (m, expectedJSONLen)
  | (adrStr, data) :: rest, m, numTkns, expectedJSONLen =>
    match env.adrSet adrStr with
    | none => Except.error (Err.badAddress adrStr)
    | some adr =>
      match env.tknsUnmarshal data with
      | none => Except.error (Err.badTokens adr)
      | some tkns =>
        if numTkns + tkns.ids.length > env.maxCapacity then
          Except.error Err.capacity
        else
          match m.NoNFTokensIntersection tkns with
          | some err => Except.error err
          | none =>
            unmarshalLoop env rest (m.set adr tkns) (numTkns + tkns.ids.length)
              (expectedJSONLen + env.compactLen data)

/-- `UnmarshalJSON`: the map it leaves in `*m` when it returns nil, or its error. -/
def UnmarshalJSON (env : Env) (data : Data) : Except Err AddressNFTokensMap :=
  match data with
  | Data.invalid => Except.error Err.notJSON
  | Data.null => Except.error Err.empty
  | Data.object members =>
    let adrStrDataMap := decodeObject members
    if adrStrDataMap.length = 0 then
      Except.error Err.empty
    else
      let adrJSONLen := 4 + env.adrStringLen
      let expectedJSONLen := 2 - 1 + adrStrDataMap.length * adrJSONLen
      match unmarshalLoop env (env.range adrStrDataMap) AddressNFTokensMap.empty 0
          expectedJSONLen with
      | Except.error err => Except.error err
      | Except.ok (m, expectedJSONLen1) =>
        if expectedJSONLen1 ≠ env.compactJSONLen data then
          Except.error Err.unexpectedJSONLength
        else
          Except.ok m

/-- The canonical length of the members of a decoded map, one address string per
key. -/
def objLen (env : Env) (sm : StrMap RawMessage) : Nat :=
  (sm.map (fun e => 4 + env.adrStringLen + env.compactLen e.2)).sum

/-- The canonical length the members of a text would have with one address string
per key. -/
def textLen (env : Env) (ms : List Member) : Nat :=
  (ms.map (fun mb => 4 + env.adrStringLen + env.compactLen mb.value)).sum

/-- The number of token ids the values of a decoded map hold in total, the final
value of the running total `numTkns`. -/
def tokenTotal (env : Env) (sm : StrMap RawMessage) : Nat :=
  (sm.map (fun e =>
    match env.tknsUnmarshal e.2 with
    | some tkns => tkns.ids.length
    | none => 0)).sum

end Fat1

end Fatd

/-! ## internal/runtime/runtime.go -/

namespace Fatd

namespace Runtime

/-- The dynamic type of a Go `error` value, as far as the type switch of `Call`
tells types apart. -/
inductive ErrType where
  | revert
  | execLimitExceeded
  | selfDestruct
  | plain
deriving DecidableEq, Repr

/-- A non-nil Go `error`: its dynamic type and the string `Error()` returns. -/
structure Error where
  type : ErrType
  msg : String
deriving DecidableEq, Repr

/-- What the sandbox did during one call, as `Call` observes it: the value and
error the exported function returns, what `wasmer.GetLastError` answers when
asked, the `Err` field of the context when the function returns, and the table as
the call left it inside the savepoint. -/
structure SandboxRun where
  v : Int
  callErr : Option Error
  lastErrStr : String
  lastErrErr : Option Error
  ctxErr : Option Error
  table : DB.Table
deriving DecidableEq, Repr

/-- The steps `Call` takes on the connection and the sandbox. -/
inductive Event where
  | save
  | setContextData
  | invoke
  | release
  | rollback
deriving DecidableEq, Repr

/-- The named results of `Call`, the table it leaves and the steps it took. -/
structure CallResult where
  v : Int
  txErr : Option Error
  err : Option Error
  table : DB.Table
  trace : List Event
deriving DecidableEq, Repr

/-- The message `fmt.Sprintf` builds for a failed call of an exported function. -/
def failedToCall (fname : String) : String :=
  "Failed to call the `" ++ fname ++ "` exported function."

/-- The last statement of `Call`: the switch on the dynamic type of `ctx.Err`,
applied to the named results as they stand. -/
def classifyCtx (ctxErr : Option Error) (v : Int) (txErr err : Option Error) :
    Int × Option Error × Option Error :=
  match ctxErr with
  | none => (v, txErr, err)
  | some c =>
    match c.type with
    | ErrType.revert => (v, some c, err)
    | ErrType.execLimitExceeded => (v, some c, err)
    | ErrType.selfDestruct => (v, none, err)
    | ErrType.plain => (v, txErr, some c)

/-- The body of `Call` after the savepoint is open, up to its `return`: the named
results `(v, txErr, err)`. -/
def callBody (execLimitStr : String) (fname : String) (run : SandboxRun) :
    Int × Option Error × Option Error :=
  match run.callErr with
  | none => classifyCtx run.ctxErr run.v none none
  | some e =>
    if e.msg = failedToCall fname then
      match run.lastErrErr with
      | some e2 => classifyCtx run.ctxErr run.v none (some e2)
      | none =>
        if run.lastErrStr ≠ execLimitStr then
          (run.v, none, some ⟨ErrType.plain, run.lastErrStr⟩)
        else
          classifyCtx run.ctxErr run.v (some ⟨ErrType.execLimitExceeded, execLimitStr⟩) none
    else
      classifyCtx run.ctxErr run.v none (some e)

/-- The function `sqlitex.Save` returns, called on the error the deferred closure
picks: RELEASE when that error is nil, ROLLBACK otherwise. -/
def releaseSavepoint (picked : Option Error) : Event :=
  match picked with
  | none => Event.release
  | some _ => Event.rollback

/-- `VM.Call`: `exports` are the names of `vm.Exports`, `execLimitStr` is
`ErrorExecLimitExceededString`, `table` the balances before the call. -/
def Call (exports : List String) (execLimitStr : String) (table : DB.Table)
    (fname : String) (run : SandboxRun) : CallResult :=
  if fname ∉ exports then
    ⟨0, some ⟨ErrType.plain, "unknown function"⟩, none, table, []⟩
  else
    let r := callBody execLimitStr fname run
    let closing := if r.2.2 ≠ none then releaseSavepoint r.2.2 else releaseSavepoint r.2.1
    ⟨r.1, r.2.1, r.2.2,
      if closing = Event.release then run.table else table,
      [Event.save, Event.setContextData, Event.invoke, closing]⟩

/-- The error the call itself leaves in `err` before `ctx.Err` is looked at: the
exported function's own error, or the failure of `GetLastError`. -/
def pendingErr (fname : String) (run : SandboxRun) : Option Error :=
  match run.callErr with
  | none => none
  | some e => if e.msg = failedToCall fname then run.lastErrErr else some e

/-- The call reported the execution limit through `GetLastError`. -/
def hitExecLimit (execLimitStr fname : String) (run : SandboxRun) : Prop :=
  ∃ e, run.callErr = some e ∧ e.msg = failedToCall fname ∧ run.lastErrErr = none ∧
    run.lastErrStr = execLimitStr

end Runtime

end Fatd

/-! ## fat0/entry.go -/

namespace Fatd

namespace Fat0

/-- A byte string (`factom.Bytes`, `[]byte`), every byte a number. -/
abbrev Bytes := List Nat

/-- The fields of `factom.Entry` that signing and validation use; `Timestamp` is a
`time.Time`, in nanoseconds since the Unix epoch. -/
structure Entry where
  ChainID : Bytes
  Content : Bytes
  ExtIDs : List Bytes
  Timestamp : Int
deriving DecidableEq, Repr

/-- `factom.RCDType`, the type byte of a reveal datum. -/
def RCDType : Nat := 1

/-- `ed25519.PublicKeySize`. -/
def PublicKeySize : Nat := 32

/-- `factom.RCDSize`: the type byte and a public key. -/
def RCDSize : Nat := PublicKeySize + 1

/-- `factom.SignatureSize`, `ed25519.SignatureSize`. -/
def SignatureSize : Nat := 64

/-- A signer (`factom.Address`): a private key and its 32-byte public key. -/
structure Address where
  PrivateKey : Bytes
  PublicKey : Bytes
  pubLen : PublicKey.length = PublicKeySize

/-- Modelled from the spec: `factom.Address.RCD` is not among the sources; the
reveal datum is "a typed commitment to a public key", the type byte followed by
the key. -/
def Address.RCD (a : Address) : Bytes := RCDType :: a.PublicKey

/-- The primitives of `crypto/sha512` and `ed25519`: the hash, `Sign` (its result
is a 64-byte array) and `VerifyCanonical`. -/
structure Crypto where
  sum512 : Bytes → Bytes
  sign : Bytes → Bytes → Bytes
  signLen : ∀ key msg, (sign key msg).length = SignatureSize
  verify : Bytes → Bytes → Bytes → Bool

/-- The decimal digits of a number, most significant first, as ASCII bytes; the
first argument bounds the number of steps. -/
def digitsAux : Nat → Nat → Bytes → Bytes
  | 0, _, acc => acc
  | fuel + 1, n, acc =>
    if n < 10 then (48 + n) :: acc else digitsAux fuel (n / 10) ((48 + n % 10) :: acc)

/-- `strconv.FormatUint(n, 10)`. -/
def FormatUint (n : Nat) : Bytes := digitsAux (n + 1) n []

/-- `strconv.FormatInt(i, 10)`. -/
def FormatInt (i : Int) : Bytes :=
  if i < 0 then 45 :: FormatUint (-i).toNat else FormatUint i.toNat

/-- One step of reading decimal digits: the value so far, `none` once a byte is
not a digit. -/
def parseStep (acc : Option Nat) (c : Nat) : Option Nat :=
  match acc with
  | none => none
  | some v => if 48 ≤ c ∧ c ≤ 57 then some (v * 10 + (c - 48)) else none

/-- The value of a non-empty string of decimal digits, `none` on any other string. -/
def parseDigits (s : Bytes) : Option Nat :=
  if s = [] then none else s.foldl parseStep (some 0)

/-- `strconv.ParseInt(s, 10, 64)`: an optional sign, decimal digits, and a value
that fits 64 signed bits; `none` is an error. -/
def ParseInt (s : Bytes) : Option Int :=
  match s with
  | [] => none
  | c :: rest =>
    let neg := decide (c = 45)
    let ds := if c = 43 ∨ c = 45 then rest else s
    match parseDigits ds with
    | none => none
    | some un =>
      if ¬ neg ∧ 2 ^ 63 ≤ un then none
      else if neg ∧ 2 ^ 63 < un then none
      else some (if neg then -(un : Int) else (un : Int))

/-- Modelled from the spec: `digitStrLen` is not among the sources; it is the
length of the decimal string of a number, the "width" an index is padded to. -/
def digitStrLen (d : Int) : Nat := (FormatInt d).length

/-- A nanosecond count as a signed 64-bit integer, wrapping. -/
def wrap64 (i : Int) : Int := (i + 2 ^ 63) % 2 ^ 64 - 2 ^ 63

/-- One second, `time.Second`, in nanoseconds. -/
def second : Int := 1000000000

/-- Twelve hours, `12 * time.Hour`, in nanoseconds. -/
def twelveHours : Int := 12 * 3600 * second

/-- `time.Unix(sec, 0)` in nanoseconds since the epoch: the seconds are kept as a
signed 64-bit count from the year 1, and that sum wraps. -/
def timeUnix (sec : Int) : Int := (wrap64 (sec + 62135596800) - 62135596800) * second

/-- `t.Sub(u)`: the difference as a `time.Duration`, held at the ends of the signed
64-bit range when it does not fit. -/
def timeSub (t u : Int) : Int :=
  if t - u < -(2 ^ 63) then -(2 ^ 63) else if 2 ^ 63 - 1 < t - u then 2 ^ 63 - 1 else t - u

/-- `t.Unix()`: whole seconds since the epoch, rounded down. -/
def timeToUnix (t : Int) : Int := t / second

/-- The errors of `ValidExtIDs`; the number is the one printed in `ExtIDs[%v]`. -/
inductive ValidErr where
  | invalidNumberOfExtIDs
  | timestampSalt
  | timestampSaltExpired
  | invalidRCDSize (k : Nat)
  | invalidRCDType (k : Nat)
  | invalidSignatureSize (k : Nat)
  | invalidSignature (k : Nat)
deriving DecidableEq, Repr

/-- What a validation returns: nil, an error, or a run-time panic (an index or a
slice bound out of range). -/
inductive Verdict where
  | nil
  | error (err : ValidErr)
  | panic
deriving DecidableEq, Repr

/-- `make(factom.Bytes, n)`. -/
def zeros (n : Nat) : Bytes := List.replicate n 0

/-- `copy(dst[i:], src)`: the new `dst` and the number of bytes copied; `none` is
the panic of a slice bound out of range. -/
def copyAt (dst : Bytes) (i : Int) (src : Bytes) : Option (Bytes × Nat) :=
  if i < 0 ∨ (dst.length : Int) < i then none
  else
    let k := i.toNat
    let n := min (dst.length - k) src.length
    some (dst.take k ++ src.take n ++ dst.drop (k + n), n)

/-- `validTimestamp`. -/
def validTimestamp (e : Entry) : Verdict :=
  match e.ExtIDs.head? with
  | none => Verdict.panic
  | some salt =>
    match ParseInt salt with
    | none => Verdict.error ValidErr.timestampSalt
    | some sec =>
      let ts := timeUnix sec
      let diff := timeSub e.Timestamp ts
      if -twelveHours > diff ∨ diff > twelveHours then
        Verdict.error ValidErr.timestampSaltExpired
      else Verdict.nil

/-- The message buffer both `Sign` and `validSignatures` set up: `maxMsgLen` zero
bytes, then the time salt, the chain id and the content copied in behind the room
left for the index; `none` is a panic. -/
def initMsg (maxRcdSigIDSaltStrLen : Nat) (timeSalt chainID content : Bytes) : Option Bytes :=
  let maxMsgLen := maxRcdSigIDSaltStrLen + timeSalt.length + chainID.length + content.length
  let msg := zeros maxMsgLen
  match copyAt msg (maxRcdSigIDSaltStrLen : Int) timeSalt with
  | none => none
  | some (msg1, n1) =>
    match copyAt msg1 ((maxRcdSigIDSaltStrLen : Int) + n1) chainID with
    | none => none
    | some (msg2, n2) =>
      match copyAt msg2 ((maxRcdSigIDSaltStrLen : Int) + n1 + n2) content with
      | none => none
      | some (msg3, _) => some msg3

/-- The loop of `validSignatures`: `todo` pairs remain from index `rcdSigID` on;
`msg`, `pubKey` and `sig` are the buffers shared by all iterations. -/
def validSignaturesLoop (c : Crypto) (maxRcdSigIDSaltStrLen : Nat) (rcdSigs : List Bytes) :
    Nat → Nat → Bytes → Bytes → Bytes → Verdict
  | 0, _, _, _, _ => Verdict.nil
  | todo + 1, rcdSigID, msg, pubKey, sig =>
    let rcdSigIDSalt := FormatUint rcdSigID
    match copyAt msg ((maxRcdSigIDSaltStrLen : Int) - rcdSigIDSalt.length) rcdSigIDSalt with
    | none => Verdict.panic
    | some (msg1, _) =>
      let msgHash := c.sum512 msg1
      match rcdSigs[rcdSigID * 2]?, rcdSigs[rcdSigID * 2 + 1]? with
      | some rcd, some s =>
        if rcd.length < 1 then Verdict.panic
        else
          match copyAt pubKey 0 (rcd.drop 1), copyAt sig 0 s with
          | some (pubKey1, _), some (sig1, _) =>
            if ¬ c.verify pubKey1 msgHash sig1 then
              Verdict.error (ValidErr.invalidSignature (rcdSigID * 2 + 2))
            else
              validSignaturesLoop c maxRcdSigIDSaltStrLen rcdSigs todo (rcdSigID + 1)
                msg1 pubKey1 sig1
          | _, _ => Verdict.panic
      | _, _ => Verdict.panic

/-- `validSignatures`. -/
def validSignatures (c : Crypto) (e : Entry) : Verdict :=
  let numRcdSigPairs := e.ExtIDs.length / 2
  let maxRcdSigIDSaltStrLen := digitStrLen (numRcdSigPairs : Int)
  match e.ExtIDs.head? with
  | none => Verdict.panic
  | some timeSalt =>
    match initMsg maxRcdSigIDSaltStrLen timeSalt e.ChainID e.Content with
    | none => Verdict.panic
    | some msg =>
      validSignaturesLoop c maxRcdSigIDSaltStrLen (e.ExtIDs.drop 1) numRcdSigPairs 0 msg
        (zeros PublicKeySize) (zeros SignatureSize)

/-- The loop of `ValidExtIDs` over the pairs: sizes and type byte. -/
def structureLoop (extIDs : List Bytes) : Nat → Nat → Verdict
  | 0, _ => Verdict.nil
  | todo + 1, i =>
    match extIDs[i * 2]? with
    | none => Verdict.panic
    | some rcd =>
      if rcd.length ≠ RCDSize then Verdict.error (ValidErr.invalidRCDSize (i + 1))
      else
        match rcd.head? with
        | none => Verdict.panic
        | some b =>
          if b ≠ RCDType then Verdict.error (ValidErr.invalidRCDType (i + 1))
          else
            match extIDs[i * 2 + 1]? with
            | none => Verdict.panic
            | some sig =>
              if sig.length ≠ SignatureSize then
                Verdict.error (ValidErr.invalidSignatureSize (i + 1))
              else structureLoop extIDs todo (i + 1)

/-- `ValidExtIDs`. -/
def ValidExtIDs (c : Crypto) (e : Entry) : Verdict :=
  if e.ExtIDs.length < 3 ∨ e.ExtIDs.length % 2 ≠ 1 then
    Verdict.error ValidErr.invalidNumberOfExtIDs
  else
    match validTimestamp e with
    | Verdict.nil =>
      let extIDs := e.ExtIDs.drop 1
      match structureLoop extIDs (extIDs.length / 2) 0 with
      | Verdict.nil => validSignatures c e
      | v => v
    | v => v

/-- `newTimestampSalt`: `now` is what `time.Now()` returns and `rnd` what
`rand.Int63n(int64(12 * time.Hour))` returns. -/
def newTimestampSalt (now rnd : Int) : Bytes :=
  FormatInt (timeToUnix (now - rnd))

/-- The loop of `Sign` over the signers: the shared buffer and the `ExtIDs` built
so far; `none` is a panic. -/
def signLoop (c : Crypto) (maxRcdSigIDSaltStrLen : Nat) :
    List Address → Nat → Bytes → List Bytes → Option (List Bytes)
  | [], _, _, extIDs => some extIDs
  | a :: rest, rcdSigID, msg, extIDs =>
    let rcdSigIDSalt := FormatUint rcdSigID
    match copyAt msg ((maxRcdSigIDSaltStrLen : Int) - rcdSigIDSalt.length) rcdSigIDSalt with
    | none => none
    | some (msg1, _) =>
      let msgHash := c.sum512 msg1
      let sig := c.sign a.PrivateKey msgHash
      signLoop c maxRcdSigIDSaltStrLen rest (rcdSigID + 1) msg1 (extIDs ++ [a.RCD, sig])

/-- Modelled from the spec: `SetTimestampToNow` is not among the sources; it
stores the reading of the clock in the entry's `Timestamp`. -/
def Entry.SetTimestampToNow (e : Entry) (now : Int) : Entry :=
  { e with Timestamp := now }

/-- `Sign`: the entry after the call, `none` when the call panics. `now` is the
reading of the clock, taken by `SetTimestampToNow` and by `newTimestampSalt`;
`rnd` is the random offset. Any `ExtIDs` the entry held are dropped. -/
def Sign (c : Crypto) (e : Entry) (signingSet : List Address) (now rnd : Int) : Option Entry :=
  let e0 := e.SetTimestampToNow now
  let maxRcdSigIDSaltStrLen := digitStrLen (signingSet.length : Int)
  let timeSalt := newTimestampSalt now rnd
  match initMsg maxRcdSigIDSaltStrLen timeSalt e0.ChainID e0.Content with
  | none => none
  | some msg =>
    match signLoop c maxRcdSigIDSaltStrLen signingSet 0 msg [timeSalt] with
    | none => none
    | some extIDs => some { e0 with ExtIDs := extIDs }

/-- A message with its index field: the decimal string of `i` at the right end of
a field of `width` bytes, zero bytes to its left, then the body. -/
def indexedMsg (width : Nat) (body : Bytes) (i : Nat) : Bytes :=
  zeros (width - (FormatUint i).length) ++ FormatUint i ++ body

/-- The message hashed for pair `i` of `n`: the index field is as wide as the
decimal string of `n`, the body is the time salt, the chain id and the content. -/
def rcdSigMsg (n : Nat) (timeSalt chainID content : Bytes) (i : Nat) : Bytes :=
  indexedMsg (digitStrLen (n : Int)) (timeSalt ++ chainID ++ content) i

/-- Following the words of the specification: the message whose index field is as
wide as the decimal string of the largest index present, `n - 1`. -/
def rcdSigMsgWidestIndex (n : Nat) (timeSalt chainID content : Bytes) (i : Nat) : Bytes :=
  indexedMsg (FormatUint (n - 1)).length (timeSalt ++ chainID ++ content) i

/-- The reveal data and signatures of the signers from index `i` on, in input
order, each signature over the hash of the message of its index. -/
def signedPairs (c : Crypto) (width : Nat) (body : Bytes) : List Address → Nat → List Bytes
  | [], _ => []
  | a :: rest, i =>
    a.RCD :: c.sign a.PrivateKey (c.sum512 (indexedMsg width body i))
      :: signedPairs c width body rest (i + 1)

/-- The reveal datum of pair `i` in the list of pairs, `extIDs[i*2]` (empty when
absent). -/
def rcdAt (extIDs : List Bytes) (i : Nat) : Bytes := (extIDs[i * 2]?).getD []

/-- The signature of pair `i` in the list of pairs, `extIDs[i*2+1]` (empty when
absent). -/
def sigAt (extIDs : List Bytes) (i : Nat) : Bytes := (extIDs[i * 2 + 1]?).getD []

/-- The reveal datum of pair `i`, `ExtIDs[1:][i*2]`, which is `ExtIDs[2i+1]`. -/
def Entry.rcd (e : Entry) (i : Nat) : Bytes := rcdAt (e.ExtIDs.drop 1) i

/-- The signature of pair `i`, `ExtIDs[1:][i*2+1]`, which is `ExtIDs[2i+2]`. -/
def Entry.sig (e : Entry) (i : Nat) : Bytes := sigAt (e.ExtIDs.drop 1) i

/-- The time salt, `ExtIDs[0]` (empty when absent). -/
def Entry.timeSalt (e : Entry) : Bytes := (e.ExtIDs.head?).getD []

/-- The number of pairs `validSignatures` counts, `len(ExtIDs) / 2`. -/
def Entry.numPairs (e : Entry) : Nat := e.ExtIDs.length / 2

/-- Pair `i` has a reveal datum of `RCDSize` bytes starting with `RCDType` and a
signature of `SignatureSize` bytes. -/
def Entry.PairStructure (e : Entry) (i : Nat) : Prop :=
  (e.rcd i).length = RCDSize ∧ (e.rcd i).head? = some RCDType ∧
    (e.sig i).length = SignatureSize

/-- The signature of pair `i` verifies under the key of its reveal datum, over the
hash of the message of index `i`. -/
def Entry.PairVerifies (c : Crypto) (e : Entry) (i : Nat) : Prop :=
  c.verify ((e.rcd i).drop 1)
    (c.sum512 (rcdSigMsg e.numPairs e.timeSalt e.ChainID e.Content i)) (e.sig i) = true

end Fat0

end Fatd

/-! ## Concrete inputs -/

namespace Fatd

namespace DB

/-- An address. -/
def adrA : FAAddress := ⟨7⟩

/-- A table in which `adrA` holds 5. -/
def tableFive : Table := [⟨1, adrA, 5⟩]

/-- The largest unsigned 64-bit amount. -/
def maxUint64 : Nat := 18446744073709551615

end DB

namespace Fat1

/-- Three addresses. -/
def adr1 : FAAddress := ⟨1⟩

def adr2 : FAAddress := ⟨2⟩

def adr3 : FAAddress := ⟨3⟩

/-- One address holding the tokens 1 and 2. -/
def mapOneTwo : AddressNFTokensMap := ⟨[(adr1, ⟨[1, 2], by decide⟩)], by decide⟩

/-- Token 1 held under two addresses. -/
def mapOneOne : AddressNFTokensMap :=
  ⟨[(adr1, ⟨[1], by decide⟩), (adr2, ⟨[1], by decide⟩)], by decide⟩

/-- Tokens 1 and 2 held under two addresses, one each. -/
def mapSplit : AddressNFTokensMap :=
  ⟨[(adr1, ⟨[1], by decide⟩), (adr2, ⟨[2], by decide⟩)], by decide⟩

/-- Tokens 2 and 1 held under a third address. -/
def mapThird : AddressNFTokensMap := ⟨[(adr3, ⟨[2, 1], by decide⟩)], by decide⟩

/-- A toy environment: two address strings of three bytes, two token lists, the
compacted length of a value taken as its length, capacity 4, `range` in stored
order. -/
def envToy : Env where
  adrSet := fun s =>
    if s = "FA1" then some adr1 else if s = "FA2" then some adr2 else none
  adrStringLen := 3
  tknsUnmarshal := fun v =>
    if v = "[1]" then some ⟨[1], by decide⟩
    else if v = "[2]" then some ⟨[2], by decide⟩
    else if v = "[3,4,5]" then some ⟨[3, 4, 5], by decide⟩ else none
  compactLen := fun v => goLen v
  maxCapacity := 4
  range := fun sm => sm

/-- An object text with the key `FA1` twice. -/
def dataDupKey : Data :=
  Data.object [⟨"FA1", 0, "[1]"⟩, ⟨"FA1", 0, "[2]"⟩]

/-- An object text with two addresses and one token each. -/
def dataTwo : Data :=
  Data.object [⟨"FA1", 0, "[1]"⟩, ⟨"FA2", 0, "[2]"⟩]

/-- A toy `factom.FAAddress.String`: as many letters as the address number. -/
def adrStringToy (a : FAAddress) : String := String.mk (List.replicate a.val 'F')

end Fat1

namespace Runtime

/-- A run in which the exported function fails with an error of its own and the
context holds a revert. -/
def runTrapRevert : SandboxRun :=
  ⟨0, some ⟨ErrType.plain, "trap"⟩, "", none, some ⟨ErrType.revert, "revert"⟩, [⟨1, DB.adrA, 9⟩]⟩

/-- A run that returns normally after changing a balance. -/
def runNormal : SandboxRun :=
  ⟨1, none, "", none, none, [⟨1, DB.adrA, 9⟩]⟩

/-- A run that changes a balance, sets a revert in the context and returns
without an error. -/
def runRevert : SandboxRun :=
  ⟨0, none, "", none, some ⟨ErrType.revert, "revert"⟩, [⟨1, DB.adrA, 9⟩]⟩

/-- A run in which the exported function fails with an error of its own and the
context holds a self-destruct. -/
def runTrapSelfDestruct : SandboxRun :=
  ⟨0, some ⟨ErrType.plain, "trap"⟩, "", none, some ⟨ErrType.selfDestruct, "self destruct"⟩,
    [⟨1, DB.adrA, 9⟩]⟩

/-- A run that changes a balance, sets a self-destruct in the context and returns
without an error. -/
def runSelfDestruct : SandboxRun :=
  ⟨0, none, "", none, some ⟨ErrType.selfDestruct, "self destruct"⟩, [⟨1, DB.adrA, 9⟩]⟩

end Runtime

end Fatd

namespace Fatd

namespace Fat0

/-- A toy signature scheme: the public key is the private key, a signature is the
first 64 bytes of key and message (filled up with zeros), and it verifies when it
is that. The hash is the identity. -/
def cryptoToy : Crypto where
  sum512 := fun msg => msg
  sign := fun key msg => (key ++ msg ++ zeros 64).take 64
  signLen := by
    intro key msg
    simp only [SignatureSize, zeros, List.length_take, List.length_append, List.length_replicate]
    omega
  verify := fun pub msg sig => decide (sig = (pub ++ msg ++ zeros 64).take 64)

/-- A signer of the toy scheme. -/
def signerToy : Address := ⟨List.replicate 32 7, List.replicate 32 7, by decide⟩

/-- An entry to sign. -/
def entryToy : Entry := ⟨List.replicate 32 9, [123, 125], [], 0⟩

/-- Ten signers of the toy scheme. -/
def signersTen : List Address := List.replicate 10 signerToy

/-- An entry whose only pair has a signature of 63 bytes. -/
def entryShortSig : Entry :=
  ⟨[], [], [[48], 1 :: List.replicate 32 0, List.replicate 63 0], 0⟩

/-- An entry whose second pair has a reveal datum of 5 bytes. -/
def entryShortRCD : Entry :=
  ⟨[], [], [[48], 1 :: List.replicate 32 0, List.replicate 64 0, List.replicate 5 1,
    List.replicate 64 0], 0⟩

/-- An entry with the salt `5`, five seconds after the epoch. -/
def entrySaltFive : Entry := ⟨[], [], [[53]], 5000000000⟩

/-- The entry with the first byte of `ExtIDs[2]`, the first signature, changed. -/
def flipFirstSig (e : Entry) : Entry :=
  { e with ExtIDs := e.ExtIDs.modify (fun s => s.modify (fun b => b + 1) 0) 2 }

/-- A clock reading half a second after a full second. -/
def nowHalf : Int := 1541000000500000000

/-- The largest offset `rand.Int63n(int64(12 * time.Hour))` can return. -/
def rndMax : Int := 43199999999999

end Fat0

end Fatd

/-! # Theorems -/

namespace Fatd

namespace DB

theorem int64_of_lt {u : Nat} (h : u < 2 ^ 63) : int64 u = (u : Int) := by
  have h1 : u % 2 ^ 64 = u := Nat.mod_eq_of_lt (by omega)
  simp only [int64, h1]
  rw [if_pos h]

theorem findRow_some_mem {t : Table} {adr : FAAddress} {r : Row}
    (h : findRow t adr = some r) : r ∈ t ∧ r.address = adr := by
  unfold findRow at h
  exact ⟨List.mem_of_find?_eq_some h, by simpa using List.find?_some h⟩

/-- Within the signed range, a debit on an address without a row, or above its
balance, is turned down with the semantic error and the table is left as it was. -/
theorem addressSub_insufficient (t : Table) (adr : FAAddress) (sub : Nat)
    (hpos : 0 < sub) (hlt : sub < 2 ^ 63)
    (h : findRow t adr = none ∨ balanceOf t adr < (sub : Int)) :
    ∃ id, addressSub t adr sub = Outcome.ret ⟨t, id, some insufficientBalance, none⟩ := by
  have h1 : sub % 2 ^ 64 = sub := Nat.mod_eq_of_lt (by omega)
  have h0 : ¬ sub % 2 ^ 64 = 0 := by omega
  unfold addressSub
  rw [if_neg h0]
  cases hf : findRow t adr with
  | none => exact ⟨0, by simp [SelectAddressID, hf]⟩
  | some r =>
    have hb : r.balance < (sub : Int) := by
      rcases h with h | h
      · rw [hf] at h; cases h
      · simpa [balanceOf, hf] using h
    obtain ⟨hmem, -⟩ := findRow_some_mem hf
    refine ⟨r.id, ?_⟩
    simp only [SelectAddressID, hf]
    by_cases hneg : r.id < 0
    · rw [if_pos hneg]
    · rw [if_neg hneg]
      have hany : (List.filter (fun r' : Row => decide (r'.id = r.id)) t).any
          (fun r' => decide (r'.balance - int64 sub < 0)) = true := by
        rw [List.any_eq_true]
        refine ⟨r, ?_, ?_⟩
        · simp [List.mem_filter, hmem]
        · rw [int64_of_lt hlt]
          simpa using hb
      simp only [hany, if_true]

end DB

end Fatd

namespace Fatd

namespace Fat1

theorem mem_allIDs (m : AddressNFTokensMap) (t : NFTokenID) : t ∈ m.allIDs ↔ m.Holds t := by
  simp [AddressNFTokensMap.allIDs, AddressNFTokensMap.Holds, List.mem_flatMap]

theorem foldl_count (l : List (FAAddress × NFTokens)) (k : Nat) :
    l.foldl (fun numTknIDs e => numTknIDs + e.2.ids.length) k
      = k + (l.flatMap (fun e => e.2.ids)).length := by
  induction l generalizing k with
  | nil => simp
  | cons e l ih =>
    simp only [List.foldl_cons, List.flatMap_cons, List.length_append]
    rw [ih]
    omega

theorem numNFTokenIDs_eq (m : AddressNFTokensMap) : m.NumNFTokenIDs = m.allIDs.length := by
  unfold AddressNFTokensMap.NumNFTokenIDs AddressNFTokensMap.allIDs
  rw [foldl_count]
  omega

theorem keys_pairwise (m : AddressNFTokensMap) :
    m.entries.Pairwise (fun a b => a.1 ≠ b.1) := by
  have h := m.nodupKeys
  unfold List.Nodup at h
  exact (List.pairwise_map.mp h)

theorem unique_iff_nodup (m : AddressNFTokensMap) : m.Unique ↔ m.allIDs.Nodup := by
  unfold AddressNFTokensMap.allIDs
  rw [List.nodup_flatMap]
  constructor
  · intro hu
    refine ⟨fun e _ => e.2.nodup, ?_⟩
    refine (keys_pairwise m).imp_of_mem ?_
    intro a b ha hb hne
    show List.Disjoint a.2.ids b.2.ids
    intro t hta htb
    exact hne (hu a ha b hb t hta htb)
  · rintro ⟨-, hp⟩ e1 h1 e2 h2 t ht1 ht2
    by_contra hne
    have hdis : ∀ a ∈ m.entries, ∀ b ∈ m.entries, a ≠ b → List.Disjoint a.2.ids b.2.ids := by
      intro a ha b hb hab
      have hsymm : ∀ x y : FAAddress × NFTokens,
          (List.Disjoint on fun e : FAAddress × NFTokens => e.2.ids) x y →
          (List.Disjoint on fun e : FAAddress × NFTokens => e.2.ids) y x := by
        intro x y hxy
        exact List.Disjoint.symm hxy
      exact List.Pairwise.forall hsymm hp ha hb hab
    have hne2 : e1 ≠ e2 := fun h => hne (by rw [h])
    exact hdis e1 h1 e2 h2 hne2 ht1 ht2

/-- The verdict of `NFTokenIDsConserved`: equal counts, and every id of the second
map held by the first. -/
theorem conserved_iff (m n : AddressNFTokensMap) :
    m.NFTokenIDsConserved n = none ↔
      m.NumNFTokenIDs = n.NumNFTokenIDs ∧ ∀ t, n.Holds t → m.Holds t := by
  unfold AddressNFTokensMap.NFTokenIDsConserved
  by_cases hc : m.NumNFTokenIDs = n.NumNFTokenIDs
  · simp only [hc, ne_eq, not_true_eq_false, if_false, true_and]
    cases hf : n.allIDs.find? (fun tknID => decide (tknID ∉ m.allIDs)) with
    | none =>
      simp only [true_iff]
      intro t ht
      have h := List.find?_eq_none.mp hf t ((mem_allIDs n t).mpr ht)
      simp only [decide_eq_true_eq, not_not] at h
      exact (mem_allIDs m t).mp h
    | some t =>
      simp only [false_iff, reduceCtorEq]
      intro hall
      have h1 := List.find?_some hf
      have h2 := List.mem_of_find?_eq_some hf
      simp only [decide_eq_true_eq] at h1
      exact h1 ((mem_allIDs m t).mpr (hall t ((mem_allIDs n t).mp h2)))
  · simp [hc]

end Fat1

end Fatd

namespace Fatd

namespace Fat1

/-- C4: for two maps that each hold every token id under at most one address,
`NFTokenIDsConserved` returns nil exactly when the two maps hold the same set of
token ids; so an id held by one map and absent from the other (as after replacing
one id by a foreign one) makes it return an error. -/
theorem NFTokenIDsConserved_iff_same_ids (m n : AddressNFTokensMap)
    (hm : m.Unique) (hn : n.Unique) :
    (m.NFTokenIDsConserved n = none ↔ ∀ t, m.Holds t ↔ n.Holds t) ∧
      ((∃ t, (m.Holds t ∧ ¬ n.Holds t) ∨ (n.Holds t ∧ ¬ m.Holds t)) →
        m.NFTokenIDsConserved n ≠ none) := by
  have hmn := (unique_iff_nodup m).mp hm
  have hnn := (unique_iff_nodup n).mp hn
  have key : m.NFTokenIDsConserved n = none ↔ ∀ t, m.Holds t ↔ n.Holds t := by
    rw [conserved_iff]
    constructor
    · rintro ⟨hc, hsub⟩ t
      refine ⟨fun ht => ?_, hsub t⟩
      have hsubset : n.allIDs ⊆ m.allIDs := fun x hx =>
        (mem_allIDs m x).mpr (hsub x ((mem_allIDs n x).mp hx))
      have hsp : n.allIDs.Subperm m.allIDs := List.subperm_of_subset hnn hsubset
      have hlen : m.allIDs.length ≤ n.allIDs.length := by
        rw [← numNFTokenIDs_eq, ← numNFTokenIDs_eq, hc]
      have hperm := hsp.perm_of_length_le hlen
      exact (mem_allIDs n t).mp (hperm.mem_iff.mpr ((mem_allIDs m t).mpr ht))
    · intro h
      refine ⟨?_, fun t ht => (h t).mpr ht⟩
      rw [numNFTokenIDs_eq, numNFTokenIDs_eq]
      have hperm : m.allIDs.Perm n.allIDs := by
        rw [List.perm_ext_iff_of_nodup hmn hnn]
        intro t
        rw [mem_allIDs, mem_allIDs]
        exact h t
      exact hperm.length_eq
  refine ⟨key, ?_⟩
  rintro ⟨t, ht⟩ hnone
  have h := (key.mp hnone) t
  rcases ht with ⟨h1, h2⟩ | ⟨h1, h2⟩
  · exact h2 (h.mp h1)
  · exact h2 (h.mpr h1)

/-- Witness of C4: two maps with the tokens 1 and 2, split differently over
addresses. -/
theorem NFTokenIDsConserved_iff_same_ids_witness :
    mapSplit.Unique ∧ mapThird.Unique ∧
      ((mapSplit.NFTokenIDsConserved mapThird = none ↔
          ∀ t, mapSplit.Holds t ↔ mapThird.Holds t) ∧
        ((∃ t, (mapSplit.Holds t ∧ ¬ mapThird.Holds t) ∨
            (mapThird.Holds t ∧ ¬ mapSplit.Holds t)) →
          mapSplit.NFTokenIDsConserved mapThird ≠ none)) :=
  ⟨(unique_iff_nodup mapSplit).mpr (by decide), (unique_iff_nodup mapThird).mpr (by decide),
    NFTokenIDsConserved_iff_same_ids mapSplit mapThird
      ((unique_iff_nodup mapSplit).mpr (by decide)) ((unique_iff_nodup mapThird).mpr (by decide))⟩

/-- C5, as stated, fails: with token 1 under two addresses of the second map the
counts agree and every id of the second map is in the first, so the call returns
nil, yet token 2 of the first map is absent from the second. -/
theorem NFTokenIDsConserved_not_two_sided :
    ¬ (mapOneTwo.NFTokenIDsConserved mapOneOne = none ↔
        (mapOneTwo.NumNFTokenIDs = mapOneOne.NumNFTokenIDs ∧
          (∀ t, mapOneTwo.Holds t → mapOneOne.Holds t) ∧
          (∀ t, mapOneOne.Holds t → mapOneTwo.Holds t))) := by
  intro h
  have h1 := h.mp (by decide)
  have h2 : mapOneOne.Holds 2 := h1.2.1 2 ((mem_allIDs mapOneTwo 2).mp (by decide))
  exact absurd ((mem_allIDs mapOneOne 2).mpr h2) (by decide)

/-- C5, amended: for every two maps, `NFTokenIDsConserved` returns nil if and only
if the total token counts are equal and every token id held by the second map is
held by the first. -/
theorem NFTokenIDsConserved_iff_count_and_subset (m n : AddressNFTokensMap) :
    m.NFTokenIDsConserved n = none ↔
      m.NumNFTokenIDs = n.NumNFTokenIDs ∧ ∀ t, n.Holds t → m.Holds t :=
  conserved_iff m n

end Fat1

end Fatd


namespace Fatd

namespace DB

theorem le_foldl_max (l : List Int) (k : Int) :
    k ≤ l.foldl max k ∧ ∀ x ∈ l, x ≤ l.foldl max k := by
  induction l generalizing k with
  | nil => simp
  | cons a l ih =>
    simp only [List.foldl_cons, List.mem_cons]
    obtain ⟨h1, h2⟩ := ih (max k a)
    refine ⟨le_trans (le_max_left k a) h1, ?_⟩
    rintro x (rfl | hx)
    · exact le_trans (le_max_right k x) h1
    · exact h2 x hx

theorem id_lt_nextId {t : Table} {r : Row} (h : r ∈ t) : r.id < nextId t := by
  unfold nextId
  have := (le_foldl_max (t.map Row.id) 0).2 r.id (List.mem_map_of_mem _ h)
  omega

theorem findRow_map (t : Table) (adr : FAAddress) (f : Row → Row)
    (hf : ∀ r, (f r).address = r.address) :
    findRow (t.map f) adr = (findRow t adr).map f := by
  unfold findRow
  rw [List.find?_map]
  congr 2
  funext r
  simp [hf]

theorem findRow_eq_none {t : Table} {adr : FAAddress} :
    findRow t adr = none ↔ ∀ r ∈ t, r.address ≠ adr := by
  unfold findRow
  rw [List.find?_eq_none]
  simp

theorem WF.eq_of_address {t : Table} (h : WF t) {r s : Row} (hr : r ∈ t) (hs : s ∈ t)
    (e : r.address = s.address) : r = s :=
  List.inj_on_of_nodup_map h.2.1 hr hs e

theorem WF.eq_of_id {t : Table} (h : WF t) {r s : Row} (hr : r ∈ t) (hs : s ∈ t)
    (e : r.id = s.id) : r = s :=
  List.inj_on_of_nodup_map h.1 hr hs e

/-- A map over the rows that keeps ids and addresses and changes the balance of
one row only keeps the schema constraints. -/
theorem WF.map_balance {t : Table} (h : WF t) (f : Row → Row)
    (hid : ∀ r, (f r).id = r.id) (hadr : ∀ r, (f r).address = r.address)
    (hbal : ∀ r ∈ t, 0 ≤ (f r).balance ∧ (f r).balance < 2 ^ 63) : WF (t.map f) := by
  refine ⟨?_, ?_, ?_⟩
  · have : (t.map f).map Row.id = t.map Row.id := by
      rw [List.map_map]; congr 1; funext r; exact hid r
    rw [this]; exact h.1
  · have : (t.map f).map Row.address = t.map Row.address := by
      rw [List.map_map]; congr 1; funext r; exact hadr r
    rw [this]; exact h.2.1
  · intro r hr
    obtain ⟨r0, hr0, rfl⟩ := List.mem_map.mp hr
    exact ⟨by rw [hid]; exact (h.2.2 r0 hr0).1, hbal r0 hr0⟩

/-- A credit within the signed range on a table that obeys the schema: no error,
the balance of the address grows by the amount, every other balance stays. -/
theorem addressAdd_spec (t : Table) (adr : FAAddress) (add : Nat) (hwf : WF t)
    (hsum : balanceOf t adr + (add : Int) < 2 ^ 63) (hb : 0 ≤ balanceOf t adr):
    ∃ t1 id, addressAdd t adr add = Outcome.ret ⟨t1, id, none⟩ ∧ WF t1 ∧
      balanceOf t1 adr = balanceOf t adr + (add : Int) ∧
      (findRow t1 adr).isSome ∧
      ∀ other, other ≠ adr → findRow t1 other = findRow t other := by
  have hlt : add < 2 ^ 63 := by omega
  have hv : int64 add = (add : Int) := int64_of_lt hlt
  have hnn : ¬ (add : Int) < 0 := by omega
  unfold addressAdd
  simp only [hv, if_neg hnn]
  cases hf : findRow t adr with
  | none =>
    have hfind : findRow (t ++ [⟨nextId t, adr, (add : Int)⟩]) adr
        = some ⟨nextId t, adr, (add : Int)⟩ := by
      unfold findRow at hf ⊢
      rw [List.find?_append, hf]
      simp
    refine ⟨t ++ [⟨nextId t, adr, (add : Int)⟩], nextId t, ?_, ?_, ?_, ?_, ?_⟩
    · simp only [SelectAddressID, hfind]
    · refine ⟨?_, ?_, ?_⟩
      · rw [List.map_append]
        refine List.Nodup.append hwf.1 (List.nodup_singleton _) ?_
        intro x hx hx2
        simp only [List.map_cons, List.map_nil, List.mem_singleton] at hx2
        obtain ⟨r, hr, rfl⟩ := List.mem_map.mp hx
        have := id_lt_nextId hr
        omega
      · rw [List.map_append]
        refine List.Nodup.append hwf.2.1 (List.nodup_singleton _) ?_
        intro x hx hx2
        simp only [List.map_cons, List.map_nil, List.mem_singleton] at hx2
        obtain ⟨r, hr, rfl⟩ := List.mem_map.mp hx
        exact findRow_eq_none.mp hf r hr hx2
      · intro r hr
        rcases List.mem_append.mp hr with hr | hr
        · exact hwf.2.2 r hr
        · simp only [List.mem_singleton] at hr
          subst hr
          have := (le_foldl_max (t.map Row.id) 0).1
          simp only [nextId]
          omega
    · simp [balanceOf, hfind, hf]
    · simp [hfind]
    · intro other hne
      unfold findRow
      rw [List.find?_append]
      have : List.find? (fun r : Row => decide (r.address = other))
          [⟨nextId t, adr, (add : Int)⟩] = none := by
        simp [List.find?_cons, Ne.symm hne]
      rw [this]
      simp
  | some row =>
    obtain ⟨hmem, hadr⟩ := findRow_some_mem hf
    have hbal : balanceOf t adr = row.balance := by simp [balanceOf, hf]
    have hno : ¬ (2 : Int) ^ 63 ≤ row.balance + (add : Int) := by rw [← hbal]; omega
    simp only [if_neg hno]
    have hfm := findRow_map t adr
      (fun r => if r.address = adr then { r with balance := r.balance + (add : Int) } else r)
      (by intro r; by_cases h : r.address = adr <;> simp [h])
    refine ⟨t.map (fun r => if r.address = adr then
      { r with balance := r.balance + (add : Int) } else r), row.id, ?_, ?_, ?_, ?_, ?_⟩
    · simp only [SelectAddressID, hfm, hf, Option.map_some', hadr, if_true]
    · refine WF.map_balance hwf _ ?_ ?_ ?_
      · intro r; by_cases h : r.address = adr <;> simp [h]
      · intro r; by_cases h : r.address = adr <;> simp [h]
      · intro r hr
        by_cases h : r.address = adr
        · have : r = row := hwf.eq_of_address hr hmem (h.trans hadr.symm)
          subst this
          simp only [h, if_true]
          have := hwf.2.2 r hr
          omega
        · simp only [h, if_false]
          exact (hwf.2.2 r hr).2
    · simp [balanceOf, hfm, hf, hadr]
    · simp [hfm, hf]
    · intro other hne
      unfold findRow
      rw [List.find?_map]
      have hfun : ((fun r : Row => decide (r.address = other)) ∘
          (fun r : Row => if r.address = adr then
            { r with balance := r.balance + (add : Int) } else r))
          = (fun r : Row => decide (r.address = other)) := by
        funext r
        by_cases h : r.address = adr <;> simp [h]
      rw [hfun]
      cases hfo : List.find? (fun r : Row => decide (r.address = other)) t with
      | none => rfl
      | some r0 =>
        have h0 : r0.address = other := by simpa using List.find?_some hfo
        have : ¬ r0.address = adr := by rw [h0]; exact hne
        simp [this]


theorem WF.balance_nonneg {t : Table} (h : WF t) (adr : FAAddress) : 0 ≤ balanceOf t adr := by
  unfold balanceOf
  cases hf : findRow t adr with
  | none => simp
  | some r => exact (h.2.2 r (findRow_some_mem hf).1).2.1

/-- A debit within the signed range and within the balance, on a table that obeys
the schema: no error of either kind, the balance of the address shrinks by the
amount and every other row stays. -/
theorem addressSub_spec (t : Table) (adr : FAAddress) (sub : Nat) (hwf : WF t)
    (hpos : 0 < sub) (hle : (sub : Int) ≤ balanceOf t adr) :
    ∃ t1 id, addressSub t adr sub = Outcome.ret ⟨t1, id, none, none⟩ ∧ WF t1 ∧
      balanceOf t1 adr = balanceOf t adr - (sub : Int) ∧
      ∀ other, other ≠ adr → findRow t1 other = findRow t other := by
  cases hf : findRow t adr with
  | none =>
    exfalso
    simp only [balanceOf, hf] at hle
    omega
  | some row =>
    obtain ⟨hmem, hadr⟩ := findRow_some_mem hf
    have hbal : balanceOf t adr = row.balance := by simp [balanceOf, hf]
    have hrow := hwf.2.2 row hmem
    have hlt : sub < 2 ^ 63 := by omega
    have h0 : ¬ sub % 2 ^ 64 = 0 := by
      have : sub % 2 ^ 64 = sub := Nat.mod_eq_of_lt (by omega)
      omega
    have hidn : ¬ row.id < 0 := by omega
    have hhit : ∀ r ∈ List.filter (fun r' : Row => decide (r'.id = row.id)) t, r = row := by
      intro r hr
      rw [List.mem_filter] at hr
      exact hwf.eq_of_id hr.1 hmem (by simpa using hr.2)
    have hrowhit : row ∈ List.filter (fun r' : Row => decide (r'.id = row.id)) t := by
      simp [List.mem_filter, hmem]
    have hany1 : (List.filter (fun r' : Row => decide (r'.id = row.id)) t).any
        (fun r' => decide (r'.balance - int64 sub < 0)) = false := by
      rw [List.any_eq_false]
      intro r hr
      rw [hhit r hr, int64_of_lt hlt]
      simp only [decide_eq_true_eq]
      omega
    have hany2 : (List.filter (fun r' : Row => decide (r'.id = row.id)) t).any
        (fun r' => decide ((2 : Int) ^ 63 ≤ r'.balance - int64 sub)) = false := by
      rw [List.any_eq_false]
      intro r hr
      rw [hhit r hr, int64_of_lt hlt]
      simp only [decide_eq_true_eq]
      omega
    have hlen : ¬ (List.filter (fun r' : Row => decide (r'.id = row.id)) t).length = 0 := by
      intro h
      rw [List.length_eq_zero] at h
      rw [h] at hrowhit
      cases hrowhit
    have hfm := findRow_map t adr
      (fun r => if r.id = row.id then { r with balance := r.balance - int64 sub } else r)
      (by intro r; by_cases h : r.id = row.id <;> simp [h])
    refine ⟨t.map (fun r => if r.id = row.id then
      { r with balance := r.balance - int64 sub } else r), row.id, ?_, ?_, ?_, ?_⟩
    · unfold addressSub
      rw [if_neg h0]
      simp only [SelectAddressID, hf, if_neg hidn, hany1, hany2, if_neg hlen]
      simp
    · refine WF.map_balance hwf _ ?_ ?_ ?_
      · intro r; by_cases h : r.id = row.id <;> simp [h]
      · intro r; by_cases h : r.id = row.id <;> simp [h]
      · intro r hr
        by_cases h : r.id = row.id
        · have : r = row := hwf.eq_of_id hr hmem h
          subst this
          simp only [if_true, int64_of_lt hlt]
          omega
        · simp only [h, if_false]
          exact (hwf.2.2 r hr).2
    · rw [hbal]
      unfold balanceOf
      rw [hfm, hf]
      simp [int64_of_lt hlt]
    · intro other hne
      unfold findRow
      rw [List.find?_map]
      have hfun : ((fun r : Row => decide (r.address = other)) ∘
          (fun r : Row => if r.id = row.id then
            { r with balance := r.balance - int64 sub } else r))
          = (fun r : Row => decide (r.address = other)) := by
        funext r
        by_cases h : r.id = row.id <;> simp [h]
      rw [hfun]
      cases hfo : List.find? (fun r : Row => decide (r.address = other)) t with
      | none => rfl
      | some r0 =>
        have h0 : r0.address = other := by simpa using List.find?_some hfo
        have hm0 : r0 ∈ t := List.mem_of_find?_eq_some hfo
        have : ¬ r0.id = row.id := by
          intro hid
          have := hwf.eq_of_id hm0 hmem hid
          rw [this, hadr] at h0
          exact hne h0.symm
        simp [this]


theorem finalTable_cons (t : Table) (s : Step) (ss : List Step) :
    finalTable t (s :: ss) = finalTable s.table ss := by
  cases ss with
  | nil => simp [finalTable]
  | cons s2 ss =>
    simp only [finalTable, List.getLast?_cons_cons]
    cases h : (s2 :: ss).getLast? with
    | none => simp at h
    | some x => rfl

theorem creditTotal_nonneg (ops : List Op) : 0 ≤ creditTotal ops := by
  induction ops with
  | nil => simp [creditTotal]
  | cons op ops ih =>
    cases op with
    | credit a => simp only [creditTotal]; omega
    | debit a => simpa [creditTotal] using ih

/-- Sequences within the signed range: on a table that obeys the schema, when all
amounts are below 2^63 and the credits cannot overflow the balance, the run
returns, the final balance is the start balance plus the credits that succeeded
minus the debits that succeeded, and no step leaves a negative balance. -/
theorem run_in_range (adr : FAAddress) (ops : List Op) (t : Table) (hwf : WF t)
    (hamt : ∀ op ∈ ops, op.amount < 2 ^ 63)
    (hsum : balanceOf t adr + creditTotal ops < 2 ^ 63) :
    ∃ ss, run t adr ops = Outcome.ret ss ∧ ss.map Step.op = ops ∧
      balanceOf (finalTable t ss) adr = balanceOf t adr + creditsDone ss - debitsDone ss ∧
      ∀ s ∈ ss, 0 ≤ balanceOf s.table adr := by
  induction ops generalizing t with
  | nil => exact ⟨[], rfl, rfl, by simp [finalTable, creditsDone, debitsDone], by simp⟩
  | cons op ops ih =>
    have hb := hwf.balance_nonneg adr
    have hamt2 : ∀ op ∈ ops, op.amount < 2 ^ 63 := fun o ho => hamt o (List.mem_cons_of_mem _ ho)
    have hct := creditTotal_nonneg ops
    cases op with
    | credit a =>
      simp only [creditTotal] at hsum
      obtain ⟨t1, id, hadd, hwf1, hbal1, -, -⟩ := addressAdd_spec t adr a hwf (by omega) hb
      obtain ⟨ss, hrun, hops, hfin, hnn⟩ := ih t1 hwf1 hamt2 (by rw [hbal1]; omega)
      refine ⟨⟨Op.credit a, true, t1⟩ :: ss, ?_, ?_, ?_, ?_⟩
      · simp [run, applyOp, hadd, hrun]
      · simp [hops]
      · rw [finalTable_cons]
        simp only [creditsDone, debitsDone]
        rw [hfin, hbal1]
        omega
      · intro s hs
        rcases List.mem_cons.mp hs with rfl | hs
        · exact hwf1.balance_nonneg adr
        · exact hnn s hs
    | debit a =>
      simp only [creditTotal] at hsum
      by_cases ha0 : a = 0
      · subst ha0
        obtain ⟨t1, id, hadd, hwf1, hbal1, -, -⟩ := addressAdd_spec t adr 0 hwf (by omega) hb
        obtain ⟨ss, hrun, hops, hfin, hnn⟩ := ih t1 hwf1 hamt2 (by rw [hbal1]; omega)
        refine ⟨⟨Op.debit 0, true, t1⟩ :: ss, ?_, ?_, ?_, ?_⟩
        · simp [run, applyOp, addressSub, hadd, hrun]
        · simp [hops]
        · rw [finalTable_cons]
          simp only [creditsDone, debitsDone]
          rw [hfin, hbal1]
          omega
        · intro s hs
          rcases List.mem_cons.mp hs with rfl | hs
          · exact hwf1.balance_nonneg adr
          · exact hnn s hs
      · have hpos : 0 < a := Nat.pos_of_ne_zero ha0
        have hlt : a < 2 ^ 63 := hamt (Op.debit a) (List.mem_cons_self _ _)
        by_cases hle : (a : Int) ≤ balanceOf t adr
        · obtain ⟨t1, id, hsub, hwf1, hbal1, -⟩ := addressSub_spec t adr a hwf hpos hle
          obtain ⟨ss, hrun, hops, hfin, hnn⟩ := ih t1 hwf1 hamt2 (by rw [hbal1]; omega)
          refine ⟨⟨Op.debit a, true, t1⟩ :: ss, ?_, ?_, ?_, ?_⟩
          · simp [run, applyOp, hsub, hrun]
          · simp [hops]
          · rw [finalTable_cons]
            simp only [creditsDone, debitsDone]
            rw [hfin, hbal1]
            omega
          · intro s hs
            rcases List.mem_cons.mp hs with rfl | hs
            · exact hwf1.balance_nonneg adr
            · exact hnn s hs
        · obtain ⟨id, hsub⟩ := addressSub_insufficient t adr a hpos hlt (Or.inr (by omega))
          obtain ⟨ss, hrun, hops, hfin, hnn⟩ := ih t hwf hamt2 hsum
          refine ⟨⟨Op.debit a, false, t⟩ :: ss, ?_, ?_, ?_, ?_⟩
          · simp [run, applyOp, hsub, hrun]
          · simp [hops]
          · rw [finalTable_cons]
            simp only [creditsDone, debitsDone]
            rw [hfin]
          · intro s hs
            rcases List.mem_cons.mp hs with rfl | hs
            · exact hb
            · exact hnn s hs

end DB

end Fatd

namespace Fatd

namespace DB

/-- C2, at a failing input: the address holds 5 and the debit is 2^64 - 1, far
above the balance; `int64(sub)` is -1, the UPDATE passes the CHECK, and the call
returns no error of either kind and leaves the balance at 6. -/
theorem addressSub_huge_debit_credits :
    WF tableFive ∧ maxUint64 < 2 ^ 64 ∧ balanceOf tableFive adrA < (maxUint64 : Int) ∧
      addressSub tableFive adrA maxUint64 = Outcome.ret ⟨[⟨1, adrA, 6⟩], 1, none, none⟩ := by
  refine ⟨⟨by decide, by decide, ?_⟩, by decide, by decide, by decide⟩
  intro r hr
  simp only [tableFive, List.mem_singleton] at hr
  subst hr
  decide

/-- C3, at a failing input: a credit of 5 then a debit of 2^64 - 1, from the empty
table; both calls succeed, the balance ends at 6, while the credits that
succeeded minus the debits that succeeded is 5 - (2^64 - 1). -/
theorem run_huge_debit_breaks_sum :
    ∃ ss, run [] adrA [Op.credit 5, Op.debit maxUint64] = Outcome.ret ss ∧
      ss.map Step.ok = [true, true] ∧
      balanceOf (finalTable [] ss) adrA = 6 ∧
      creditsDone ss - debitsDone ss = -18446744073709551610 :=
  ⟨[⟨Op.credit 5, true, [⟨1, adrA, 5⟩]⟩, ⟨Op.debit maxUint64, true, [⟨1, adrA, 6⟩]⟩],
    by decide, by decide, by decide, by decide⟩

/-- The scenario of the ledger: credit 100, debit 60, debit 50; the second debit
is turned down and the balance ends at 40. -/
theorem run_scenario :
    run [] adrA [Op.credit 100, Op.debit 60, Op.debit 50]
      = Outcome.ret [⟨Op.credit 100, true, [⟨1, adrA, 100⟩]⟩,
          ⟨Op.debit 60, true, [⟨1, adrA, 40⟩]⟩, ⟨Op.debit 50, false, [⟨1, adrA, 40⟩]⟩] := by
  decide

end DB

end Fatd

namespace Fatd

namespace Fat1

theorem unmarshalLoop_ok (env : Env) (l : List (String × RawMessage)) :
    ∀ (m : AddressNFTokensMap) (num exp : Nat) (m1 : AddressNFTokensMap) (exp1 : Nat),
      unmarshalLoop env l m num exp = Except.ok (m1, exp1) →
        exp1 = exp + (l.map (fun e => env.compactLen e.2)).sum ∧
          ∀ e ∈ l, ∃ a, env.adrSet e.1 = some a := by
  induction l with
  | nil =>
    intro m num exp m1 exp1 h
    simp only [unmarshalLoop, Except.ok.injEq, Prod.mk.injEq] at h
    simp [h.2]
  | cons e l ih =>
    intro m num exp m1 exp1 h
    obtain ⟨adrStr, data⟩ := e
    unfold unmarshalLoop at h
    cases hs : env.adrSet adrStr with
    | none => simp [hs] at h
    | some adr =>
      cases ht : env.tknsUnmarshal data with
      | none => simp [hs, ht] at h
      | some tkns =>
        simp only [hs, ht] at h
        by_cases hcap : num + tkns.ids.length > env.maxCapacity
        · simp [hcap] at h
        · rw [if_neg hcap] at h
          cases hn : m.NoNFTokensIntersection tkns with
          | some err => simp [hn] at h
          | none =>
            simp only [hn] at h
            obtain ⟨h1, h2⟩ := ih _ _ _ _ _ h
            refine ⟨?_, ?_⟩
            · simp only [List.map_cons, List.sum_cons]
              omega
            · intro e he
              rcases List.mem_cons.mp he with rfl | he
              · exact ⟨adr, hs⟩
              · exact h2 e he

theorem objLen_filter (env : Env) (p : String × RawMessage → Bool) (sm : StrMap RawMessage) :
    objLen env (sm.filter p) ≤ objLen env sm ∧
      ((∃ e ∈ sm, p e = false) → objLen env (sm.filter p) + 4 ≤ objLen env sm) := by
  induction sm with
  | nil => simp [objLen]
  | cons e sm ih =>
    obtain ⟨ih1, ih2⟩ := ih
    unfold objLen at ih1 ih2 ⊢
    by_cases hp : p e = true
    · simp only [List.filter_cons_of_pos hp, List.map_cons, List.sum_cons]
      refine ⟨by omega, ?_⟩
      rintro ⟨x, hx, hpx⟩
      rcases List.mem_cons.mp hx with rfl | hx
      · rw [hp] at hpx; cases hpx
      · have := ih2 ⟨x, hx, hpx⟩
        omega
    · simp only [List.filter_cons_of_neg hp, List.map_cons, List.sum_cons]
      refine ⟨by omega, fun _ => by omega⟩

theorem mem_keys_set {V : Type} (sm : StrMap V) (k : String) (v : V) (k1 : String) :
    k1 ∈ (sm.set k v).map Prod.fst ↔ k1 = k ∨ k1 ∈ sm.map Prod.fst := by
  unfold StrMap.set
  simp only [List.map_append, List.mem_append, List.mem_map, List.mem_filter,
    List.map_cons, List.map_nil, List.mem_singleton, decide_eq_true_eq]
  constructor
  · rintro (⟨e, ⟨he, -⟩, rfl⟩ | h)
    · exact Or.inr ⟨e, he, rfl⟩
    · exact Or.inl h
  · rintro (h | ⟨e, he, rfl⟩)
    · exact Or.inr h
    · by_cases hk : e.1 = k
      · exact Or.inr hk
      · exact Or.inl ⟨e, ⟨he, hk⟩, rfl⟩

theorem objLen_set (env : Env) (sm : StrMap RawMessage) (k : String) (v : RawMessage) :
    objLen env (sm.set k v) ≤ objLen env sm + (4 + env.adrStringLen + env.compactLen v) ∧
      (k ∈ sm.map Prod.fst →
        objLen env (sm.set k v) + 4 ≤ objLen env sm + (4 + env.adrStringLen + env.compactLen v)) := by
  have h := objLen_filter env (fun e => decide (e.1 ≠ k)) sm
  have hs : objLen env (sm.set k v) = objLen env (sm.filter (fun e => decide (e.1 ≠ k)))
      + (4 + env.adrStringLen + env.compactLen v) := by
    simp [objLen, StrMap.set]
  rw [hs]
  refine ⟨by omega, fun hk => ?_⟩
  obtain ⟨e, he, rfl⟩ := List.mem_map.mp hk
  have := h.2 ⟨e, he, by simp⟩
  omega

theorem decode_fold (env : Env) (ms : List Member) :
    ∀ sm : StrMap RawMessage,
      let out := ms.foldl (fun sm mb => sm.set mb.key mb.value) sm
      objLen env out ≤ objLen env sm + textLen env ms ∧
      (((∃ mb ∈ ms, mb.key ∈ sm.map Prod.fst) ∨ ¬ (ms.map Member.key).Nodup) →
        objLen env out + 4 ≤ objLen env sm + textLen env ms) ∧
      (∀ k, (k ∈ sm.map Prod.fst ∨ k ∈ ms.map Member.key) → k ∈ out.map Prod.fst) := by
  induction ms with
  | nil =>
    intro sm
    simp [textLen]
  | cons mb ms ih =>
    intro sm
    obtain ⟨ih1, ih2, ih3⟩ := ih (sm.set mb.key mb.value)
    obtain ⟨hs1, hs2⟩ := objLen_set env sm mb.key mb.value
    simp only [List.foldl_cons]
    have htl : textLen env (mb :: ms)
        = (4 + env.adrStringLen + env.compactLen mb.value) + textLen env ms := by
      simp [textLen]
    refine ⟨by omega, ?_, ?_⟩
    · intro hd
      by_cases hk : mb.key ∈ sm.map Prod.fst
      · have := hs2 hk
        omega
      · have hd2 : (∃ mb2 ∈ ms, mb2.key ∈ (sm.set mb.key mb.value).map Prod.fst) ∨
            ¬ (ms.map Member.key).Nodup := by
          rcases hd with ⟨x, hx, hxk⟩ | hnd
          · rcases List.mem_cons.mp hx with rfl | hx
            · exact absurd hxk hk
            · exact Or.inl ⟨x, hx, (mem_keys_set sm mb.key mb.value x.key).mpr (Or.inr hxk)⟩
          · simp only [List.map_cons, List.nodup_cons, not_and_or, not_not] at hnd
            rcases hnd with hmem | hnd
            · obtain ⟨x, hx, hxk⟩ := List.mem_map.mp hmem
              exact Or.inl ⟨x, hx, (mem_keys_set sm mb.key mb.value x.key).mpr (Or.inl hxk)⟩
            · exact Or.inr hnd
        have := ih2 hd2
        omega
    · intro k hk
      apply ih3
      rcases hk with hk | hk
      · exact Or.inl ((mem_keys_set sm mb.key mb.value k).mpr (Or.inr hk))
      · simp only [List.map_cons, List.mem_cons] at hk
        rcases hk with rfl | hk
        · exact Or.inl ((mem_keys_set sm mb.key mb.value mb.key).mpr (Or.inl rfl))
        · exact Or.inr hk

theorem objLen_eq (env : Env) (sm : StrMap RawMessage) :
    objLen env sm = sm.length * (4 + env.adrStringLen)
      + (sm.map (fun e => env.compactLen e.2)).sum := by
  induction sm with
  | nil => simp [objLen]
  | cons e sm ih =>
    unfold objLen at ih ⊢
    simp only [List.map_cons, List.sum_cons, List.length_cons, ih]
    ring

theorem objLen_perm (env : Env) {sm1 sm2 : StrMap RawMessage} (h : sm1.Perm sm2) :
    objLen env sm1 = objLen env sm2 := by
  unfold objLen
  exact (h.map _).sum_eq

/-- The compacted length of an object text: one more than the sum, over the
members, of the member length plus one. -/
theorem compactJSONLen_object (env : Env) (ms : List Member) (h : ms ≠ []) :
    env.compactJSONLen (Data.object ms) = 1 + (ms.map (fun mb => env.memberLen mb + 1)).sum := by
  have hsum : ∀ l : List Member,
      (l.map (fun mb => env.memberLen mb + 1)).sum = (l.map env.memberLen).sum + l.length := by
    intro l
    induction l with
    | nil => simp
    | cons a l ih => simp only [List.map_cons, List.sum_cons, List.length_cons, ih]; omega
  have hlen : 0 < ms.length := List.length_pos.mpr h
  simp only [Env.compactJSONLen, hsum]
  omega

theorem textLen_le (env : Env) (ms : List Member)
    (h : ∀ mb ∈ ms, goLen mb.key = env.adrStringLen) :
    textLen env ms ≤ (ms.map (fun mb => env.memberLen mb + 1)).sum := by
  induction ms with
  | nil => simp [textLen]
  | cons mb ms ih =>
    have h1 := h mb (List.mem_cons_self _ _)
    have h2 := ih (fun x hx => h x (List.mem_cons_of_mem _ hx))
    have h3 : env.memberLen mb = goLen mb.key + mb.escapes + 3 + env.compactLen mb.value := rfl
    unfold textLen at h2 ⊢
    simp only [List.map_cons, List.sum_cons]
    omega

/-- With a key that occurs twice, a loop that raises no error ends with an
expected length below the compacted length of the input. -/
theorem expected_lt_of_duplicate (env : Env) (ms : List Member)
    (hrange : ∀ sm, (env.range sm).Perm sm)
    (hset : ∀ s a, env.adrSet s = some a → goLen s = env.adrStringLen)
    (hdup : ¬ (ms.map Member.key).Nodup)
    (m : AddressNFTokensMap) (exp1 : Nat)
    (hloop : unmarshalLoop env (env.range (decodeObject ms)) AddressNFTokensMap.empty 0
      (2 - 1 + (decodeObject ms).length * (4 + env.adrStringLen)) = Except.ok (m, exp1)) :
    exp1 < env.compactJSONLen (Data.object ms) := by
  have hne : ms ≠ [] := by
    rintro rfl
    exact hdup (by simp)
  obtain ⟨hexp, hkeys⟩ := unmarshalLoop_ok env _ _ _ _ _ _ hloop
  obtain ⟨-, hB, hC⟩ := decode_fold env ms []
  have hB2 := hB (Or.inr hdup)
  have hperm := hrange (decodeObject ms)
  have hsumperm : ((env.range (decodeObject ms)).map (fun e => env.compactLen e.2)).sum
      = ((decodeObject ms).map (fun e => env.compactLen e.2)).sum := (hperm.map _).sum_eq
  have hobj := objLen_eq env (decodeObject ms)
  have hgo : ∀ mb ∈ ms, goLen mb.key = env.adrStringLen := by
    intro mb hmb
    have hk : mb.key ∈ (decodeObject ms).map Prod.fst :=
      hC mb.key (Or.inr (List.mem_map_of_mem _ hmb))
    obtain ⟨e, he, hek⟩ := List.mem_map.mp hk
    obtain ⟨a, ha⟩ := hkeys e (hperm.mem_iff.mpr he)
    rw [← hek]
    exact hset _ _ ha
  have htl := textLen_le env ms hgo
  rw [compactJSONLen_object env ms hne]
  have h0 : objLen env ([] : StrMap RawMessage) = 0 := by simp [objLen]
  unfold decodeObject at hobj hexp hsumperm
  simp only [h0] at hB2
  omega

end Fat1

end Fatd

namespace Fatd

namespace Fat1

theorem noIntersection_eq_none (a b : NFTokens) :
    a.NoIntersection b = none ↔ ∀ t ∈ a.ids, t ∉ b.ids := by
  unfold NFTokens.NoIntersection
  rw [List.find?_eq_none]
  simp

theorem noIntersection_some {a b : NFTokens} {t : NFTokenID} (h : a.NoIntersection b = some t) :
    t ∈ a.ids ∧ t ∈ b.ids := by
  unfold NFTokens.NoIntersection at h
  exact ⟨List.mem_of_find?_eq_some h, by simpa using List.find?_some h⟩

theorem noNFTokensLoop_eq_none (newTkns : NFTokens) (l : List (FAAddress × NFTokens)) :
    noNFTokensLoop newTkns l = none ↔ ∀ e ∈ l, ∀ t ∈ e.2.ids, t ∉ newTkns.ids := by
  induction l with
  | nil => simp [noNFTokensLoop]
  | cons e l ih =>
    obtain ⟨adr, tk⟩ := e
    unfold noNFTokensLoop
    cases hn : tk.NoIntersection newTkns with
    | some t =>
      simp only [reduceCtorEq, false_iff]
      intro hall
      obtain ⟨h1, h2⟩ := noIntersection_some hn
      exact hall (adr, tk) (List.mem_cons_self _ _) t h1 h2
    | none =>
      simp only [ih]
      rw [noIntersection_eq_none] at hn
      constructor
      · intro h e he
        rcases List.mem_cons.mp he with rfl | he
        · exact hn
        · exact h e he
      · intro h e he
        exact h e (List.mem_cons_of_mem _ he)

theorem noInternalLoop_eq_none (m : AddressNFTokensMap) (l : List (FAAddress × NFTokens)) :
    ∀ allTkns : NFTokens, noInternalLoop m l allTkns = none ↔
      (∀ e ∈ l, ∀ t ∈ e.2.ids, t ∉ allTkns.ids) ∧
        l.Pairwise (fun a b => ∀ t ∈ a.2.ids, t ∉ b.2.ids) := by
  induction l with
  | nil => intro allTkns; simp [noInternalLoop]
  | cons e l ih =>
    intro allTkns
    obtain ⟨adr, tk⟩ := e
    unfold noInternalLoop NFTokens.Append
    cases hn : allTkns.NoIntersection tk with
    | some t =>
      simp only [reduceCtorEq, false_iff]
      rintro ⟨hall, -⟩
      obtain ⟨h1, h2⟩ := noIntersection_some hn
      exact hall (adr, tk) (List.mem_cons_self _ _) t h2 h1
    | none =>
      simp only [ih]
      rw [noIntersection_eq_none] at hn
      simp only [List.mem_union_iff, not_or, List.pairwise_cons]
      constructor
      · rintro ⟨h1, h2⟩
        refine ⟨?_, ?_, h2⟩
        · intro e he
          rcases List.mem_cons.mp he with rfl | he
          · intro t ht hta
            exact hn t hta ht
          · intro t ht
            exact (h1 e he t ht).1
        · intro e he t ht hte
          exact (h1 e he t hte).2 ht
      · rintro ⟨h1, h2, h3⟩
        refine ⟨?_, h3⟩
        intro e he t ht
        exact ⟨h1 e (List.mem_cons_of_mem _ he) t ht, fun h => h2 e he t h ht⟩

/-- `NoInternalNFTokensIntersection` returns nil exactly on the maps that hold
every token id under at most one address. -/
theorem noInternal_eq_none_iff (m : AddressNFTokensMap) :
    m.NoInternalNFTokensIntersection = none ↔ m.Unique := by
  unfold AddressNFTokensMap.NoInternalNFTokensIntersection
  rw [noInternalLoop_eq_none, unique_iff_nodup]
  unfold AddressNFTokensMap.allIDs
  rw [List.nodup_flatMap]
  simp only [NFTokens.empty, List.not_mem_nil, not_false_eq_true, implies_true, true_and]
  constructor
  · intro h
    refine ⟨fun e _ => e.2.nodup, ?_⟩
    exact h.imp (fun {a b} hab => by
      show List.Disjoint a.2.ids b.2.ids
      intro t hta htb
      exact hab t hta htb)
  · rintro ⟨-, h⟩
    exact h.imp (fun {a b} hab t hta htb => hab hta htb)

theorem flatMap_filter_length_le (p : FAAddress × NFTokens → Bool)
    (l : List (FAAddress × NFTokens)) :
    ((l.filter p).flatMap (fun e => e.2.ids)).length ≤ (l.flatMap (fun e => e.2.ids)).length := by
  induction l with
  | nil => simp
  | cons e l ih =>
    by_cases hp : p e = true
    · simp only [List.filter_cons_of_pos hp, List.flatMap_cons, List.length_append]
      omega
    · simp only [List.filter_cons_of_neg hp, List.flatMap_cons, List.length_append]
      omega

theorem set_entries (m : AddressNFTokensMap) (adr : FAAddress) (tkns : NFTokens) :
    (m.set adr tkns).entries
      = m.entries.filter (fun e => decide (e.1 ≠ adr)) ++ [(adr, tkns)] := rfl

theorem num_set_le (m : AddressNFTokensMap) (adr : FAAddress) (tkns : NFTokens) :
    (m.set adr tkns).NumNFTokenIDs ≤ m.NumNFTokenIDs + tkns.ids.length := by
  rw [numNFTokenIDs_eq, numNFTokenIDs_eq]
  unfold AddressNFTokensMap.allIDs
  rw [set_entries]
  have := flatMap_filter_length_le (fun e => decide (e.1 ≠ adr)) m.entries
  simp only [List.flatMap_append, List.length_append, List.flatMap_cons, List.flatMap_nil,
    List.append_nil]
  omega

theorem unique_set (m : AddressNFTokensMap) (adr : FAAddress) (tkns : NFTokens)
    (hu : m.Unique) (hno : m.NoNFTokensIntersection tkns = none) : (m.set adr tkns).Unique := by
  unfold AddressNFTokensMap.NoNFTokensIntersection at hno
  rw [noNFTokensLoop_eq_none] at hno
  intro e1 h1 e2 h2 t ht1 ht2
  rw [set_entries] at h1 h2
  simp only [List.mem_append, List.mem_filter, List.mem_singleton] at h1 h2
  rcases h1 with ⟨h1, -⟩ | rfl
  · rcases h2 with ⟨h2, -⟩ | rfl
    · exact hu e1 h1 e2 h2 t ht1 ht2
    · exact absurd ht2 (hno e1 h1 t ht1)
  · rcases h2 with ⟨h2, -⟩ | rfl
    · exact absurd ht1 (hno e2 h2 t ht2)
    · rfl

end Fat1

end Fatd

namespace Fatd

namespace Fat1

theorem set_entries_ne_nil (m : AddressNFTokensMap) (adr : FAAddress) (tkns : NFTokens) :
    (m.set adr tkns).entries ≠ [] := by
  rw [set_entries]
  simp

/-- The invariant of the loop of `UnmarshalJSON`: uniqueness of the map built so
far, its token count within the running total, the running total within capacity. -/
theorem unmarshalLoop_inv (env : Env) (l : List (String × RawMessage)) :
    ∀ (m : AddressNFTokensMap) (num exp : Nat) (m1 : AddressNFTokensMap) (exp1 : Nat),
      unmarshalLoop env l m num exp = Except.ok (m1, exp1) →
      m.Unique → m.NumNFTokenIDs ≤ num →
        m1.Unique ∧ m1.NumNFTokenIDs ≤ num + tokenTotal env l ∧
          (l ≠ [] → num + tokenTotal env l ≤ env.maxCapacity ∧ m1.entries ≠ []) ∧
          (m.entries ≠ [] → m1.entries ≠ []) := by
  induction l with
  | nil =>
    intro m num exp m1 exp1 h hu hn
    simp only [unmarshalLoop, Except.ok.injEq, Prod.mk.injEq] at h
    obtain ⟨rfl, -⟩ := h
    exact ⟨hu, by simp [tokenTotal, hn], by simp, id⟩
  | cons e l ih =>
    intro m num exp m1 exp1 h hu hn
    obtain ⟨adrStr, data⟩ := e
    unfold unmarshalLoop at h
    cases hs : env.adrSet adrStr with
    | none => simp [hs] at h
    | some adr =>
      cases ht : env.tknsUnmarshal data with
      | none => simp [hs, ht] at h
      | some tkns =>
        simp only [hs, ht] at h
        by_cases hcap : num + tkns.ids.length > env.maxCapacity
        · simp [hcap] at h
        · rw [if_neg hcap] at h
          cases hno : m.NoNFTokensIntersection tkns with
          | some err => simp [hno] at h
          | none =>
            simp only [hno] at h
            have hu1 := unique_set m adr tkns hu hno
            have hn1 := num_set_le m adr tkns
            obtain ⟨h1, h2, h3, h4⟩ := ih _ _ _ _ _ h hu1 (by omega)
            have htot : tokenTotal env ((adrStr, data) :: l)
                = tkns.ids.length + tokenTotal env l := by
              simp [tokenTotal, ht]
            have hne := h4 (set_entries_ne_nil m adr tkns)
            refine ⟨h1, by omega, fun _ => ⟨?_, hne⟩, fun _ => hne⟩
            by_cases hl : l = []
            · subst hl
              simp only [tokenTotal, List.map_cons, ht, List.map_nil, List.sum_cons, List.sum_nil]
              omega
            · have := (h3 hl).1
              omega

theorem tokenTotal_perm (env : Env) {sm1 sm2 : StrMap RawMessage} (h : sm1.Perm sm2) :
    tokenTotal env sm1 = tokenTotal env sm2 := by
  unfold tokenTotal
  exact (h.map _).sum_eq

theorem unique_empty : AddressNFTokensMap.empty.Unique := by
  intro e1 h1
  simp [AddressNFTokensMap.empty] at h1

/-- What `UnmarshalJSON` returning nil means, step by step. -/
theorem unmarshalJSON_ok (env : Env) (data : Data) (m : AddressNFTokensMap)
    (h : UnmarshalJSON env data = Except.ok m) :
    ∃ ms exp1, data = Data.object ms ∧ (decodeObject ms).length ≠ 0 ∧
      unmarshalLoop env (env.range (decodeObject ms)) AddressNFTokensMap.empty 0
        (2 - 1 + (decodeObject ms).length * (4 + env.adrStringLen)) = Except.ok (m, exp1) ∧
      exp1 = env.compactJSONLen data := by
  unfold UnmarshalJSON at h
  cases data with
  | invalid => simp at h
  | null => simp at h
  | object ms =>
    simp only at h
    by_cases hlen : (decodeObject ms).length = 0
    · simp [hlen] at h
    · rw [if_neg hlen] at h
      cases hloop : unmarshalLoop env (env.range (decodeObject ms)) AddressNFTokensMap.empty 0
          (2 - 1 + (decodeObject ms).length * (4 + env.adrStringLen)) with
      | error e => simp [hloop] at h
      | ok r =>
        obtain ⟨m1, exp1⟩ := r
        simp only [hloop] at h
        by_cases hexp : exp1 ≠ env.compactJSONLen (Data.object ms)
        · simp [hexp] at h
        · rw [if_neg hexp] at h
          simp only [Except.ok.injEq] at h
          subst h
          exact ⟨ms, exp1, rfl, hlen, hloop, not_not.mp hexp⟩

end Fat1

end Fatd

namespace Fatd

namespace Fat1

theorem strMap_set_nodup {V : Type} (sm : StrMap V) (k : String) (v : V)
    (h : (sm.map Prod.fst).Nodup) : ((sm.set k v).map Prod.fst).Nodup := by
  unfold StrMap.set
  rw [List.map_append]
  refine List.Nodup.append ?_ (List.nodup_singleton _) ?_
  · exact List.Nodup.sublist (List.Sublist.map _ (List.filter_sublist _)) h
  · intro a ha hb
    simp only [List.map_cons, List.map_nil, List.mem_singleton] at hb
    subst hb
    simp [List.mem_filter] at ha

theorem decode_nodup (ms : List Member) : ((decodeObject ms).map Prod.fst).Nodup := by
  have key : ∀ (l : List Member) (sm : StrMap RawMessage), (sm.map Prod.fst).Nodup →
      ((l.foldl (fun sm mb => sm.set mb.key mb.value) sm).map Prod.fst).Nodup := by
    intro l
    induction l with
    | nil => intro sm h; exact h
    | cons mb l ih =>
      intro sm h
      exact ih _ (strMap_set_nodup sm mb.key mb.value h)
  exact key ms [] (by simp)

/-- With an injective address parser and distinct keys, every member the loop has
read is an entry of the map it returns. -/
theorem unmarshalLoop_mem (env : Env)
    (hinj : ∀ s1 s2 a, env.adrSet s1 = some a → env.adrSet s2 = some a → s1 = s2)
    (l : List (String × RawMessage)) :
    ∀ (m : AddressNFTokensMap) (num exp : Nat) (m1 : AddressNFTokensMap) (exp1 : Nat),
      unmarshalLoop env l m num exp = Except.ok (m1, exp1) → (l.map Prod.fst).Nodup →
        (∀ e ∈ m.entries, (∀ k ∈ l.map Prod.fst, env.adrSet k ≠ some e.1) → e ∈ m1.entries) ∧
          ∀ kv ∈ l, ∃ a t, env.adrSet kv.1 = some a ∧ env.tknsUnmarshal kv.2 = some t ∧
            (a, t) ∈ m1.entries := by
  induction l with
  | nil =>
    intro m num exp m1 exp1 h _
    simp only [unmarshalLoop, Except.ok.injEq, Prod.mk.injEq] at h
    obtain ⟨rfl, -⟩ := h
    exact ⟨fun e he _ => he, by simp⟩
  | cons e l ih =>
    intro m num exp m1 exp1 h hnd
    obtain ⟨adrStr, data⟩ := e
    simp only [List.map_cons, List.nodup_cons] at hnd
    unfold unmarshalLoop at h
    cases hs : env.adrSet adrStr with
    | none => simp [hs] at h
    | some adr =>
      cases ht : env.tknsUnmarshal data with
      | none => simp [hs, ht] at h
      | some tkns =>
        simp only [hs, ht] at h
        by_cases hcap : num + tkns.ids.length > env.maxCapacity
        · simp [hcap] at h
        · rw [if_neg hcap] at h
          cases hno : m.NoNFTokensIntersection tkns with
          | some err => simp [hno] at h
          | none =>
            simp only [hno] at h
            obtain ⟨h1, h2⟩ := ih _ _ _ _ _ h hnd.2
            have hfresh : ∀ k ∈ l.map Prod.fst, env.adrSet k ≠ some adr := by
              intro k hk hka
              have := hinj k adrStr adr hka hs
              subst this
              exact hnd.1 hk
            refine ⟨?_, ?_⟩
            · intro e he hk
              apply h1 e
              · rw [set_entries]
                simp only [List.mem_append, List.mem_filter, decide_eq_true_eq]
                refine Or.inl ⟨he, ?_⟩
                intro hea
                exact hk adrStr (List.mem_cons_self _ _) (by rw [hs, hea])
              · intro k hk2
                exact hk k (List.mem_cons_of_mem _ hk2)
            · intro kv hkv
              rcases List.mem_cons.mp hkv with rfl | hkv
              · refine ⟨adr, tkns, hs, ht, ?_⟩
                apply h1 (adr, tkns)
                · rw [set_entries]
                  simp
                · exact hfresh
              · exact h2 kv hkv

end Fat1

end Fatd

namespace Fatd

namespace Fat1

/-- C6: on an object text in which a key occurs more than once, `UnmarshalJSON`
returns an error; and whenever the loop over the decoded map raises no error (the
keys are addresses, the values well-formed disjoint token sets within capacity),
the length recomputed from the parsed map, `2 - 1` plus per address
`4 + len(address string) + len(compacted value)`, differs from the compacted
length of the input, and the error is the length error. -/
theorem UnmarshalJSON_duplicate_key (env : Env) (ms : List Member)
    (hrange : ∀ sm, (env.range sm).Perm sm)
    (hset : ∀ s a, env.adrSet s = some a → goLen s = env.adrStringLen)
    (hdup : ¬ (ms.map Member.key).Nodup) :
    (∃ err, UnmarshalJSON env (Data.object ms) = Except.error err) ∧
      ∀ m exp1,
        unmarshalLoop env (env.range (decodeObject ms)) AddressNFTokensMap.empty 0
          (2 - 1 + (decodeObject ms).length * (4 + env.adrStringLen)) = Except.ok (m, exp1) →
        exp1 = 2 - 1 + objLen env (decodeObject ms) ∧
          exp1 ≠ env.compactJSONLen (Data.object ms) ∧
          UnmarshalJSON env (Data.object ms) = Except.error Err.unexpectedJSONLength := by
  have hlt := expected_lt_of_duplicate env ms hrange hset hdup
  have key : ∀ m exp1,
      unmarshalLoop env (env.range (decodeObject ms)) AddressNFTokensMap.empty 0
        (2 - 1 + (decodeObject ms).length * (4 + env.adrStringLen)) = Except.ok (m, exp1) →
      exp1 = 2 - 1 + objLen env (decodeObject ms) ∧
        exp1 ≠ env.compactJSONLen (Data.object ms) ∧
        UnmarshalJSON env (Data.object ms) = Except.error Err.unexpectedJSONLength := by
    intro m exp1 hloop
    have hne : exp1 ≠ env.compactJSONLen (Data.object ms) := Nat.ne_of_lt (hlt m exp1 hloop)
    refine ⟨?_, hne, ?_⟩
    · obtain ⟨hexp, -⟩ := unmarshalLoop_ok env _ _ _ _ _ _ hloop
      have hsumperm := ((hrange (decodeObject ms)).map (fun e => env.compactLen e.2)).sum_eq
      rw [hexp, hsumperm, objLen_eq]
      omega
    · unfold UnmarshalJSON
      simp only
      by_cases hlen : (decodeObject ms).length = 0
      · exfalso
        have hp := (hrange (decodeObject ms)).length_eq
        have hnil : env.range (decodeObject ms) = [] := List.length_eq_zero.mp (by omega)
        have hC := (decode_fold env ms []).2.2
        have hms : ms ≠ [] := by
          rintro rfl
          exact hdup (by simp)
        obtain ⟨mb, rest, rfl⟩ := List.exists_cons_of_ne_nil hms
        have := hC mb.key (Or.inr (by simp))
        have hd : decodeObject (mb :: rest) = [] := List.length_eq_zero.mp hlen
        unfold decodeObject at hd
        rw [hd] at this
        simp at this
      · rw [if_neg hlen, hloop]
        simp only [hne, ne_eq, not_false_eq_true, if_true]
  refine ⟨?_, key⟩
  unfold UnmarshalJSON
  simp only
  by_cases hlen : (decodeObject ms).length = 0
  · exact ⟨Err.empty, by rw [if_pos hlen]⟩
  · rw [if_neg hlen]
    cases hloop : unmarshalLoop env (env.range (decodeObject ms)) AddressNFTokensMap.empty 0
        (2 - 1 + (decodeObject ms).length * (4 + env.adrStringLen)) with
    | error e => exact ⟨e, rfl⟩
    | ok r =>
      obtain ⟨m, exp1⟩ := r
      have hne : exp1 ≠ env.compactJSONLen (Data.object ms) := Nat.ne_of_lt (hlt m exp1 hloop)
      exact ⟨Err.unexpectedJSONLength, by simp only [hne, ne_eq, not_false_eq_true, if_true]⟩

theorem envToy_set (s : String) (a : FAAddress) (h : envToy.adrSet s = some a) :
    goLen s = envToy.adrStringLen := by
  unfold envToy at h
  simp only at h
  by_cases h1 : s = "FA1"
  · subst h1; decide
  · by_cases h2 : s = "FA2"
    · subst h2; decide
    · simp [h1, h2] at h

/-- Witness of C6: the key `FA1` twice, with the token lists `[1]` and `[2]`. -/
theorem UnmarshalJSON_duplicate_key_witness :
    ¬ (([⟨"FA1", 0, "[1]"⟩, ⟨"FA1", 0, "[2]"⟩] : List Member).map Member.key).Nodup ∧
    ((∃ err, UnmarshalJSON envToy dataDupKey = Except.error err) ∧
      ∀ m exp1,
        unmarshalLoop envToy
          (envToy.range (decodeObject [⟨"FA1", 0, "[1]"⟩, ⟨"FA1", 0, "[2]"⟩]))
          AddressNFTokensMap.empty 0
          (2 - 1 + (decodeObject [⟨"FA1", 0, "[1]"⟩, ⟨"FA1", 0, "[2]"⟩]).length
            * (4 + envToy.adrStringLen)) = Except.ok (m, exp1) →
        exp1 = 2 - 1 + objLen envToy (decodeObject [⟨"FA1", 0, "[1]"⟩, ⟨"FA1", 0, "[2]"⟩]) ∧
          exp1 ≠ envToy.compactJSONLen dataDupKey ∧
          UnmarshalJSON envToy dataDupKey = Except.error Err.unexpectedJSONLength) :=
  ⟨by decide,
    UnmarshalJSON_duplicate_key envToy [⟨"FA1", 0, "[1]"⟩, ⟨"FA1", 0, "[2]"⟩]
      (fun sm => List.Perm.refl sm) envToy_set (by decide)⟩

/-- C7: a map that `UnmarshalJSON` accepts has at least one address, holds every
token id under at most one address (`NoInternalNFTokensIntersection` returns nil
on it) and holds at most `maxCapacity` token ids; the running token total of the
input is within `maxCapacity`; and, the address parser being injective, two keys
of the input with different addresses have no token id in common. -/
theorem UnmarshalJSON_accepted (env : Env) (data : Data) (m : AddressNFTokensMap)
    (hrange : ∀ sm, (env.range sm).Perm sm)
    (h : UnmarshalJSON env data = Except.ok m) :
    m.entries ≠ [] ∧ m.NoInternalNFTokensIntersection = none ∧ m.Unique ∧
      m.NumNFTokenIDs ≤ env.maxCapacity ∧
      (∀ ms, data = Data.object ms → tokenTotal env (decodeObject ms) ≤ env.maxCapacity) ∧
      ((∀ s1 s2 a, env.adrSet s1 = some a → env.adrSet s2 = some a → s1 = s2) →
        ∀ ms, data = Data.object ms →
          ∀ kv1 ∈ decodeObject ms, ∀ kv2 ∈ decodeObject ms, ∀ a1 a2 t1 t2,
            env.adrSet kv1.1 = some a1 → env.adrSet kv2.1 = some a2 → a1 ≠ a2 →
            env.tknsUnmarshal kv1.2 = some t1 → env.tknsUnmarshal kv2.2 = some t2 →
            ∀ x ∈ t1.ids, x ∉ t2.ids) := by
  obtain ⟨ms, exp1, rfl, hlen, hloop, -⟩ := unmarshalJSON_ok env data m h
  have hperm := hrange (decodeObject ms)
  have hne : env.range (decodeObject ms) ≠ [] := by
    intro hnil
    have := hperm.length_eq
    rw [hnil] at this
    simp only [List.length_nil] at this
    omega
  obtain ⟨hu, hnum, h3, -⟩ := unmarshalLoop_inv env _ _ _ _ _ _ hloop unique_empty
    (by simp [numNFTokenIDs_eq, AddressNFTokensMap.allIDs, AddressNFTokensMap.empty])
  obtain ⟨hcap, hnonempty⟩ := h3 hne
  refine ⟨hnonempty, (noInternal_eq_none_iff m).mpr hu, hu, by omega, ?_, ?_⟩
  · intro ms2 hms
    simp only [Data.object.injEq] at hms
    subst hms
    rw [← tokenTotal_perm env hperm]
    omega
  · intro hinj ms2 hms kv1 hkv1 kv2 hkv2 a1 a2 t1 t2 ha1 ha2 hne12 ht1 ht2 x hx1 hx2
    simp only [Data.object.injEq] at hms
    subst hms
    have hnd : ((env.range (decodeObject ms)).map Prod.fst).Nodup :=
      ((hperm.map Prod.fst).nodup_iff).mpr (decode_nodup ms)
    obtain ⟨-, hmem⟩ := unmarshalLoop_mem env hinj _ _ _ _ _ _ hloop hnd
    obtain ⟨b1, s1, hb1, hs1, he1⟩ := hmem kv1 (hperm.mem_iff.mpr hkv1)
    obtain ⟨b2, s2, hb2, hs2, he2⟩ := hmem kv2 (hperm.mem_iff.mpr hkv2)
    rw [ha1] at hb1
    rw [ha2] at hb2
    rw [ht1] at hs1
    rw [ht2] at hs2
    simp only [Option.some.injEq] at hb1 hb2 hs1 hs2
    subst hb1 hb2 hs1 hs2
    exact hne12 (hu _ he1 _ he2 x hx1 hx2)

/-- Witness of C7: two addresses with one token each are accepted. -/
theorem UnmarshalJSON_accepted_witness :
    UnmarshalJSON envToy dataTwo = Except.ok mapSplit ∧
    (mapSplit.entries ≠ [] ∧ mapSplit.NoInternalNFTokensIntersection = none ∧ mapSplit.Unique ∧
      mapSplit.NumNFTokenIDs ≤ envToy.maxCapacity ∧
      (∀ ms, dataTwo = Data.object ms →
        tokenTotal envToy (decodeObject ms) ≤ envToy.maxCapacity) ∧
      ((∀ s1 s2 a, envToy.adrSet s1 = some a → envToy.adrSet s2 = some a → s1 = s2) →
        ∀ ms, dataTwo = Data.object ms →
          ∀ kv1 ∈ decodeObject ms, ∀ kv2 ∈ decodeObject ms, ∀ a1 a2 t1 t2,
            envToy.adrSet kv1.1 = some a1 → envToy.adrSet kv2.1 = some a2 → a1 ≠ a2 →
            envToy.tknsUnmarshal kv1.2 = some t1 → envToy.tknsUnmarshal kv2.2 = some t2 →
            ∀ x ∈ t1.ids, x ∉ t2.ids)) :=
  ⟨by decide,
    UnmarshalJSON_accepted envToy dataTwo mapSplit (fun sm => List.Perm.refl sm) (by decide)⟩

end Fat1

end Fatd

namespace Fatd

namespace Fat1

theorem num_eq_zero_iff (m : AddressNFTokensMap) :
    m.NumNFTokenIDs = 0 ↔ ∀ e ∈ m.entries, e.2.ids = [] := by
  rw [numNFTokenIDs_eq, List.length_eq_zero]
  unfold AddressNFTokensMap.allIDs
  simp [List.flatMap_eq_nil_iff]

theorem not_unique_iff (m : AddressNFTokensMap) :
    ¬ m.Unique ↔ ∃ e1 ∈ m.entries, ∃ e2 ∈ m.entries, e1.1 ≠ e2.1 ∧
      ∃ t, t ∈ e1.2.ids ∧ t ∈ e2.2.ids := by
  unfold AddressNFTokensMap.Unique
  constructor
  · intro h
    by_contra hcon
    apply h
    intro e1 h1 e2 h2 t ht1 ht2
    by_contra hne
    exact hcon ⟨e1, h1, e2, h2, hne, t, ht1, ht2⟩
  · rintro ⟨e1, h1, e2, h2, hne, t, ht1, ht2⟩ h
    exact hne (h e1 h1 e2 h2 t ht1 ht2)

theorem strMap_set_fresh {V : Type} (sm : StrMap V) (k : String) (v : V)
    (h : k ∉ sm.map Prod.fst) : sm.set k v = sm ++ [(k, v)] := by
  unfold StrMap.set
  congr 1
  rw [List.filter_eq_self]
  intro e he
  simp only [ne_eq, decide_eq_true_eq]
  intro hk
  exact h (List.mem_map.mpr ⟨e, he, hk⟩)

theorem marshalLoop_eq (adrString : FAAddress → String) (l : List (FAAddress × NFTokens)) :
    ∀ sm : StrMap NFTokens,
      (sm.map Prod.fst ++ l.map (fun e => adrString e.1)).Nodup →
        marshalLoop adrString l sm
          = sm ++ (l.filter (fun e => decide (e.2.ids.length ≠ 0))).map
              (fun e => (adrString e.1, e.2)) := by
  induction l with
  | nil => intro sm _; simp [marshalLoop]
  | cons e l ih =>
    intro sm hnd
    obtain ⟨adr, tkns⟩ := e
    simp only [List.map_cons] at hnd
    have hnd1 : (sm.map Prod.fst ++ l.map (fun e => adrString e.1)).Nodup := by
      refine List.Nodup.sublist ?_ hnd
      exact List.Sublist.append_left (List.sublist_cons_self _ _) _
    have hfresh : adrString adr ∉ sm.map Prod.fst := by
      intro hk
      have := (List.nodup_append.mp hnd).2.2
      exact this hk (List.mem_cons_self _ _)
    unfold marshalLoop
    by_cases h0 : tkns.ids.length = 0
    · rw [if_pos h0, ih sm hnd1]
      rw [List.filter_cons_of_neg (by simp only [h0]; decide)]
    · rw [if_neg h0, strMap_set_fresh sm _ _ hfresh]
      rw [ih]
      · rw [List.filter_cons_of_pos (by simpa using h0)]
        simp only [List.map_cons, List.append_assoc, List.singleton_append]
      · rw [List.map_append, List.append_assoc]
        simpa using hnd

/-- C8: `MarshalJSON` returns an error (and no object) exactly when the map holds
no token id at all, or some token id is held under two different addresses;
otherwise, the address strings being distinct for distinct addresses, the object
it emits has exactly one key per address with a non-empty token set, addresses
with empty sets being left out. -/
theorem MarshalJSON_error_iff (adrString : FAAddress → String) (m : AddressNFTokensMap)
    (hinj : Function.Injective adrString) :
    ((∃ err, m.MarshalJSON adrString = Except.error err) ↔
      ((∀ e ∈ m.entries, e.2.ids = []) ∨
        ∃ e1 ∈ m.entries, ∃ e2 ∈ m.entries, e1.1 ≠ e2.1 ∧
          ∃ t, t ∈ e1.2.ids ∧ t ∈ e2.2.ids)) ∧
      ((¬ ∃ err, m.MarshalJSON adrString = Except.error err) →
        m.MarshalJSON adrString = Except.ok
          ((m.entries.filter (fun e => decide (e.2.ids.length ≠ 0))).map
            (fun e => (adrString e.1, e.2))) ∧
        ((m.entries.filter (fun e => decide (e.2.ids.length ≠ 0))).map
            (fun e => adrString e.1)).Nodup) := by
  have hloop : marshalLoop adrString m.entries []
      = (m.entries.filter (fun e => decide (e.2.ids.length ≠ 0))).map
          (fun e => (adrString e.1, e.2)) := by
    rw [marshalLoop_eq adrString m.entries []]
    · simp
    · simp only [List.map_nil, List.nil_append]
      have : m.entries.map (fun e => adrString e.1)
          = (m.entries.map Prod.fst).map adrString := by
        rw [List.map_map]; rfl
      rw [this]
      exact List.Nodup.map hinj m.nodupKeys
  have hiff : (∃ err, m.MarshalJSON adrString = Except.error err) ↔
      ((∀ e ∈ m.entries, e.2.ids = []) ∨
        ∃ e1 ∈ m.entries, ∃ e2 ∈ m.entries, e1.1 ≠ e2.1 ∧
          ∃ t, t ∈ e1.2.ids ∧ t ∈ e2.2.ids) := by
    rw [← num_eq_zero_iff, ← not_unique_iff, ← noInternal_eq_none_iff]
    unfold AddressNFTokensMap.MarshalJSON
    by_cases h0 : m.NumNFTokenIDs = 0
    · simp [h0]
    · rw [if_neg h0]
      cases hn : m.NoInternalNFTokensIntersection with
      | none => simp [h0]
      | some e => simp [h0]
  refine ⟨hiff, ?_⟩
  intro hno
  refine ⟨?_, ?_⟩
  · unfold AddressNFTokensMap.MarshalJSON at hno ⊢
    by_cases h0 : m.NumNFTokenIDs = 0
    · exact absurd ⟨Err.empty, by rw [if_pos h0]⟩ hno
    · rw [if_neg h0] at hno ⊢
      cases hn : m.NoInternalNFTokensIntersection with
      | none => simp only [hloop]
      | some e => exact absurd ⟨e, by simp only [hn]⟩ hno
  · have hsub : (m.entries.filter (fun e => decide (e.2.ids.length ≠ 0))).map
        (fun e => adrString e.1) = ((m.entries.filter
          (fun e => decide (e.2.ids.length ≠ 0))).map Prod.fst).map adrString := by
      rw [List.map_map]; rfl
    rw [hsub]
    refine List.Nodup.map hinj ?_
    exact List.Nodup.sublist (List.Sublist.map _ (List.filter_sublist _)) m.nodupKeys

theorem adrStringToy_injective : Function.Injective adrStringToy := by
  intro a b h
  unfold adrStringToy at h
  have h1 : List.replicate a.val 'F' = List.replicate b.val 'F' := by
    injection h
  have h2 := congrArg List.length h1
  simp only [List.length_replicate] at h2
  cases a
  cases b
  simp only at h2
  rw [h2]

/-- Witness of C8: tokens 1 and 2 under two addresses are marshalled with two
keys. -/
theorem MarshalJSON_error_iff_witness :
    Function.Injective adrStringToy ∧
    (((∃ err, mapSplit.MarshalJSON adrStringToy = Except.error err) ↔
      ((∀ e ∈ mapSplit.entries, e.2.ids = []) ∨
        ∃ e1 ∈ mapSplit.entries, ∃ e2 ∈ mapSplit.entries, e1.1 ≠ e2.1 ∧
          ∃ t, t ∈ e1.2.ids ∧ t ∈ e2.2.ids)) ∧
      ((¬ ∃ err, mapSplit.MarshalJSON adrStringToy = Except.error err) →
        mapSplit.MarshalJSON adrStringToy = Except.ok
          ((mapSplit.entries.filter (fun e => decide (e.2.ids.length ≠ 0))).map
            (fun e => (adrStringToy e.1, e.2))) ∧
        ((mapSplit.entries.filter (fun e => decide (e.2.ids.length ≠ 0))).map
            (fun e => adrStringToy e.1)).Nodup)) :=
  ⟨adrStringToy_injective, MarshalJSON_error_iff adrStringToy mapSplit adrStringToy_injective⟩

/-- A map with token 1 under two addresses is not marshalled. -/
theorem MarshalJSON_collision :
    mapOneOne.MarshalJSON adrStringToy = Except.error (Err.intersectionOf 1 adr2 adr1) := by
  decide

end Fat1

end Fatd

namespace Fatd

namespace Runtime

/-- C9: for a function name among the exports and every outcome of the sandbox,
`Call` opens the savepoint once and closes it exactly once, as its last step; it
is released (committed) if and only if the returned `txErr` and `err` are both
nil and rolled back otherwise; the table is the one the call left when committed
and the one before the call when rolled back; a normal return with no error
signal is committed. -/
theorem Call_closes_savepoint (exports : List String) (execLimitStr : String)
    (table : DB.Table) (fname : String) (run : SandboxRun) (hf : fname ∈ exports) :
    ∃ closing,
      (Call exports execLimitStr table fname run).trace
          = [Event.save, Event.setContextData, Event.invoke, closing] ∧
        (closing = Event.release ∨ closing = Event.rollback) ∧
        (closing = Event.release ↔
          ((Call exports execLimitStr table fname run).txErr = none ∧
            (Call exports execLimitStr table fname run).err = none)) ∧
        (closing = Event.release →
          (Call exports execLimitStr table fname run).table = run.table) ∧
        (closing = Event.rollback →
          (Call exports execLimitStr table fname run).table = table) ∧
        (run.callErr = none → run.ctxErr = none → closing = Event.release) := by
  have hnot : ¬ fname ∉ exports := not_not.mpr hf
  unfold Call
  rw [if_neg hnot]
  simp only
  rcases hr : callBody execLimitStr fname run with ⟨v, txErr, err⟩
  have hnormal : run.callErr = none → run.ctxErr = none → txErr = none ∧ err = none := by
    intro h1 h2
    simp only [callBody, h1, h2, classifyCtx, Prod.mk.injEq] at hr
    exact ⟨hr.2.1.symm, hr.2.2.symm⟩
  cases err with
  | some e =>
    refine ⟨Event.rollback, ?_, Or.inr rfl, ?_, ?_, ?_, ?_⟩
    · simp [releaseSavepoint]
    · simp
    · intro h; cases h
    · intro _; simp [releaseSavepoint]
    · intro h1 h2
      have := (hnormal h1 h2).2
      cases this
  | none =>
    cases txErr with
    | some e =>
      refine ⟨Event.rollback, ?_, Or.inr rfl, ?_, ?_, ?_, ?_⟩
      · simp [releaseSavepoint]
      · simp
      · intro h; cases h
      · intro _; simp [releaseSavepoint]
      · intro h1 h2
        have := (hnormal h1 h2).1
        cases this
    | none =>
      refine ⟨Event.release, ?_, Or.inl rfl, ?_, ?_, ?_, ?_⟩
      · simp [releaseSavepoint]
      · simp
      · intro _; simp [releaseSavepoint]
      · intro h; cases h
      · intro _ _; rfl

/-- Witness of C9: a normal return of the exported function `f`. -/
theorem Call_closes_savepoint_witness :
    "f" ∈ ["f"] ∧
    ∃ closing,
      (Call ["f"] "limit" [] "f" runNormal).trace
          = [Event.save, Event.setContextData, Event.invoke, closing] ∧
        (closing = Event.release ∨ closing = Event.rollback) ∧
        (closing = Event.release ↔
          ((Call ["f"] "limit" [] "f" runNormal).txErr = none ∧
            (Call ["f"] "limit" [] "f" runNormal).err = none)) ∧
        (closing = Event.release →
          (Call ["f"] "limit" [] "f" runNormal).table = runNormal.table) ∧
        (closing = Event.rollback →
          (Call ["f"] "limit" [] "f" runNormal).table = []) ∧
        (runNormal.callErr = none → runNormal.ctxErr = none → closing = Event.release) :=
  ⟨by decide, Call_closes_savepoint ["f"] "limit" [] "f" runNormal (by decide)⟩

/-- C10, as stated, fails: the exported function returns an error of its own and
the context holds a revert; `Call` returns both `txErr` and `err` non-nil. -/
theorem Call_both_errors :
    ¬ ((Call ["f"] "limit" [] "f" runTrapRevert).txErr = none ∨
        (Call ["f"] "limit" [] "f" runTrapRevert).err = none) ∧
      (Call ["f"] "limit" [] "f" runTrapRevert).txErr = some ⟨ErrType.revert, "revert"⟩ ∧
      (Call ["f"] "limit" [] "f" runTrapRevert).err = some ⟨ErrType.plain, "trap"⟩ := by
  decide

/-- C10, amended: for every function name and every outcome of the sandbox, both
`txErr` and `err` are non-nil exactly when the function is exported and either
the call left an error in `err` and `ctx.Err` is a revert or an execution-limit
error, or `GetLastError` reported the execution limit and `ctx.Err` is an error of
another type than the three signals; in every other case at most one is non-nil. -/
theorem Call_both_errors_iff (exports : List String) (execLimitStr : String)
    (table : DB.Table) (fname : String) (run : SandboxRun) :
    ((Call exports execLimitStr table fname run).txErr ≠ none ∧
        (Call exports execLimitStr table fname run).err ≠ none) ↔
      (fname ∈ exports ∧
        ((pendingErr fname run ≠ none ∧
            ∃ c, run.ctxErr = some c ∧
              (c.type = ErrType.revert ∨ c.type = ErrType.execLimitExceeded)) ∨
          (hitExecLimit execLimitStr fname run ∧
            ∃ c, run.ctxErr = some c ∧ c.type = ErrType.plain))) := by
  unfold Call
  by_cases hf : fname ∈ exports
  · have hnot : ¬ fname ∉ exports := not_not.mpr hf
    rw [if_neg hnot]
    simp only [hf, true_and]
    unfold callBody pendingErr hitExecLimit
    rcases run with ⟨v, callErr, lastErrStr, lastErrErr, ctxErr, tbl⟩
    simp only
    cases callErr with
    | none =>
      cases ctxErr with
      | none => simp [classifyCtx]
      | some c =>
        rcases c with ⟨ty, msg⟩
        cases ty <;> simp [classifyCtx]
    | some e =>
      by_cases hm : e.msg = failedToCall fname
      · simp only [hm, if_true]
        cases lastErrErr with
        | some e2 =>
          cases ctxErr with
          | none => simp [classifyCtx]
          | some c =>
            rcases c with ⟨ty, msg⟩
            cases ty <;> simp [classifyCtx]
        | none =>
          by_cases hs : lastErrStr = execLimitStr
          · cases ctxErr with
            | none => simp [classifyCtx, hs]
            | some c =>
              rcases c with ⟨ty, msg⟩
              cases ty <;> simp [classifyCtx, hs, hm]
          · cases ctxErr with
            | none => simp [classifyCtx, hs]
            | some c =>
              rcases c with ⟨ty, msg⟩
              cases ty <;> simp [classifyCtx, hs]
      · simp only [hm, if_false]
        cases ctxErr with
        | none => simp [classifyCtx]
        | some c =>
          rcases c with ⟨ty, msg⟩
          cases ty <;> simp [classifyCtx, hm]
  · have hnot : fname ∉ exports := hf
    rw [if_pos hnot]
    simp [hf]

end Runtime

end Fatd

namespace Fatd

namespace Fat0

theorem digitsAux_acc (fuel : Nat) : ∀ (n : Nat) (acc : Bytes),
    digitsAux fuel n acc = digitsAux fuel n [] ++ acc := by
  induction fuel with
  | zero => intro n acc; simp [digitsAux]
  | succ f ih =>
    intro n acc
    unfold digitsAux
    by_cases h : n < 10
    · simp [h]
    · simp only [h, if_false]
      rw [ih (n / 10) ((48 + n % 10) :: acc), ih (n / 10) [48 + n % 10]]
      simp

theorem digitsAux_fuel (fuel1 : Nat) : ∀ (fuel2 n : Nat) (acc : Bytes),
    n < fuel1 → n < fuel2 → digitsAux fuel1 n acc = digitsAux fuel2 n acc := by
  induction fuel1 with
  | zero => intro fuel2 n acc h; omega
  | succ f ih =>
    intro fuel2 n acc h1 h2
    cases fuel2 with
    | zero => omega
    | succ g =>
      unfold digitsAux
      by_cases h : n < 10
      · simp [h]
      · simp only [h, if_false]
        exact ih g (n / 10) _ (by omega) (by omega)

theorem FormatUint_lt {n : Nat} (h : n < 10) : FormatUint n = [48 + n] := by
  simp [FormatUint, digitsAux, h]

theorem FormatUint_ge {n : Nat} (h : 10 ≤ n) :
    FormatUint n = FormatUint (n / 10) ++ [48 + n % 10] := by
  have hn : ¬ n < 10 := by omega
  unfold FormatUint
  rw [digitsAux]
  simp only [hn, if_false]
  rw [digitsAux_acc]
  congr 1
  exact digitsAux_fuel n (n / 10 + 1) (n / 10) [] (by omega) (by omega)

theorem FormatUint_ne_nil (n : Nat) : FormatUint n ≠ [] := by
  by_cases h : n < 10
  · rw [FormatUint_lt h]; simp
  · rw [FormatUint_ge (by omega)]; simp

theorem FormatUint_digits (n : Nat) : ∀ c ∈ FormatUint n, 48 ≤ c ∧ c ≤ 57 := by
  induction n using Nat.strong_induction_on with
  | _ n ih =>
    by_cases h : n < 10
    · rw [FormatUint_lt h]
      intro c hc
      simp only [List.mem_singleton] at hc
      omega
    · rw [FormatUint_ge (by omega)]
      intro c hc
      rcases List.mem_append.mp hc with hc | hc
      · exact ih (n / 10) (by omega) c hc
      · simp only [List.mem_singleton] at hc
        omega

/-- The number of decimal digits does not shrink when the number grows. -/
theorem FormatUint_length_mono (n : Nat) : ∀ m, m ≤ n →
    (FormatUint m).length ≤ (FormatUint n).length := by
  induction n using Nat.strong_induction_on with
  | _ n ih =>
    intro m hm
    by_cases hm10 : m < 10
    · rw [FormatUint_lt hm10]
      have := FormatUint_ne_nil n
      have : 0 < (FormatUint n).length := List.length_pos.mpr this
      simpa using this
    · have hn10 : 10 ≤ n := by omega
      rw [FormatUint_ge (by omega : 10 ≤ m), FormatUint_ge hn10]
      simp only [List.length_append, List.length_singleton]
      have := ih (n / 10) (by omega) (m / 10) (Nat.div_le_div_right hm)
      omega

theorem parse_FormatUint (n : Nat) : ∀ v : Nat,
    (FormatUint n).foldl parseStep (some v) = some (v * 10 ^ (FormatUint n).length + n) := by
  induction n using Nat.strong_induction_on with
  | _ n ih =>
    intro v
    by_cases h : n < 10
    · rw [FormatUint_lt h]
      have h1 : 48 ≤ 48 + n ∧ 48 + n ≤ 57 := by omega
      simp [parseStep, h1]
    · rw [FormatUint_ge (by omega)]
      rw [List.foldl_append, ih (n / 10) (by omega) v]
      have h1 : 48 ≤ 48 + n % 10 ∧ 48 + n % 10 ≤ 57 := by omega
      simp only [List.foldl_cons, List.foldl_nil, parseStep, h1, and_self, if_true,
        List.length_append, List.length_singleton, pow_succ]
      congr 1
      have := Nat.div_add_mod n 10
      have h2 : 48 + n % 10 - 48 = n % 10 := by omega
      rw [h2]
      nlinarith [Nat.div_add_mod n 10]

theorem parseDigits_FormatUint (n : Nat) : parseDigits (FormatUint n) = some n := by
  unfold parseDigits
  rw [if_neg (FormatUint_ne_nil n)]
  have := parse_FormatUint n 0
  simpa [parseStep] using this

theorem ParseInt_minus (ds : Bytes) (un : Nat) (h : parseDigits ds = some un)
    (hr : un ≤ 2 ^ 63) : ParseInt (45 :: ds) = some (-(un : Int)) := by
  have h1 : ¬ (2 ^ 63 < un) := by omega
  simp [ParseInt, h, h1]
  omega

theorem ParseInt_digits (c : Nat) (rest : Bytes) (un : Nat) (hc : 48 ≤ c)
    (h : parseDigits (c :: rest) = some un) (hr : un < 2 ^ 63) :
    ParseInt (c :: rest) = some (un : Int) := by
  have h43 : ¬ c = 43 := by omega
  have h45 : ¬ c = 45 := by omega
  have h1 : ¬ (2 ^ 63 ≤ un) := by omega
  simp [ParseInt, h, h1, h43, h45]
  omega

/-- Parsing undoes formatting, for every signed 64-bit value. -/
theorem ParseInt_FormatInt (x : Int) (hlo : -(2 ^ 63) ≤ x) (hhi : x < 2 ^ 63) :
    ParseInt (FormatInt x) = some x := by
  unfold FormatInt
  by_cases hneg : x < 0
  · rw [if_pos hneg, ParseInt_minus _ _ (parseDigits_FormatUint _) (by omega)]
    congr 1
    omega
  · rw [if_neg hneg]
    obtain ⟨c, rest, hcr⟩ := List.exists_cons_of_ne_nil (FormatUint_ne_nil x.toNat)
    have hc := FormatUint_digits x.toNat c (by rw [hcr]; exact List.mem_cons_self _ _)
    have hp := parseDigits_FormatUint x.toNat
    rw [hcr] at hp ⊢
    rw [ParseInt_digits c rest _ hc.1 hp (by omega)]
    congr 1
    omega

end Fat0

end Fatd

namespace Fatd

namespace Fat0

theorem copyAt_ok (dst : Bytes) (i : Int) (src : Bytes) (h0 : 0 ≤ i)
    (h1 : i ≤ (dst.length : Int)) :
    ∃ r n, copyAt dst i src = some (r, n) ∧ r.length = dst.length ∧ n ≤ src.length := by
  have hcond : ¬ (i < 0 ∨ (dst.length : Int) < i) := by omega
  refine ⟨_, _, by simp only [copyAt, if_neg hcond]; rfl, ?_, Nat.min_le_right _ _⟩
  simp only [List.length_append, List.length_take, List.length_drop]
  omega

theorem copyAt_full (dst src : Bytes) (h : src.length = dst.length) :
    copyAt dst 0 src = some (src, src.length) := by
  have hcond : ¬ ((0 : Int) < 0 ∨ (dst.length : Int) < 0) := by omega
  simp only [copyAt, if_neg hcond, Int.toNat_zero, Nat.sub_zero, List.take_zero, List.nil_append,
    Nat.zero_add, h, Nat.min_self]
  rw [← h, List.take_length, h, List.drop_length, List.append_nil]

theorem initMsg_ok (maxLen : Nat) (timeSalt chainID content : Bytes) :
    ∃ msg, initMsg maxLen timeSalt chainID content = some msg ∧ maxLen ≤ msg.length := by
  unfold initMsg
  simp only
  obtain ⟨m1, n1, h1, hl1, hn1⟩ := copyAt_ok
    (zeros (maxLen + timeSalt.length + chainID.length + content.length)) (maxLen : Int) timeSalt
    (by omega) (by simp only [zeros, List.length_replicate]; omega)
  rw [h1]
  simp only
  have hz : (zeros (maxLen + timeSalt.length + chainID.length + content.length)).length
      = maxLen + timeSalt.length + chainID.length + content.length := by
    simp [zeros]
  obtain ⟨m2, n2, h2, hl2, hn2⟩ := copyAt_ok m1 ((maxLen : Int) + n1) chainID
    (by omega) (by rw [hl1, hz]; omega)
  rw [h2]
  simp only
  obtain ⟨m3, n3, h3, hl3, -⟩ := copyAt_ok m2 ((maxLen : Int) + n1 + n2) content
    (by omega) (by rw [hl2, hl1, hz]; omega)
  rw [h3]
  exact ⟨m3, rfl, by rw [hl3, hl2, hl1, hz]; omega⟩

theorem signLoop_ext (c : Crypto) (maxLen : Nat) (signers : List Address) :
    ∀ (id : Nat) (msg : Bytes) (ext : List Bytes),
      signLoop c maxLen signers id msg ext
        = (signLoop c maxLen signers id msg []).map (fun pairs => ext ++ pairs) := by
  induction signers with
  | nil => intro id msg ext; simp [signLoop]
  | cons a rest ih =>
    intro id msg ext
    unfold signLoop
    simp only
    cases hcp : copyAt msg ((maxLen : Int) - (FormatUint id).length) (FormatUint id) with
    | none => rfl
    | some r =>
      obtain ⟨msg1, k⟩ := r
      simp only
      rw [ih (id + 1) msg1 (ext ++ _), ih (id + 1) msg1 ([] ++ _)]
      cases signLoop c maxLen rest (id + 1) msg1 [] with
      | none => rfl
      | some pairs => simp

/-- The loop of `Sign` does not panic when the buffer leaves room for every index,
and it appends two items per signer. -/
theorem signLoop_some (c : Crypto) (maxLen : Nat) (signers : List Address) :
    ∀ (id : Nat) (msg : Bytes), maxLen ≤ msg.length →
      (∀ j, j < id + signers.length → (FormatUint j).length ≤ maxLen) →
      ∃ pairs, signLoop c maxLen signers id msg [] = some pairs ∧
        pairs.length = 2 * signers.length := by
  induction signers with
  | nil => intro id msg _ _; exact ⟨[], rfl, rfl⟩
  | cons a rest ih =>
    intro id msg hlen hw
    have hwid := hw id (by simp)
    obtain ⟨msg1, k, hcp, hl1, -⟩ := copyAt_ok msg ((maxLen : Int) - (FormatUint id).length)
      (FormatUint id) (by omega) (by omega)
    obtain ⟨pairs, hp, hpl⟩ := ih (id + 1) msg1 (by omega) (by
      intro j hj
      apply hw
      simp only [List.length_cons]
      omega)
    refine ⟨[a.RCD, c.sign a.PrivateKey (c.sum512 msg1)] ++ pairs, ?_, ?_⟩
    · unfold signLoop
      simp only [hcp]
      rw [signLoop_ext, hp]
      simp
    · simp only [List.length_append, List.length_cons, List.length_nil, hpl]
      omega

theorem signLoop_cons (c : Crypto) (maxLen : Nat) (a : Address) (rest : List Address)
    (id : Nat) (msg : Bytes) (pairs : List Bytes)
    (h : signLoop c maxLen (a :: rest) id msg [] = some pairs) :
    ∃ msg1 k pairs1,
      copyAt msg ((maxLen : Int) - (FormatUint id).length) (FormatUint id) = some (msg1, k) ∧
      signLoop c maxLen rest (id + 1) msg1 [] = some pairs1 ∧
      pairs = [a.RCD, c.sign a.PrivateKey (c.sum512 msg1)] ++ pairs1 := by
  unfold signLoop at h
  simp only at h
  cases hcp : copyAt msg ((maxLen : Int) - (FormatUint id).length) (FormatUint id) with
  | none => simp [hcp] at h
  | some r =>
    obtain ⟨msg1, k⟩ := r
    simp only [hcp] at h
    rw [signLoop_ext] at h
    cases hp : signLoop c maxLen rest (id + 1) msg1 [] with
    | none => simp [hp] at h
    | some pairs1 =>
      simp only [hp, Option.map_some', Option.some.injEq] at h
      exact ⟨msg1, k, pairs1, rfl, hp, by rw [← h]; simp⟩

theorem getElem?_pair (pre : List Bytes) (x y : Bytes) (tail : List Bytes) (id : Nat)
    (hpre : pre.length = 2 * id) :
    (pre ++ ([x, y] ++ tail))[id * 2]? = some x ∧
      (pre ++ ([x, y] ++ tail))[id * 2 + 1]? = some y := by
  constructor
  · rw [List.getElem?_append_right (by omega)]
    have : id * 2 - pre.length = 0 := by omega
    rw [this]
    rfl
  · rw [List.getElem?_append_right (by omega)]
    have : id * 2 + 1 - pre.length = 1 := by omega
    rw [this]
    simp

/-- The structure checks of `ValidExtIDs` pass on what `Sign` appends. -/
theorem structureLoop_of_sign (c : Crypto) (maxLen : Nat) (signers : List Address) :
    ∀ (id : Nat) (msg : Bytes) (pre pairs : List Bytes), pre.length = 2 * id →
      signLoop c maxLen signers id msg [] = some pairs →
      structureLoop (pre ++ pairs) signers.length id = Verdict.nil := by
  induction signers with
  | nil => intro id msg pre pairs _ _; rfl
  | cons a rest ih =>
    intro id msg pre pairs hpre h
    obtain ⟨msg1, k, pairs1, -, hp1, rfl⟩ := signLoop_cons c maxLen a rest id msg pairs h
    obtain ⟨hg1, hg2⟩ := getElem?_pair pre a.RCD (c.sign a.PrivateKey (c.sum512 msg1)) pairs1 id hpre
    have hrcd : ¬ a.RCD.length ≠ RCDSize := by
      simp [Address.RCD, RCDSize, a.pubLen]
    have hsig : ¬ (c.sign a.PrivateKey (c.sum512 msg1)).length ≠ SignatureSize := by
      simp [c.signLen]
    have hty : ¬ RCDType ≠ RCDType := by simp
    have hhead : a.RCD.head? = some RCDType := rfl
    rw [List.length_cons, structureLoop]
    simp only [hg1, hg2, if_neg hrcd, hhead, if_neg hty, if_neg hsig]
    have := ih (id + 1) msg1 (pre ++ [a.RCD, c.sign a.PrivateKey (c.sum512 msg1)]) pairs1
      (by simp only [List.length_append, List.length_cons, List.length_nil]; omega) hp1
    rw [List.append_assoc] at this
    exact this

/-- The signature checks of `validSignatures` pass on what `Sign` appends, when a
signature made with a signer's private key verifies under its public key. -/
theorem validSignaturesLoop_of_sign (c : Crypto) (maxLen : Nat) (signers : List Address) :
    ∀ (id : Nat) (msg : Bytes) (pre pairs : List Bytes) (pubKey sig : Bytes),
      pre.length = 2 * id →
      pubKey.length = PublicKeySize → sig.length = SignatureSize →
      (∀ a ∈ signers, ∀ m, c.verify a.PublicKey m (c.sign a.PrivateKey m) = true) →
      signLoop c maxLen signers id msg [] = some pairs →
      validSignaturesLoop c maxLen (pre ++ pairs) signers.length id msg pubKey sig
        = Verdict.nil := by
  induction signers with
  | nil => intro id msg pre pairs pubKey sig _ _ _ _ _; rfl
  | cons a rest ih =>
    intro id msg pre pairs pubKey sig hpre hpk hsg hver h
    obtain ⟨msg1, k, pairs1, hcp, hp1, rfl⟩ := signLoop_cons c maxLen a rest id msg pairs h
    obtain ⟨hg1, hg2⟩ := getElem?_pair pre a.RCD (c.sign a.PrivateKey (c.sum512 msg1)) pairs1 id hpre
    have hrl : ¬ a.RCD.length < 1 := by simp [Address.RCD]
    have hc1 : copyAt pubKey 0 (a.RCD.drop 1) = some (a.PublicKey, a.PublicKey.length) := by
      simp only [Address.RCD, List.drop_succ_cons, List.drop_zero]
      exact copyAt_full pubKey a.PublicKey (by rw [a.pubLen, hpk])
    have hc2 : copyAt sig 0 (c.sign a.PrivateKey (c.sum512 msg1))
        = some (c.sign a.PrivateKey (c.sum512 msg1),
            (c.sign a.PrivateKey (c.sum512 msg1)).length) :=
      copyAt_full sig _ (by rw [c.signLen, hsg])
    have hv : ¬ ¬ c.verify a.PublicKey (c.sum512 msg1)
        (c.sign a.PrivateKey (c.sum512 msg1)) = true := by
      rw [hver a (List.mem_cons_self _ _)]
      simp
    rw [List.length_cons, validSignaturesLoop]
    simp only [hcp, hg1, hg2, if_neg hrl, hc1, hc2, if_neg hv]
    have := ih (id + 1) msg1 (pre ++ [a.RCD, c.sign a.PrivateKey (c.sum512 msg1)]) pairs1
      a.PublicKey (c.sign a.PrivateKey (c.sum512 msg1))
      (by simp only [List.length_append, List.length_cons, List.length_nil]; omega)
      a.pubLen (c.signLen _ _)
      (fun b hb => hver b (List.mem_cons_of_mem _ hb)) hp1
    rw [List.append_assoc] at this
    exact this

end Fat0

end Fatd

namespace Fatd

namespace Fat0

theorem digitStrLen_nat (n : Nat) : digitStrLen (n : Int) = (FormatUint n).length := by
  unfold digitStrLen FormatInt
  have h : ¬ (n : Int) < 0 := by omega
  rw [if_neg h, Int.toNat_ofNat]

/-- What `Sign` leaves: it does not panic; the `ExtIDs` are the salt followed by
two items per signer, built by the loop from the initial buffer; chain id and
content are kept and the timestamp is the clock reading. -/
theorem Sign_spec (c : Crypto) (e : Entry) (signers : List Address) (now rnd : Int) :
    ∃ msg pairs,
      initMsg (digitStrLen (signers.length : Int)) (newTimestampSalt now rnd) e.ChainID e.Content
        = some msg ∧
      signLoop c (digitStrLen (signers.length : Int)) signers 0 msg [] = some pairs ∧
      pairs.length = 2 * signers.length ∧
      Sign c e signers now rnd
        = some ⟨e.ChainID, e.Content, newTimestampSalt now rnd :: pairs, now⟩ := by
  obtain ⟨msg, hmsg, hlen⟩ := initMsg_ok (digitStrLen (signers.length : Int))
    (newTimestampSalt now rnd) e.ChainID e.Content
  obtain ⟨pairs, hp, hpl⟩ := signLoop_some c (digitStrLen (signers.length : Int)) signers 0 msg
    hlen (by
      intro j hj
      rw [digitStrLen_nat]
      exact FormatUint_length_mono signers.length j (by omega))
  refine ⟨msg, pairs, hmsg, hp, hpl, ?_⟩
  unfold Sign
  simp only [Entry.SetTimestampToNow, hmsg]
  rw [signLoop_ext, hp]
  rfl

/-- The timestamp check on a freshly signed entry: with a clock between the years
1823 and 2116 and an offset in `[0, 12h)`, the salt parses, and the check fails
exactly when the clock is more than twelve hours after the salt's full second. -/
theorem validTimestamp_signed (chainID content : Bytes) (pairs : List Bytes) (now rnd : Int)
    (hnow : -(2 ^ 62) ≤ now ∧ now ≤ 2 ^ 62) (hrnd : 0 ≤ rnd ∧ rnd < twelveHours) :
    validTimestamp ⟨chainID, content, newTimestampSalt now rnd :: pairs, now⟩
      = if now - timeToUnix (now - rnd) * second > twelveHours then
          Verdict.error ValidErr.timestampSaltExpired
        else Verdict.nil := by
  have h12 : twelveHours = 43200000000000 := by decide
  have hsec : second = 1000000000 := rfl
  rw [h12] at hrnd
  have hparse : ParseInt (newTimestampSalt now rnd) = some (timeToUnix (now - rnd)) := by
    unfold newTimestampSalt
    apply ParseInt_FormatInt
    · unfold timeToUnix; rw [hsec]; omega
    · unfold timeToUnix; rw [hsec]; omega
  have hunix : timeUnix (timeToUnix (now - rnd)) = timeToUnix (now - rnd) * second := by
    unfold timeUnix wrap64 timeToUnix
    rw [hsec]
    congr 1
    omega
  have hsub : timeSub now (timeToUnix (now - rnd) * second)
      = now - timeToUnix (now - rnd) * second := by
    unfold timeSub timeToUnix
    rw [hsec]
    have h1 : ¬ (now - (now - rnd) / 1000000000 * 1000000000 < -(2 ^ 63)) := by omega
    have h2 : ¬ (2 ^ 63 - 1 < now - (now - rnd) / 1000000000 * 1000000000) := by omega
    rw [if_neg h1, if_neg h2]
  unfold validTimestamp
  simp only [List.head?_cons, hparse, hunix, hsub]
  have hlow : ¬ (-twelveHours > now - timeToUnix (now - rnd) * second) := by
    unfold timeToUnix
    rw [hsec, h12]
    omega
  by_cases hhi : now - timeToUnix (now - rnd) * second > twelveHours
  · rw [if_pos (Or.inr hhi), if_pos hhi]
  · rw [if_neg (by rintro (h | h); exact hlow h; exact hhi h), if_neg hhi]

/-- Signing then validating: `Sign` returns, and `ValidExtIDs` on its result
passes the count check, the structure checks and every signature check; the
verdict is the one of the timestamp check. -/
theorem signed_entry_verdict (c : Crypto) (e : Entry) (signers : List Address)
    (now rnd : Int) (hne : signers ≠ [])
    (hver : ∀ a ∈ signers, ∀ m, c.verify a.PublicKey m (c.sign a.PrivateKey m) = true)
    (hnow : -(2 ^ 62) ≤ now ∧ now ≤ 2 ^ 62) (hrnd : 0 ≤ rnd ∧ rnd < twelveHours) :
    ∃ e1, Sign c e signers now rnd = some e1 ∧
      ValidExtIDs c e1
        = if now - timeToUnix (now - rnd) * second > twelveHours then
            Verdict.error ValidErr.timestampSaltExpired
          else Verdict.nil := by
  obtain ⟨msg, pairs, hmsg, hp, hpl, hsign⟩ := Sign_spec c e signers now rnd
  refine ⟨_, hsign, ?_⟩
  have hn : 0 < signers.length := List.length_pos.mpr hne
  have hcount : ¬ ((newTimestampSalt now rnd :: pairs).length < 3 ∨
      (newTimestampSalt now rnd :: pairs).length % 2 ≠ 1) := by
    simp only [List.length_cons, hpl]
    omega
  have hts := validTimestamp_signed e.ChainID e.Content pairs now rnd hnow hrnd
  unfold ValidExtIDs
  simp only [if_neg hcount, hts]
  by_cases hhi : now - timeToUnix (now - rnd) * second > twelveHours
  · simp only [if_pos hhi]
  · simp only [if_neg hhi, List.drop_succ_cons, List.drop_zero]
    have hhalf : pairs.length / 2 = signers.length := by omega
    have hstruct := structureLoop_of_sign c _ signers 0 msg [] pairs rfl hp
    simp only [List.nil_append] at hstruct
    rw [hhalf, hstruct]
    simp only
    unfold validSignatures
    have hhalf2 : (newTimestampSalt now rnd :: pairs).length / 2 = signers.length := by
      simp only [List.length_cons, hpl]
      omega
    simp only [hhalf2, List.head?_cons, hmsg, List.drop_succ_cons, List.drop_zero]
    have hval := validSignaturesLoop_of_sign c _ signers 0 msg [] pairs (zeros PublicKeySize)
      (zeros SignatureSize) rfl (by simp [zeros]) (by simp [zeros]) hver hp
    simpa using hval

end Fat0

end Fatd

namespace Fatd

namespace Fat0

/-- Signing then validating succeeds whenever the random offset leaves a full
second of the twelve-hour window. -/
theorem signed_entry_valid_within (c : Crypto) (e : Entry) (signers : List Address)
    (now rnd : Int) (hne : signers ≠ [])
    (hver : ∀ a ∈ signers, ∀ m, c.verify a.PublicKey m (c.sign a.PrivateKey m) = true)
    (hnow : -(2 ^ 62) ≤ now ∧ now ≤ 2 ^ 62) (hrnd : 0 ≤ rnd ∧ rnd ≤ twelveHours - second) :
    ∃ e1, Sign c e signers now rnd = some e1 ∧ ValidExtIDs c e1 = Verdict.nil := by
  have h12 : twelveHours = 43200000000000 := by decide
  have hsec : second = 1000000000 := rfl
  have hr : rnd ≤ 43200000000000 - 1000000000 := by
    have := hrnd.2
    rw [h12, hsec] at this
    exact this
  obtain ⟨e1, h1, h2⟩ := signed_entry_verdict c e signers now rnd hne hver hnow
    ⟨hrnd.1, by rw [h12]; omega⟩
  refine ⟨e1, h1, ?_⟩
  rw [h2, if_neg]
  unfold timeToUnix
  rw [h12, hsec]
  omega

/-- C1, at a failing input: the clock reads half a second past a full second and
the random offset is the largest one below twelve hours; for every signature
scheme, every entry and every non-empty list of signers `Sign` returns, and
`ValidExtIDs` on its result fails the timestamp-salt window check. -/
theorem Sign_then_ValidExtIDs_expired (c : Crypto) (e : Entry) (signers : List Address)
    (hne : signers ≠ []) :
    (0 ≤ rndMax ∧ rndMax < twelveHours) ∧
      ∃ e1, Sign c e signers nowHalf rndMax = some e1 ∧
        ValidExtIDs c e1 = Verdict.error ValidErr.timestampSaltExpired := by
  refine ⟨by decide, ?_⟩
  obtain ⟨msg, pairs, -, -, hpl, hsign⟩ := Sign_spec c e signers nowHalf rndMax
  refine ⟨_, hsign, ?_⟩
  have hn : 0 < signers.length := List.length_pos.mpr hne
  have hcount : ¬ ((newTimestampSalt nowHalf rndMax :: pairs).length < 3 ∨
      (newTimestampSalt nowHalf rndMax :: pairs).length % 2 ≠ 1) := by
    simp only [List.length_cons, hpl]
    omega
  have hts := validTimestamp_signed e.ChainID e.Content pairs nowHalf rndMax
    (by decide) (by decide)
  have hhi : nowHalf - timeToUnix (nowHalf - rndMax) * second > twelveHours := by decide
  rw [if_pos hhi] at hts
  unfold ValidExtIDs
  simp only [if_neg hcount, hts]

/-- Witness of the failing input of C1: one signer of the toy scheme. -/
theorem Sign_then_ValidExtIDs_expired_witness :
    [signerToy] ≠ [] ∧
    ((0 ≤ rndMax ∧ rndMax < twelveHours) ∧
      ∃ e1, Sign cryptoToy entryToy [signerToy] nowHalf rndMax = some e1 ∧
        ValidExtIDs cryptoToy e1 = Verdict.error ValidErr.timestampSaltExpired) :=
  ⟨by simp, Sign_then_ValidExtIDs_expired cryptoToy entryToy [signerToy] (by simp)⟩

end Fat0

end Fatd

namespace Fatd

namespace Runtime

/-- The named results of `Call` for an exported function whose run left a revert
or a self-destruct in the context, case by case. -/
theorem callBody_cases (execLimitStr fname : String) (run : SandboxRun) :
    (run.callErr = none ∨ hitExecLimit execLimitStr fname run) ∨
      ((callBody execLimitStr fname run).2.2 ≠ none ∧
        ¬ (run.callErr = none ∨ hitExecLimit execLimitStr fname run)) := by
  unfold callBody hitExecLimit
  rcases run with ⟨v, callErr, lastErrStr, lastErrErr, ctxErr, tbl⟩
  simp only
  cases callErr with
  | none => exact Or.inl (Or.inl rfl)
  | some e =>
    by_cases hm : e.msg = failedToCall fname
    · cases lastErrErr with
      | some e2 =>
        refine Or.inr ⟨?_, ?_⟩
        · cases ctxErr with
          | none => simp [hm, classifyCtx]
          | some c => rcases c with ⟨ty, msg⟩; cases ty <;> simp [hm, classifyCtx]
        · simp
      | none =>
        by_cases hs : lastErrStr = execLimitStr
        · exact Or.inl (Or.inr ⟨e, rfl, hm, rfl, hs⟩)
        · refine Or.inr ⟨by simp [hm, hs], ?_⟩
          simp [hs]
    · refine Or.inr ⟨?_, ?_⟩
      · cases ctxErr with
        | none => simp [hm, classifyCtx]
        | some c => rcases c with ⟨ty, msg⟩; cases ty <;> simp [hm, classifyCtx]
      · simp [hm]

theorem callBody_clean (execLimitStr fname : String) (run : SandboxRun) (c : Error)
    (hc : run.ctxErr = some c)
    (h : run.callErr = none ∨ hitExecLimit execLimitStr fname run) :
    (c.type = ErrType.revert → (callBody execLimitStr fname run).2.1 = some c ∧
        (callBody execLimitStr fname run).2.2 = none) ∧
      (c.type = ErrType.selfDestruct → (callBody execLimitStr fname run).2.1 = none ∧
        (callBody execLimitStr fname run).2.2 = none) := by
  unfold callBody
  rcases h with h | ⟨e, h1, h2, h3, h4⟩
  · simp only [h, hc, classifyCtx]
    rcases c with ⟨ty, msg⟩
    cases ty <;> simp
  · simp only [h1, h2, h3, h4, hc, classifyCtx, if_true, ne_eq, not_true_eq_false, if_false]
    rcases c with ⟨ty, msg⟩
    cases ty <;> simp

theorem callBody_selfDestruct_txErr (execLimitStr fname : String) (run : SandboxRun)
    (c : Error) (hc : run.ctxErr = some c) (ht : c.type = ErrType.selfDestruct) :
    (callBody execLimitStr fname run).2.1 = none := by
  unfold callBody
  rcases run with ⟨v, callErr, lastErrStr, lastErrErr, ctxErr, tbl⟩
  simp only at hc
  subst hc
  cases callErr with
  | none => simp [classifyCtx, ht]
  | some e =>
    by_cases hm : e.msg = failedToCall fname
    · cases lastErrErr with
      | some e2 => simp [hm, classifyCtx, ht]
      | none =>
        by_cases hs : lastErrStr = execLimitStr
        · simp [hm, hs, classifyCtx, ht]
        · simp [hm, hs]
    · simp [hm, classifyCtx, ht]

theorem Call_exported (exports : List String) (execLimitStr : String) (table : DB.Table)
    (fname : String) (run : SandboxRun) (hf : fname ∈ exports) :
    (Call exports execLimitStr table fname run).txErr = (callBody execLimitStr fname run).2.1 ∧
      (Call exports execLimitStr table fname run).err = (callBody execLimitStr fname run).2.2 ∧
      ((callBody execLimitStr fname run).2.1 = none →
        (callBody execLimitStr fname run).2.2 = none →
        (Call exports execLimitStr table fname run).table = run.table ∧
        (Call exports execLimitStr table fname run).trace
          = [Event.save, Event.setContextData, Event.invoke, Event.release]) ∧
      (((callBody execLimitStr fname run).2.1 ≠ none ∨
          (callBody execLimitStr fname run).2.2 ≠ none) →
        (Call exports execLimitStr table fname run).table = table ∧
        (Call exports execLimitStr table fname run).trace
          = [Event.save, Event.setContextData, Event.invoke, Event.rollback]) := by
  have hnot : ¬ fname ∉ exports := not_not.mpr hf
  unfold Call
  rw [if_neg hnot]
  simp only
  rcases callBody execLimitStr fname run with ⟨v, txErr, err⟩
  cases err with
  | some e => simp [releaseSavepoint]
  | none =>
    cases txErr with
    | some e => simp [releaseSavepoint]
    | none => simp [releaseSavepoint]

/-- C11, as stated, fails: the context holds a revert and the exported function
returned an error of its own; `Call` returns that error in `err`. -/
theorem Call_revert_with_call_error :
    runTrapRevert.ctxErr = some ⟨ErrType.revert, "revert"⟩ ∧
      ¬ ((Call ["f"] "limit" [] "f" runTrapRevert).txErr = some ⟨ErrType.revert, "revert"⟩ ∧
        (Call ["f"] "limit" [] "f" runTrapRevert).err = none) := by
  decide

/-- C11, amended: whenever `ctx.Err` is a revert when the exported function
returns, `Call` returns a non-nil error, rolls the savepoint back and leaves the
table as it was before the call; `txErr` is the revert with `err` nil exactly when
the call itself left no error (the exported function returned none, or
`GetLastError` reported the execution limit); otherwise `err` is non-nil. -/
theorem Call_revert (exports : List String) (execLimitStr : String) (table : DB.Table)
    (fname : String) (run : SandboxRun) (c : Error) (hf : fname ∈ exports)
    (hc : run.ctxErr = some c) (ht : c.type = ErrType.revert) :
    (Call exports execLimitStr table fname run).trace
        = [Event.save, Event.setContextData, Event.invoke, Event.rollback] ∧
      (Call exports execLimitStr table fname run).table = table ∧
      (((Call exports execLimitStr table fname run).txErr = some c ∧
          (Call exports execLimitStr table fname run).err = none) ↔
        (run.callErr = none ∨ hitExecLimit execLimitStr fname run)) ∧
      (¬ (run.callErr = none ∨ hitExecLimit execLimitStr fname run) →
        (Call exports execLimitStr table fname run).err ≠ none) := by
  obtain ⟨h1, h2, -, h4⟩ := Call_exported exports execLimitStr table fname run hf
  rw [h1, h2]
  rcases callBody_cases execLimitStr fname run with hclean | ⟨herr, hnot⟩
  · obtain ⟨htx, he⟩ := (callBody_clean execLimitStr fname run c hc hclean).1 ht
    have hroll := h4 (Or.inl (by rw [htx]; simp))
    exact ⟨hroll.2, hroll.1, ⟨fun _ => hclean, fun _ => ⟨htx, he⟩⟩, fun h => absurd hclean h⟩
  · have hroll := h4 (Or.inr herr)
    exact ⟨hroll.2, hroll.1, ⟨fun h => absurd h.2 herr, fun h => absurd h hnot⟩, fun _ => herr⟩

/-- Witness of C11: a run that sets a revert and returns without an error. -/
theorem Call_revert_witness :
    (Call ["f"] "limit" [] "f" runRevert).trace
        = [Event.save, Event.setContextData, Event.invoke, Event.rollback] ∧
      (Call ["f"] "limit" [] "f" runRevert).table = [] ∧
      (((Call ["f"] "limit" [] "f" runRevert).txErr = some ⟨ErrType.revert, "revert"⟩ ∧
          (Call ["f"] "limit" [] "f" runRevert).err = none) ↔
        (runRevert.callErr = none ∨ hitExecLimit "limit" "f" runRevert)) ∧
      (¬ (runRevert.callErr = none ∨ hitExecLimit "limit" "f" runRevert) →
        (Call ["f"] "limit" [] "f" runRevert).err ≠ none) :=
  Call_revert ["f"] "limit" [] "f" runRevert ⟨ErrType.revert, "revert"⟩ (by decide) rfl rfl

/-- C12, as stated, fails: the context holds a self-destruct and the exported
function returned an error of its own; `Call` returns that error in `err` and
rolls the savepoint back. -/
theorem Call_selfDestruct_with_call_error :
    runTrapSelfDestruct.ctxErr = some ⟨ErrType.selfDestruct, "self destruct"⟩ ∧
      ¬ ((Call ["f"] "limit" [] "f" runTrapSelfDestruct).txErr = none ∧
        (Call ["f"] "limit" [] "f" runTrapSelfDestruct).err = none) ∧
      (Call ["f"] "limit" [] "f" runTrapSelfDestruct).trace
        = [Event.save, Event.setContextData, Event.invoke, Event.rollback] := by
  decide

/-- C12, amended: whenever `ctx.Err` is a self-destruct when the exported function
returns, `txErr` is nil; `err` is nil and the savepoint is committed exactly when
the call itself left no error (the exported function returned none, or
`GetLastError` reported the execution limit); otherwise `err` is non-nil and the
savepoint is rolled back. -/
theorem Call_selfDestruct (exports : List String) (execLimitStr : String) (table : DB.Table)
    (fname : String) (run : SandboxRun) (c : Error) (hf : fname ∈ exports)
    (hc : run.ctxErr = some c) (ht : c.type = ErrType.selfDestruct) :
    (Call exports execLimitStr table fname run).txErr = none ∧
      ((run.callErr = none ∨ hitExecLimit execLimitStr fname run) →
        (Call exports execLimitStr table fname run).err = none ∧
        (Call exports execLimitStr table fname run).trace
          = [Event.save, Event.setContextData, Event.invoke, Event.release] ∧
        (Call exports execLimitStr table fname run).table = run.table) ∧
      (¬ (run.callErr = none ∨ hitExecLimit execLimitStr fname run) →
        (Call exports execLimitStr table fname run).err ≠ none ∧
        (Call exports execLimitStr table fname run).trace
          = [Event.save, Event.setContextData, Event.invoke, Event.rollback] ∧
        (Call exports execLimitStr table fname run).table = table) := by
  obtain ⟨h1, h2, h3, h4⟩ := Call_exported exports execLimitStr table fname run hf
  have htx := callBody_selfDestruct_txErr execLimitStr fname run c hc ht
  rw [h1, h2]
  refine ⟨htx, ?_, ?_⟩
  · intro hclean
    obtain ⟨-, he⟩ := (callBody_clean execLimitStr fname run c hc hclean).2 ht
    have := h3 htx he
    exact ⟨he, this.2, this.1⟩
  · intro hnot
    rcases callBody_cases execLimitStr fname run with hclean | ⟨herr, -⟩
    · exact absurd hclean hnot
    · have := h4 (Or.inr herr)
      exact ⟨herr, this.2, this.1⟩

/-- Witness of C12: a run that sets a self-destruct and returns without an error. -/
theorem Call_selfDestruct_witness :
    (Call ["f"] "limit" [] "f" runSelfDestruct).txErr = none ∧
      ((runSelfDestruct.callErr = none ∨ hitExecLimit "limit" "f" runSelfDestruct) →
        (Call ["f"] "limit" [] "f" runSelfDestruct).err = none ∧
        (Call ["f"] "limit" [] "f" runSelfDestruct).trace
          = [Event.save, Event.setContextData, Event.invoke, Event.release] ∧
        (Call ["f"] "limit" [] "f" runSelfDestruct).table = runSelfDestruct.table) ∧
      (¬ (runSelfDestruct.callErr = none ∨ hitExecLimit "limit" "f" runSelfDestruct) →
        (Call ["f"] "limit" [] "f" runSelfDestruct).err ≠ none ∧
        (Call ["f"] "limit" [] "f" runSelfDestruct).trace
          = [Event.save, Event.setContextData, Event.invoke, Event.rollback] ∧
        (Call ["f"] "limit" [] "f" runSelfDestruct).table = []) :=
  Call_selfDestruct ["f"] "limit" [] "f" runSelfDestruct ⟨ErrType.selfDestruct, "self destruct"⟩
    (by decide) rfl rfl

/-- C13: for a function name that is not among the exports, `Call` returns the
error "unknown function" in `txErr` with `err` nil, takes no step at all (no
savepoint, no context injected, no invocation) and leaves the table as it was. -/
theorem Call_unknown_function (exports : List String) (execLimitStr : String)
    (table : DB.Table) (fname : String) (run : SandboxRun) (hf : fname ∉ exports) :
    (Call exports execLimitStr table fname run).txErr
        = some ⟨ErrType.plain, "unknown function"⟩ ∧
      (Call exports execLimitStr table fname run).err = none ∧
      (Call exports execLimitStr table fname run).trace = [] ∧
      (Call exports execLimitStr table fname run).table = table := by
  unfold Call
  rw [if_pos hf]
  exact ⟨rfl, rfl, rfl, rfl⟩

/-- Witness of C13: the name `g` when only `f` is exported. -/
theorem Call_unknown_function_witness :
    "g" ∉ ["f"] ∧
    ((Call ["f"] "limit" DB.tableFive "g" runNormal).txErr
        = some ⟨ErrType.plain, "unknown function"⟩ ∧
      (Call ["f"] "limit" DB.tableFive "g" runNormal).err = none ∧
      (Call ["f"] "limit" DB.tableFive "g" runNormal).trace = [] ∧
      (Call ["f"] "limit" DB.tableFive "g" runNormal).table = DB.tableFive) :=
  ⟨by decide, Call_unknown_function ["f"] "limit" DB.tableFive "g" runNormal (by decide)⟩

end Runtime

end Fatd

namespace Fatd

namespace Fat1

theorem get_nonempty_iff (m : AddressNFTokensMap) (adr : FAAddress) :
    (m.get adr).ids.length ≠ 0 ↔ m.HasTokens adr := by
  unfold AddressNFTokensMap.get AddressNFTokensMap.HasTokens
  cases hf : m.entries.find? (fun e => decide (e.1 = adr)) with
  | none =>
    simp only [NFTokens.empty, List.length_nil, ne_eq, not_true_eq_false, false_iff]
    rintro ⟨e, he, hk, -⟩
    have := List.find?_eq_none.mp hf e he
    simp [hk] at this
  | some e0 =>
    have hmem := List.mem_of_find?_eq_some hf
    have hkey : e0.1 = adr := by simpa using List.find?_some hf
    simp only [ne_eq, List.length_eq_zero]
    constructor
    · intro h
      exact ⟨e0, hmem, hkey, h⟩
    · rintro ⟨e, he, hk, hne⟩
      have : e = e0 := by
        have hinj := List.inj_on_of_nodup_map m.nodupKeys he hmem (hk.trans hkey.symm)
        exact hinj
      rw [← this]
      exact hne

theorem noAddressLoop_eq_none (long : AddressNFTokensMap) (l : List (FAAddress × NFTokens)) :
    noAddressLoop long l = none ↔ ∀ e ∈ l, e.2.ids ≠ [] → ¬ long.HasTokens e.1 := by
  induction l with
  | nil => simp [noAddressLoop]
  | cons e l ih =>
    obtain ⟨adr, tk⟩ := e
    unfold noAddressLoop
    by_cases h0 : tk.ids.length = 0
    · rw [if_pos h0, ih]
      have h0' : tk.ids = [] := List.length_eq_zero.mp h0
      constructor
      · intro h e he
        rcases List.mem_cons.mp he with rfl | he
        · intro hne; exact absurd h0' hne
        · exact h e he
      · intro h e he
        exact h e (List.mem_cons_of_mem _ he)
    · rw [if_neg h0]
      have h0' : tk.ids ≠ [] := fun h => h0 (by rw [h]; rfl)
      by_cases hl : (long.get adr).ids.length ≠ 0
      · rw [if_pos hl]
        simp only [reduceCtorEq, false_iff]
        intro h
        exact h (adr, tk) (List.mem_cons_self _ _) h0' ((get_nonempty_iff long adr).mp hl)
      · rw [if_neg hl, ih]
        constructor
        · intro h e he
          rcases List.mem_cons.mp he with rfl | he
          · intro _ hh; exact hl ((get_nonempty_iff long adr).mpr hh)
          · exact h e he
        · intro h e he
          exact h e (List.mem_cons_of_mem _ he)

theorem noAddressLoop_iff (long short : AddressNFTokensMap) :
    noAddressLoop long short.entries = none ↔
      ¬ ∃ adr, short.HasTokens adr ∧ long.HasTokens adr := by
  rw [noAddressLoop_eq_none]
  constructor
  · rintro h ⟨adr, ⟨e, he, hk, hne⟩, hl⟩
    exact h e he hne (by rw [hk]; exact hl)
  · intro h e he hne hl
    exact h ⟨e.1, ⟨e, he, rfl, hne⟩, hl⟩

theorem noAddressIntersection_iff (m n : AddressNFTokensMap) :
    m.NoAddressIntersection n = none ↔ ¬ ∃ adr, m.HasTokens adr ∧ n.HasTokens adr := by
  unfold AddressNFTokensMap.NoAddressIntersection
  by_cases h : m.entries.length > n.entries.length
  · rw [if_pos h, noAddressLoop_iff]
    constructor
    · rintro hno ⟨adr, h1, h2⟩; exact hno ⟨adr, h2, h1⟩
    · rintro hno ⟨adr, h1, h2⟩; exact hno ⟨adr, h2, h1⟩
  · rw [if_neg h, noAddressLoop_iff]

/-- C19: `NoAddressIntersection` returns an error if and only if some address has a
non-empty token set in both maps, and the verdict does not depend on which of the
two maps is the receiver. -/
theorem NoAddressIntersection_error_iff (m n : AddressNFTokensMap) :
    ((∃ err, m.NoAddressIntersection n = some err) ↔
        ∃ adr, (∃ e ∈ m.entries, e.1 = adr ∧ e.2.ids ≠ []) ∧
          (∃ e ∈ n.entries, e.1 = adr ∧ e.2.ids ≠ [])) ∧
      ((∃ err, m.NoAddressIntersection n = some err) ↔
        (∃ err, n.NoAddressIntersection m = some err)) := by
  have key : ∀ a b : AddressNFTokensMap, (∃ err, a.NoAddressIntersection b = some err) ↔
      ∃ adr, a.HasTokens adr ∧ b.HasTokens adr := by
    intro a b
    have h := noAddressIntersection_iff a b
    cases hr : a.NoAddressIntersection b with
    | none =>
      rw [hr] at h
      simp only [reduceCtorEq, exists_false, false_iff]
      exact h.mp rfl
    | some err =>
      rw [hr] at h
      simp only [reduceCtorEq, false_iff, not_not] at h
      simp only [Option.some.injEq, exists_eq', true_iff]
      exact h
  refine ⟨key m n, ?_⟩
  rw [key m n, key n m]
  constructor
  · rintro ⟨adr, h1, h2⟩; exact ⟨adr, h2, h1⟩
  · rintro ⟨adr, h1, h2⟩; exact ⟨adr, h2, h1⟩

theorem ownerLoop_holds (tknID : NFTokenID) (l : List (FAAddress × NFTokens)) :
    ∀ adr : FAAddress, (∃ e ∈ l, tknID ∈ e.2.ids) →
      ∃ tkns, (ownerLoop tknID l adr, tkns) ∈ l ∧ tknID ∈ tkns.ids := by
  induction l with
  | nil => intro adr h; obtain ⟨e, he, -⟩ := h; cases he
  | cons e l ih =>
    intro adr h
    obtain ⟨a, tk⟩ := e
    unfold ownerLoop
    by_cases ht : tknID ∈ tk.ids
    · rw [if_pos ht]
      exact ⟨tk, List.mem_cons_self _ _, ht⟩
    · rw [if_neg ht]
      have h2 : ∃ e ∈ l, tknID ∈ e.2.ids := by
        obtain ⟨e, he, hte⟩ := h
        rcases List.mem_cons.mp he with rfl | he
        · exact absurd hte ht
        · exact ⟨e, he, hte⟩
      obtain ⟨tkns, hmem, htk⟩ := ih a h2
      exact ⟨tkns, List.mem_cons_of_mem _ hmem, htk⟩

theorem ownerLoop_absent (tknID : NFTokenID) (l : List (FAAddress × NFTokens)) :
    ∀ adr : FAAddress, (∀ e ∈ l, tknID ∉ e.2.ids) →
      ownerLoop tknID l adr = ((l.map Prod.fst).getLast?).getD adr := by
  induction l with
  | nil => intro adr _; rfl
  | cons e l ih =>
    intro adr h
    obtain ⟨a, tk⟩ := e
    unfold ownerLoop
    rw [if_neg (h (a, tk) (List.mem_cons_self _ _))]
    rw [ih a (fun e he => h e (List.mem_cons_of_mem _ he))]
    cases l with
    | nil => rfl
    | cons e2 l2 =>
      simp only [List.map_cons, List.getLast?_cons_cons]
      cases hl : (e2.1 :: List.map Prod.fst l2).getLast? with
      | none => simp at hl
      | some x => rfl

/-- What `Owner` returns: an address of the map that holds the token id when there
is one; otherwise the address the `range` visited last, and the zero value only
when the map is empty. -/
theorem Owner_spec (m : AddressNFTokensMap) (tknID : NFTokenID) :
    (m.Holds tknID → ∃ tkns, (m.Owner tknID, tkns) ∈ m.entries ∧ tknID ∈ tkns.ids) ∧
      (¬ m.Holds tknID →
        m.Owner tknID = ((m.entries.map Prod.fst).getLast?).getD FAAddress.zero) := by
  unfold AddressNFTokensMap.Owner AddressNFTokensMap.Holds
  refine ⟨fun h => ownerLoop_holds tknID m.entries FAAddress.zero h, fun h => ?_⟩
  apply ownerLoop_absent
  intro e he hte
  exact h ⟨e, he, hte⟩

/-- C18, at a failing input: the map holds the tokens 1 and 2 under one address and
token 3 under none; `Owner(3)` returns that address, not the zero value. -/
theorem Owner_absent_token_returns_last :
    ¬ mapOneTwo.Holds 3 ∧ mapOneTwo.Owner 3 = adr1 ∧ mapOneTwo.Owner 3 ≠ FAAddress.zero := by
  refine ⟨?_, by decide, by decide⟩
  rw [← mem_allIDs]
  decide

end Fat1

end Fatd

namespace Fatd

namespace Fat0

theorem timeSub_window (t u : Int) :
    ¬ (-twelveHours > timeSub t u ∨ timeSub t u > twelveHours) ↔ |t - u| ≤ twelveHours := by
  have h12 : twelveHours = 43200000000000 := by decide
  rw [abs_le, h12]
  unfold timeSub
  split_ifs <;> omega

theorem timeUnix_small (s : Int) (hlo : -(2 ^ 63) ≤ s) (hhi : s < 2 ^ 63 - 62135596800) :
    timeUnix s = s * second := by
  unfold timeUnix wrap64
  congr 1
  omega

theorem validTimestamp_verdict (e : Entry) (salt : Bytes) (h : e.ExtIDs.head? = some salt) :
    validTimestamp e =
      match ParseInt salt with
      | none => Verdict.error ValidErr.timestampSalt
      | some sec =>
        if |e.Timestamp - timeUnix sec| ≤ twelveHours then Verdict.nil
        else Verdict.error ValidErr.timestampSaltExpired := by
  unfold validTimestamp
  rw [h]
  simp only
  cases ParseInt salt with
  | none => rfl
  | some sec =>
    simp only
    by_cases hw : |e.Timestamp - timeUnix sec| ≤ twelveHours
    · rw [if_pos hw, if_neg ((timeSub_window _ _).mpr hw)]
    · rw [if_neg hw, if_pos (by
        by_contra hcon
        exact hw ((timeSub_window _ _).mp hcon))]

theorem ParseInt_range (b : Bytes) (x : Int) (hb : ParseInt b = some x) :
    -(2 ^ 63) ≤ x ∧ x < 2 ^ 63 := by
  unfold ParseInt at hb
  cases b with
  | nil => simp at hb
  | cons c rest =>
    simp only at hb
    cases hd : parseDigits (if c = 43 ∨ c = 45 then rest else c :: rest) with
    | none => simp [hd] at hb
    | some un =>
      simp only [hd] at hb
      by_cases hc : c = 45
      · simp only [hc, decide_True, not_true_eq_false, false_and, if_false, true_and,
          if_true] at hb
        by_cases hbig : 2 ^ 63 < un
        · simp [hbig] at hb
          omega
        · rw [if_neg hbig] at hb
          simp only [Option.some.injEq] at hb
          omega
      · simp only [hc, decide_False, Bool.false_eq_true, not_false_eq_true, true_and,
          false_and, if_false] at hb
        by_cases hbig : 2 ^ 63 ≤ un
        · simp [hbig] at hb
          omega
        · rw [if_neg hbig] at hb
          simp only [Option.some.injEq] at hb
          omega

theorem validTimestamp_formatted (s T : Int) (chainID content : Bytes) (rest : List Bytes)
    (hlo : -(2 ^ 62) ≤ s) (hhi : s ≤ 2 ^ 62) :
    validTimestamp ⟨chainID, content, FormatInt s :: rest, T⟩ =
      if |T - s * second| ≤ twelveHours then Verdict.nil
      else Verdict.error ValidErr.timestampSaltExpired := by
  have hparse : ParseInt (FormatInt s) = some s := ParseInt_FormatInt s (by omega) (by omega)
  have hu : timeUnix s = s * second := timeUnix_small s (by omega) (by omega)
  rw [validTimestamp_verdict ⟨chainID, content, FormatInt s :: rest, T⟩ (FormatInt s) rfl, hparse]
  simp only [hu]

/-- C14: for every entry with at least one ExtID, `validTimestamp` returns nil if
and only if `ExtIDs[0]` parses as a base-10 signed 64-bit integer `s` and the entry
timestamp is at most twelve hours away from `time.Unix(s, 0)`, which is `s`
seconds after the epoch; a salt twelve hours less one second before or after the
entry timestamp is accepted, one of twelve hours and one second is rejected. -/
theorem validTimestamp_iff (e : Entry) (salt : Bytes) (h : e.ExtIDs.head? = some salt) :
    (validTimestamp e = Verdict.nil ↔
        ∃ s, ParseInt salt = some s ∧ |e.Timestamp - timeUnix s| ≤ twelveHours) ∧
      (∀ s, ParseInt salt = some s → s < 2 ^ 63 - 62135596800 → timeUnix s = s * second) ∧
      (∀ (s : Int) (chainID content : Bytes) (rest : List Bytes),
        -(2 ^ 62) ≤ s → s ≤ 2 ^ 62 →
        validTimestamp ⟨chainID, content, FormatInt s :: rest,
            s * second + (twelveHours - second)⟩ = Verdict.nil ∧
          validTimestamp ⟨chainID, content, FormatInt s :: rest,
            s * second - (twelveHours - second)⟩ = Verdict.nil ∧
          validTimestamp ⟨chainID, content, FormatInt s :: rest,
            s * second + (twelveHours + second)⟩
              = Verdict.error ValidErr.timestampSaltExpired ∧
          validTimestamp ⟨chainID, content, FormatInt s :: rest,
            s * second - (twelveHours + second)⟩
              = Verdict.error ValidErr.timestampSaltExpired) := by
  refine ⟨?_, ?_, ?_⟩
  · rw [validTimestamp_verdict e salt h]
    cases hp : ParseInt salt with
    | none => simp
    | some sec =>
      simp only [Option.some.injEq, exists_eq_left']
      by_cases hw : |e.Timestamp - timeUnix sec| ≤ twelveHours
      · simp [hw]
      · simp [hw]
  · intro s hs hlt
    exact timeUnix_small s (ParseInt_range salt s hs).1 hlt
  · intro s chainID content rest hlo hhi
    have h12 : twelveHours = 43200000000000 := by decide
    have hsec : second = 1000000000 := rfl
    refine ⟨?_, ?_, ?_, ?_⟩
    · rw [validTimestamp_formatted s _ chainID content rest hlo hhi, if_pos]
      rw [abs_le, h12, hsec]
      constructor <;> omega
    · rw [validTimestamp_formatted s _ chainID content rest hlo hhi, if_pos]
      rw [abs_le, h12, hsec]
      constructor <;> omega
    · rw [validTimestamp_formatted s _ chainID content rest hlo hhi, if_neg]
      rw [abs_le, h12, hsec]
      omega
    · rw [validTimestamp_formatted s _ chainID content rest hlo hhi, if_neg]
      rw [abs_le, h12, hsec]
      omega

end Fat0

end Fatd

namespace Fatd

namespace Fat0

theorem zeros_length (n : Nat) : (zeros n).length = n := by simp [zeros]

theorem zeros_add (a b : Nat) : zeros (a + b) = zeros a ++ zeros b := by
  unfold zeros
  rw [List.replicate_add]

/-- Copying a string into the zero bytes right behind a prefix fills them. -/
theorem copyAt_fill (pre src : Bytes) (r : Nat) :
    copyAt (pre ++ zeros (src.length + r)) (pre.length : Int) src
      = some (pre ++ src ++ zeros r, src.length) := by
  have hcond : ¬ ((pre.length : Int) < 0 ∨
      ((pre ++ zeros (src.length + r)).length : Int) < (pre.length : Int)) := by
    simp only [List.length_append, zeros_length]
    omega
  have hmin : min ((pre ++ zeros (src.length + r)).length - pre.length) src.length
      = src.length := by
    simp only [List.length_append, zeros_length]
    omega
  simp only [copyAt, if_neg hcond, Int.toNat_ofNat, hmin, List.take_length]
  rw [List.take_left, List.drop_append_eq_append_drop]
  have h1 : pre.length + src.length - pre.length = src.length := by omega
  have h2 : List.drop (pre.length + src.length) pre = [] :=
    List.drop_eq_nil_of_le (by omega)
  rw [h1, h2, zeros_add]
  simp [List.drop_left', zeros_length]

/-- The buffer `Sign` and `validSignatures` start from. -/
theorem initMsg_eq (maxLen : Nat) (timeSalt chainID content : Bytes) :
    initMsg maxLen timeSalt chainID content
      = some (zeros maxLen ++ (timeSalt ++ chainID ++ content)) := by
  unfold initMsg
  simp only
  have e1 : zeros (maxLen + timeSalt.length + chainID.length + content.length)
      = zeros maxLen ++ zeros (timeSalt.length + (chainID.length + content.length)) := by
    rw [← zeros_add]; congr 1; omega
  have hl : ((maxLen : Nat) : Int) = ((zeros maxLen).length : Int) := by rw [zeros_length]
  rw [e1, hl, copyAt_fill (zeros maxLen) timeSalt (chainID.length + content.length)]
  simp only
  have hl2 : ((zeros maxLen).length : Int) + (timeSalt.length : Int)
      = ((zeros maxLen ++ timeSalt).length : Int) := by
    simp only [List.length_append]; omega
  rw [hl2, copyAt_fill (zeros maxLen ++ timeSalt) chainID content.length]
  simp only
  have hl3 : ((zeros maxLen ++ timeSalt).length : Int) + (chainID.length : Int)
      = ((zeros maxLen ++ timeSalt ++ chainID).length : Int) := by
    simp only [List.length_append]; omega
  have e3 : zeros maxLen ++ timeSalt ++ chainID ++ zeros content.length
      = zeros maxLen ++ timeSalt ++ chainID ++ zeros (content.length + 0) := rfl
  rw [hl3, e3, copyAt_fill (zeros maxLen ++ timeSalt ++ chainID) content 0]
  simp [zeros]

/-- Writing the decimal string of an index into the index field: whatever shorter
string stood at the right end of the field is covered, the zero bytes to its left
stay, the body stays. -/
theorem copyAt_index (width : Nat) (junk src body : Bytes)
    (hjs : junk.length ≤ src.length) (hsw : src.length ≤ width) :
    copyAt (zeros (width - junk.length) ++ junk ++ body) ((width : Int) - src.length) src
      = some (zeros (width - src.length) ++ src ++ body, src.length) := by
  have hsplit : zeros (width - junk.length)
      = zeros (width - src.length) ++ zeros (src.length - junk.length) := by
    rw [← zeros_add]; congr 1; omega
  have hcond : ¬ (((width : Int) - src.length) < 0 ∨
      ((zeros (width - junk.length) ++ junk ++ body).length : Int)
        < (width : Int) - src.length) := by
    simp only [List.length_append, zeros_length]
    omega
  have hto : ((width : Int) - (src.length : Int)).toNat = width - src.length := by omega
  have hmin : min ((zeros (width - junk.length) ++ junk ++ body).length - (width - src.length))
      src.length = src.length := by
    simp only [List.length_append, zeros_length]
    omega
  simp only [copyAt, if_neg hcond, hto, hmin, List.take_length]
  have htake : List.take (width - src.length) (zeros (width - junk.length) ++ junk ++ body)
      = zeros (width - src.length) := by
    rw [hsplit, List.append_assoc, List.append_assoc]
    have := List.take_left (zeros (width - src.length))
      (zeros (src.length - junk.length) ++ (junk ++ body))
    rw [zeros_length] at this
    exact this
  have hdrop : List.drop (width - src.length + src.length)
      (zeros (width - junk.length) ++ junk ++ body) = body := by
    have hlen : (zeros (width - junk.length) ++ junk).length = width - src.length + src.length := by
      simp only [List.length_append, zeros_length]
      omega
    rw [← hlen]
    exact List.drop_left _ _
  rw [htake, hdrop]

/-- The loop of `Sign` in closed form: from a buffer whose index field holds zero
bytes and a string no longer than the next index, it appends `signedPairs`. -/
theorem signLoop_eq (c : Crypto) (width : Nat) (body : Bytes) (signers : List Address) :
    ∀ (id : Nat) (junk : Bytes), junk.length ≤ (FormatUint id).length →
      (∀ j, j < id + signers.length → (FormatUint j).length ≤ width) →
      signLoop c width signers id (zeros (width - junk.length) ++ junk ++ body) []
        = some (signedPairs c width body signers id) := by
  induction signers with
  | nil => intro id junk _ _; rfl
  | cons a rest ih =>
    intro id junk hj hw
    have hwid := hw id (by simp)
    unfold signLoop
    simp only [copyAt_index width junk (FormatUint id) body hj hwid]
    rw [signLoop_ext]
    have := ih (id + 1) (FormatUint id) (FormatUint_length_mono (id + 1) id (by omega)) (by
      intro j hjlt
      apply hw
      simp only [List.length_cons]
      omega)
    rw [this]
    simp [signedPairs, indexedMsg]

theorem signedPairs_length (c : Crypto) (width : Nat) (body : Bytes) (signers : List Address) :
    ∀ i, (signedPairs c width body signers i).length = 2 * signers.length := by
  induction signers with
  | nil => intro i; rfl
  | cons a rest ih =>
    intro i
    simp only [signedPairs, List.length_cons, ih]
    omega

theorem signedPairs_getElem? (c : Crypto) (width : Nat) (body : Bytes)
    (signers : List Address) :
    ∀ (i j : Nat) (a : Address), signers[j]? = some a →
      (signedPairs c width body signers i)[2 * j]? = some a.RCD ∧
        (signedPairs c width body signers i)[2 * j + 1]?
          = some (c.sign a.PrivateKey (c.sum512 (indexedMsg width body (i + j)))) := by
  induction signers with
  | nil => intro i j a h; simp at h
  | cons b rest ih =>
    intro i j a h
    cases j with
    | zero =>
      simp only [List.getElem?_cons_zero, Option.some.injEq] at h
      subst h
      simp [signedPairs]
    | succ j =>
      simp only [List.getElem?_cons_succ] at h
      obtain ⟨h1, h2⟩ := ih (i + 1) j a h
      have e1 : 2 * (j + 1) = (2 * j) + 1 + 1 := by omega
      have e3 : i + (j + 1) = i + 1 + j := by omega
      rw [e1, e3]
      simp only [signedPairs, List.getElem?_cons_succ]
      exact ⟨h1, h2⟩

/-- `Sign` in closed form. -/
theorem Sign_eq (c : Crypto) (e : Entry) (signers : List Address) (now rnd : Int) :
    Sign c e signers now rnd
      = some ⟨e.ChainID, e.Content,
          newTimestampSalt now rnd ::
            signedPairs c (digitStrLen (signers.length : Int))
              (newTimestampSalt now rnd ++ e.ChainID ++ e.Content) signers 0, now⟩ := by
  unfold Sign
  simp only [Entry.SetTimestampToNow, initMsg_eq]
  rw [signLoop_ext]
  have h := signLoop_eq c (digitStrLen (signers.length : Int))
    (newTimestampSalt now rnd ++ e.ChainID ++ e.Content) signers 0 [] (by simp) (by
      intro j hj
      rw [digitStrLen_nat]
      exact FormatUint_length_mono signers.length j (by omega))
  simp only [List.length_nil, Nat.sub_zero, List.append_nil] at h
  rw [h]
  rfl

end Fat0

end Fatd

namespace Fatd

namespace Fat0

theorem getElem?_of_length_ne_zero (l : List Bytes) (k : Nat) (h : ((l[k]?).getD []).length ≠ 0) :
    l[k]? = some ((l[k]?).getD []) := by
  cases hk : l[k]? with
  | none => rw [hk] at h; simp at h
  | some x => rfl

theorem structureLoop_succ (l : List Bytes) (todo i : Nat) :
    structureLoop l (todo + 1) i =
      match l[i * 2]? with
      | none => Verdict.panic
      | some rcd =>
        if rcd.length ≠ RCDSize then Verdict.error (ValidErr.invalidRCDSize (i + 1))
        else
          match rcd.head? with
          | none => Verdict.panic
          | some b =>
            if b ≠ RCDType then Verdict.error (ValidErr.invalidRCDType (i + 1))
            else
              match l[i * 2 + 1]? with
              | none => Verdict.panic
              | some sig =>
                if sig.length ≠ SignatureSize then
                  Verdict.error (ValidErr.invalidSignatureSize (i + 1))
                else structureLoop l todo (i + 1) := by
  rw [structureLoop]

/-- The structure loop returns nil exactly when every pair it visits has a reveal
datum of the right size and type and a signature of the right size. -/
theorem structureLoop_eq_nil (l : List Bytes) :
    ∀ todo i, structureLoop l todo i = Verdict.nil ↔
      ∀ j, i ≤ j → j < i + todo →
        (rcdAt l j).length = RCDSize ∧ (rcdAt l j).head? = some RCDType ∧
          (sigAt l j).length = SignatureSize := by
  intro todo
  induction todo with
  | zero =>
    intro i
    simp only [structureLoop, true_iff]
    intro j h1 h2
    omega
  | succ todo ih =>
    intro i
    have hstep : (∀ j, i ≤ j → j < i + (todo + 1) →
        (rcdAt l j).length = RCDSize ∧ (rcdAt l j).head? = some RCDType ∧
          (sigAt l j).length = SignatureSize) ↔
        ((rcdAt l i).length = RCDSize ∧ (rcdAt l i).head? = some RCDType ∧
          (sigAt l i).length = SignatureSize) ∧
        (∀ j, i + 1 ≤ j → j < i + 1 + todo →
          (rcdAt l j).length = RCDSize ∧ (rcdAt l j).head? = some RCDType ∧
            (sigAt l j).length = SignatureSize) := by
      constructor
      · intro h
        exact ⟨h i (le_refl _) (by omega), fun j h1 h2 => h j (by omega) (by omega)⟩
      · rintro ⟨h0, h⟩ j h1 h2
        by_cases hj : j = i
        · subst hj; exact h0
        · exact h j (by omega) (by omega)
    rw [hstep, ← ih (i + 1), structureLoop_succ]
    unfold rcdAt sigAt
    cases hr : l[i * 2]? with
    | none => simp [RCDSize, PublicKeySize]
    | some rcd =>
      simp only [Option.getD_some]
      by_cases hlen : rcd.length ≠ RCDSize
      · simp [hlen]
      · rw [if_neg hlen]
        have hlen' : rcd.length = RCDSize := not_not.mp hlen
        cases hh : rcd.head? with
        | none =>
          exfalso
          rw [List.head?_eq_none_iff] at hh
          rw [hh] at hlen'
          simp [RCDSize, PublicKeySize] at hlen'
        | some b =>
          simp only
          by_cases hb : b ≠ RCDType
          · simp [hb]
          · rw [if_neg hb]
            have hb' : b = RCDType := not_not.mp hb
            cases hs : l[i * 2 + 1]? with
            | none => simp [SignatureSize]
            | some sig =>
              simp only [Option.getD_some]
              by_cases hsl : sig.length ≠ SignatureSize
              · simp [hsl]
              · rw [if_neg hsl]
                simp [hlen', hb', not_not.mp hsl]

/-- The signature loop on pairs of the right structure, from a buffer whose index
field holds zero bytes and a string no longer than the next index: it returns nil
when every pair verifies over the hash of the message of its index, and otherwise
the error of the first pair that does not, numbered by the position of its
signature. -/
theorem validSignaturesLoop_spec (c : Crypto) (width : Nat) (body : Bytes) (l : List Bytes) :
    ∀ (todo id : Nat) (junk pubKey sig : Bytes), junk.length ≤ (FormatUint id).length →
      (∀ j, j < id + todo → (FormatUint j).length ≤ width) →
      pubKey.length = PublicKeySize → sig.length = SignatureSize →
      (∀ j, id ≤ j → j < id + todo →
        (rcdAt l j).length = RCDSize ∧ (rcdAt l j).head? = some RCDType ∧
          (sigAt l j).length = SignatureSize) →
      (validSignaturesLoop c width l todo id (zeros (width - junk.length) ++ junk ++ body)
            pubKey sig = Verdict.nil ∧
          ∀ j, id ≤ j → j < id + todo →
            c.verify ((rcdAt l j).drop 1) (c.sum512 (indexedMsg width body j)) (sigAt l j)
              = true) ∨
        ∃ j, id ≤ j ∧ j < id + todo ∧
          c.verify ((rcdAt l j).drop 1) (c.sum512 (indexedMsg width body j)) (sigAt l j)
            = false ∧
          (∀ j1, id ≤ j1 → j1 < j →
            c.verify ((rcdAt l j1).drop 1) (c.sum512 (indexedMsg width body j1)) (sigAt l j1)
              = true) ∧
          validSignaturesLoop c width l todo id (zeros (width - junk.length) ++ junk ++ body)
            pubKey sig = Verdict.error (ValidErr.invalidSignature (j * 2 + 2)) := by
  intro todo
  induction todo with
  | zero =>
    intro id junk pubKey sig _ _ _ _ _
    refine Or.inl ⟨rfl, ?_⟩
    intro j h1 h2
    omega
  | succ todo ih =>
    intro id junk pubKey sig hj hw hpk hsg hst
    have hwid := hw id (by omega)
    obtain ⟨hr1, hr2, hs1⟩ := hst id (le_refl _) (by omega)
    have hrget : l[id * 2]? = some (rcdAt l id) :=
      getElem?_of_length_ne_zero l (id * 2) (by
        show (rcdAt l id).length ≠ 0
        rw [hr1]; simp [RCDSize, PublicKeySize])
    have hsget : l[id * 2 + 1]? = some (sigAt l id) :=
      getElem?_of_length_ne_zero l (id * 2 + 1) (by
        show (sigAt l id).length ≠ 0
        rw [hs1]; simp [SignatureSize])
    have hrl : ¬ (rcdAt l id).length < 1 := by rw [hr1]; simp [RCDSize, PublicKeySize]
    have hdl : ((rcdAt l id).drop 1).length = PublicKeySize := by
      rw [List.length_drop, hr1]; rfl
    have hc1 : copyAt pubKey 0 ((rcdAt l id).drop 1)
        = some ((rcdAt l id).drop 1, ((rcdAt l id).drop 1).length) :=
      copyAt_full pubKey _ (by rw [hdl, hpk])
    have hc2 : copyAt sig 0 (sigAt l id) = some (sigAt l id, (sigAt l id).length) :=
      copyAt_full sig _ (by rw [hs1, hsg])
    have hunf : validSignaturesLoop c width l (todo + 1) id
        (zeros (width - junk.length) ++ junk ++ body) pubKey sig
        = if ¬ c.verify ((rcdAt l id).drop 1) (c.sum512 (indexedMsg width body id))
              (sigAt l id) = true then
            Verdict.error (ValidErr.invalidSignature (id * 2 + 2))
          else
            validSignaturesLoop c width l todo (id + 1)
              (zeros (width - (FormatUint id).length) ++ FormatUint id ++ body)
              ((rcdAt l id).drop 1) (sigAt l id) := by
      rw [validSignaturesLoop]
      simp only [copyAt_index width junk (FormatUint id) body hj hwid, hrget, hsget,
        if_neg hrl, hc1, hc2]
      rfl
    rw [hunf]
    by_cases hv : c.verify ((rcdAt l id).drop 1) (c.sum512 (indexedMsg width body id))
        (sigAt l id) = true
    · rw [if_neg (not_not.mpr hv)]
      rcases ih (id + 1) (FormatUint id) ((rcdAt l id).drop 1) (sigAt l id)
          (FormatUint_length_mono (id + 1) id (by omega))
          (fun j hjlt => hw j (by omega)) hdl hs1
          (fun j h1 h2 => hst j (by omega) (by omega)) with ⟨hnil, hall⟩ | ⟨j, h1, h2, h3, h4, h5⟩
      · refine Or.inl ⟨hnil, ?_⟩
        intro j h1 h2
        by_cases hji : j = id
        · subst hji; exact hv
        · exact hall j (by omega) (by omega)
      · refine Or.inr ⟨j, by omega, by omega, h3, ?_, h5⟩
        intro j1 h6 h7
        by_cases hji : j1 = id
        · subst hji; exact hv
        · exact h4 j1 (by omega) h7
    · rw [if_pos hv]
      refine Or.inr ⟨id, le_refl _, by omega, by simpa using hv, ?_, rfl⟩
      intro j1 h6 h7
      omega

end Fat0

end Fatd

namespace Fatd

namespace Fat0

theorem rcd_cons (chainID content salt : Bytes) (l : List Bytes) (T : Int) (i : Nat) :
    (Entry.mk chainID content (salt :: l) T).rcd i = rcdAt l i ∧
      (Entry.mk chainID content (salt :: l) T).sig i = sigAt l i := ⟨rfl, rfl⟩

/-- The pair `i` of an entry sits at `ExtIDs[2i+1]` and `ExtIDs[2i+2]`. -/
theorem rcd_sig_position (e : Entry) (i : Nat) :
    e.rcd i = (e.ExtIDs[2 * i + 1]?).getD [] ∧ e.sig i = (e.ExtIDs[2 * i + 2]?).getD [] := by
  unfold Entry.rcd Entry.sig rcdAt sigAt
  rw [List.getElem?_drop, List.getElem?_drop]
  have h1 : 1 + i * 2 = 2 * i + 1 := by omega
  have h2 : 1 + (i * 2 + 1) = 2 * i + 2 := by omega
  rw [h1, h2]
  exact ⟨rfl, rfl⟩

/-- `validSignatures` on an entry whose pairs have the right structure: nil when
every pair verifies, otherwise the error of the first pair that does not, numbered
by the position of its signature in `ExtIDs`. -/
theorem validSignatures_spec (c : Crypto) (e : Entry) (hne : e.ExtIDs ≠ [])
    (hst : ∀ j, j < e.numPairs → e.PairStructure j) :
    (validSignatures c e = Verdict.nil ∧ ∀ j, j < e.numPairs → e.PairVerifies c j) ∨
      ∃ j, j < e.numPairs ∧ ¬ e.PairVerifies c j ∧
        (∀ j1, j1 < j → e.PairVerifies c j1) ∧
        validSignatures c e = Verdict.error (ValidErr.invalidSignature (2 * j + 2)) := by
  rcases e with ⟨chainID, content, extIDs, T⟩
  cases extIDs with
  | nil => exact absurd rfl hne
  | cons salt l =>
    have hspec := validSignaturesLoop_spec c
      (digitStrLen (((salt :: l).length / 2 : Nat) : Int)) (salt ++ chainID ++ content) l
      ((salt :: l).length / 2) 0 [] (zeros PublicKeySize) (zeros SignatureSize)
      (by simp) (by
        intro j hj
        rw [digitStrLen_nat]
        exact FormatUint_length_mono _ j (by omega))
      (zeros_length _) (zeros_length _)
      (fun j _ h2 => hst j (by simpa [Entry.numPairs] using h2))
    simp only [List.length_nil, Nat.sub_zero, List.append_nil] at hspec
    have hval : validSignatures c ⟨chainID, content, salt :: l, T⟩
        = validSignaturesLoop c (digitStrLen (((salt :: l).length / 2 : Nat) : Int)) l
            ((salt :: l).length / 2) 0
            (zeros (digitStrLen (((salt :: l).length / 2 : Nat) : Int))
              ++ (salt ++ chainID ++ content))
            (zeros PublicKeySize) (zeros SignatureSize) := by
      unfold validSignatures
      simp only [List.head?_cons, initMsg_eq, List.drop_succ_cons, List.drop_zero]
    rw [hval]
    rcases hspec with ⟨hnil, hall⟩ | ⟨j, -, h2, h3, h4, h5⟩
    · refine Or.inl ⟨hnil, ?_⟩
      intro j hj
      exact hall j (Nat.zero_le _) (by simpa [Entry.numPairs] using hj)
    · refine Or.inr ⟨j, by simpa [Entry.numPairs] using h2, ?_, ?_, ?_⟩
      · intro hv
        have : c.verify ((rcdAt l j).drop 1)
            (c.sum512 (indexedMsg (digitStrLen (((salt :: l).length / 2 : Nat) : Int))
              (salt ++ chainID ++ content) j)) (sigAt l j) = true := hv
        rw [h3] at this
        cases this
      · intro j1 hj1
        exact h4 j1 (Nat.zero_le _) hj1
      · rw [h5]
        have : j * 2 + 2 = 2 * j + 2 := by omega
        rw [this]

/-- C15: for every entry, `ValidExtIDs` returns nil if and only if the number of
ExtIDs is odd and at least 3, the timestamp salt is valid, every reveal datum
`ExtIDs[2i+1]` has length `RCDSize` and first byte `RCDType`, every signature
`ExtIDs[2i+2]` has length `SignatureSize`, and every pair's signature verifies. -/
theorem ValidExtIDs_iff (c : Crypto) (e : Entry) :
    ValidExtIDs c e = Verdict.nil ↔
      (3 ≤ e.ExtIDs.length ∧ e.ExtIDs.length % 2 = 1) ∧
        validTimestamp e = Verdict.nil ∧
        (∀ i, i < e.numPairs →
          ((e.ExtIDs[2 * i + 1]?).getD []).length = RCDSize ∧
            ((e.ExtIDs[2 * i + 1]?).getD []).head? = some RCDType ∧
            ((e.ExtIDs[2 * i + 2]?).getD []).length = SignatureSize) ∧
        (∀ i, i < e.numPairs → e.PairVerifies c i) := by
  have hpos : ∀ i, (((e.ExtIDs[2 * i + 1]?).getD []).length = RCDSize ∧
        ((e.ExtIDs[2 * i + 1]?).getD []).head? = some RCDType ∧
        ((e.ExtIDs[2 * i + 2]?).getD []).length = SignatureSize) ↔ e.PairStructure i := by
    intro i
    unfold Entry.PairStructure
    rw [(rcd_sig_position e i).1, (rcd_sig_position e i).2]
  simp only [hpos]
  unfold ValidExtIDs
  by_cases hcount : e.ExtIDs.length < 3 ∨ e.ExtIDs.length % 2 ≠ 1
  · rw [if_pos hcount]
    simp only [reduceCtorEq, false_iff]
    rintro ⟨⟨h1, h2⟩, -⟩
    rcases hcount with h | h
    · omega
    · exact h h2
  · rw [if_neg hcount]
    have hc1 : 3 ≤ e.ExtIDs.length ∧ e.ExtIDs.length % 2 = 1 := by omega
    have hne : e.ExtIDs ≠ [] := by
      intro h
      rw [h] at hc1
      simp at hc1
    have hhalf : (e.ExtIDs.drop 1).length / 2 = e.numPairs := by
      unfold Entry.numPairs
      rw [List.length_drop]
      omega
    have hstruct : structureLoop (e.ExtIDs.drop 1) e.numPairs 0 = Verdict.nil ↔
        ∀ i, i < e.numPairs → e.PairStructure i := by
      rw [structureLoop_eq_nil]
      constructor
      · intro h i hi
        exact h i (Nat.zero_le _) (by omega)
      · intro h j _ hj
        exact h j (by omega)
    cases hts : validTimestamp e with
    | error err => simp
    | panic => simp
    | nil =>
      simp only [hhalf, true_and, hc1]
      cases hsl : structureLoop (e.ExtIDs.drop 1) e.numPairs 0 with
      | error err =>
        simp only [reduceCtorEq, false_iff]
        rintro ⟨hs, -⟩
        rw [hstruct.mpr hs] at hsl
        cases hsl
      | panic =>
        simp only [reduceCtorEq, false_iff]
        rintro ⟨hs, -⟩
        rw [hstruct.mpr hs] at hsl
        cases hsl
      | nil =>
        have hs := hstruct.mp hsl
        simp only
        rcases validSignatures_spec c e hne hs with ⟨hnil, hall⟩ | ⟨j, hj, hnv, -, herr⟩
        · rw [hnil]
          simp only [true_iff]
          exact ⟨hs, hall⟩
        · rw [herr]
          simp only [reduceCtorEq, false_iff]
          rintro ⟨-, hall⟩
          exact hnv (hall j hj)

/-- C16, at a failing input: ten signers, signer 0. The largest index is 9, one
byte wide, so the message of the claim, and of the comment on `Sign`, is the string
"0" directly followed by the time salt, the chain id and the content. `Sign` hashes
a message with a byte 0x00 before that "0": its index field is as wide as the
decimal string of the number of signers, 10. The signature of signer 0 is the one
over the longer message and not the one over the message of the claim. -/
theorem rcdSigMsg_not_widest_index :
    ∃ e1, Sign cryptoToy entryToy signersTen nowHalf 5 = some e1 ∧
      e1.sig 0 = cryptoToy.sign signerToy.PrivateKey
        (cryptoToy.sum512 (rcdSigMsg 10 (newTimestampSalt nowHalf 5) entryToy.ChainID
          entryToy.Content 0)) ∧
      e1.sig 0 ≠ cryptoToy.sign signerToy.PrivateKey
        (cryptoToy.sum512 (rcdSigMsgWidestIndex 10 (newTimestampSalt nowHalf 5)
          entryToy.ChainID entryToy.Content 0)) ∧
      rcdSigMsg 10 (newTimestampSalt nowHalf 5) entryToy.ChainID entryToy.Content 0
        = 0 :: 48 :: (newTimestampSalt nowHalf 5 ++ entryToy.ChainID ++ entryToy.Content) ∧
      rcdSigMsgWidestIndex 10 (newTimestampSalt nowHalf 5) entryToy.ChainID
          entryToy.Content 0
        = 48 :: (newTimestampSalt nowHalf 5 ++ entryToy.ChainID ++ entryToy.Content) ∧
      ValidExtIDs cryptoToy e1 = Verdict.nil :=
  ⟨_, rfl, by decide, by decide, by decide, by decide, by decide⟩

/-- What the code hashes: the message for pair `i` of `n` is the decimal string of
`i`, with zero bytes to its left up to the width of the decimal string of `n`,
followed by the time salt, the chain id and the content; `Sign` signs the hash of
that message for signer `i`, and `validSignatures`, on pairs of the right
structure, returns nil exactly when every pair verifies over the hash of that
message; the message depends on `i`, `n`, salt, chain id and content only. -/
theorem rcdSigMsg_hashed (c : Crypto) (n i : Nat) (timeSalt chainID content : Bytes) :
    rcdSigMsg n timeSalt chainID content i
        = zeros ((FormatUint n).length - (FormatUint i).length) ++ FormatUint i
            ++ (timeSalt ++ chainID ++ content) ∧
      (∀ (e : Entry) (signers : List Address) (now rnd : Int) (a : Address),
        signers[i]? = some a →
        ∃ e1, Sign c e signers now rnd = some e1 ∧
          e1.sig i = c.sign a.PrivateKey
            (c.sum512 (rcdSigMsg signers.length (newTimestampSalt now rnd) e.ChainID
              e.Content i))) ∧
      (∀ e : Entry, e.ExtIDs ≠ [] → (∀ j, j < e.numPairs → e.PairStructure j) →
        (validSignatures c e = Verdict.nil ↔
          ∀ j, j < e.numPairs →
            c.verify ((e.rcd j).drop 1)
              (c.sum512 (rcdSigMsg e.numPairs e.timeSalt e.ChainID e.Content j))
              (e.sig j) = true)) := by
  refine ⟨?_, ?_, ?_⟩
  · unfold rcdSigMsg indexedMsg
    rw [digitStrLen_nat]
  · intro e signers now rnd a ha
    refine ⟨_, Sign_eq c e signers now rnd, ?_⟩
    obtain ⟨-, h2⟩ := signedPairs_getElem? c (digitStrLen (signers.length : Int))
      (newTimestampSalt now rnd ++ e.ChainID ++ e.Content) signers 0 i a ha
    rw [(rcd_cons _ _ _ _ _ i).2]
    unfold sigAt
    have hi : i * 2 + 1 = 2 * i + 1 := by omega
    rw [hi, h2]
    simp only [Option.getD_some, Nat.zero_add]
    rfl
  · intro e hne hst
    rcases validSignatures_spec c e hne hst with ⟨hnil, hall⟩ | ⟨j, hj, hnv, -, herr⟩
    · rw [hnil]
      simp only [true_iff]
      exact hall
    · rw [herr]
      simp only [reduceCtorEq, false_iff]
      intro hall
      exact hnv (hall j hj)

/-- C17, at failing inputs: the only pair of the first entry has a signature of 63
bytes, at `ExtIDs[2]`, and the error names `ExtIDs[1]`; the second pair of the
second entry has a reveal datum of 5 bytes, at `ExtIDs[3]`, and the error names
`ExtIDs[2]`. -/
theorem ValidExtIDs_error_names_wrong_item (c : Crypto) :
    ValidExtIDs c entryShortSig = Verdict.error (ValidErr.invalidSignatureSize 1) ∧
      (entryShortSig.ExtIDs[1]?).map List.length = some RCDSize ∧
      (entryShortSig.ExtIDs[2]?).map List.length = some 63 ∧
      ValidExtIDs c entryShortRCD = Verdict.error (ValidErr.invalidRCDSize 2) ∧
      (entryShortRCD.ExtIDs[2]?).map List.length = some SignatureSize ∧
      (entryShortRCD.ExtIDs[3]?).map List.length = some 5 :=
  ⟨rfl, by decide, by decide, rfl, by decide, by decide⟩

/-- An invalid signature is reported with the position of the signature of the
first pair that does not verify. -/
theorem invalidSignature_names_signature (c : Crypto) (e : Entry) (k : Nat)
    (hne : e.ExtIDs ≠ []) (hst : ∀ j, j < e.numPairs → e.PairStructure j)
    (h : validSignatures c e = Verdict.error (ValidErr.invalidSignature k)) :
    ∃ j, j < e.numPairs ∧ k = 2 * j + 2 ∧ ¬ e.PairVerifies c j ∧
      ∀ j1, j1 < j → e.PairVerifies c j1 := by
  rcases validSignatures_spec c e hne hst with ⟨hnil, -⟩ | ⟨j, hj, hnv, hbefore, herr⟩
  · rw [hnil] at h
    cases h
  · rw [herr] at h
    simp only [Verdict.error.injEq, ValidErr.invalidSignature.injEq] at h
    exact ⟨j, hj, h.symm, hnv, hbefore⟩

/-- The scenario of two signers: after signing, changing one byte of the first
signature makes validation fail at the first pair's signature, `ExtIDs[2]`. -/
theorem flipped_signature_fails_at_first_pair :
    (Sign cryptoToy entryToy [signerToy, signerToy] nowHalf 5).map
        (fun e => (ValidExtIDs cryptoToy e, ValidExtIDs cryptoToy (flipFirstSig e)))
      = some (Verdict.nil, Verdict.error (ValidErr.invalidSignature 2)) := by
  decide

/-- C20: after `Sign` the ExtIDs are the time salt followed by the reveal datum and
the signature of every signer in input order, `2n+1` items; they do not depend on
the ExtIDs the entry held before; chain id and content are unchanged. -/
theorem Sign_ExtIDs (c : Crypto) (e : Entry) (signers : List Address) (now rnd : Int) :
    ∃ e1, Sign c e signers now rnd = some e1 ∧
      e1.ExtIDs = newTimestampSalt now rnd ::
        signedPairs c (digitStrLen (signers.length : Int))
          (newTimestampSalt now rnd ++ e.ChainID ++ e.Content) signers 0 ∧
      e1.ExtIDs.length = 2 * signers.length + 1 ∧
      e1.ExtIDs[0]? = some (newTimestampSalt now rnd) ∧
      (∀ i a, signers[i]? = some a →
        e1.ExtIDs[2 * i + 1]? = some a.RCD ∧
          e1.ExtIDs[2 * i + 2]? = some (c.sign a.PrivateKey
            (c.sum512 (rcdSigMsg signers.length (newTimestampSalt now rnd) e.ChainID
              e.Content i)))) ∧
      e1.ChainID = e.ChainID ∧ e1.Content = e.Content ∧
      ∀ old, Sign c { e with ExtIDs := old } signers now rnd = some e1 := by
  refine ⟨_, Sign_eq c e signers now rnd, rfl, ?_, ?_, ?_, rfl, rfl, ?_⟩
  · simp only [List.length_cons, signedPairs_length]
  · simp only [List.getElem?_cons_zero]
  · intro i a ha
    obtain ⟨h1, h2⟩ := signedPairs_getElem? c (digitStrLen (signers.length : Int))
      (newTimestampSalt now rnd ++ e.ChainID ++ e.Content) signers 0 i a ha
    simp only [List.getElem?_cons_succ]
    refine ⟨h1, ?_⟩
    rw [h2, Nat.zero_add]
    rfl
  · intro old
    exact Sign_eq c { e with ExtIDs := old } signers now rnd

/-- Witness of C14: the salt `5` on an entry stamped five seconds after the epoch. -/
theorem validTimestamp_iff_witness :
    entrySaltFive.ExtIDs.head? = some [53] ∧
    ((validTimestamp entrySaltFive = Verdict.nil ↔
        ∃ s, ParseInt [53] = some s ∧ |entrySaltFive.Timestamp - timeUnix s| ≤ twelveHours) ∧
      (∀ s, ParseInt [53] = some s → s < 2 ^ 63 - 62135596800 → timeUnix s = s * second) ∧
      (∀ (s : Int) (chainID content : Bytes) (rest : List Bytes),
        -(2 ^ 62) ≤ s → s ≤ 2 ^ 62 →
        validTimestamp ⟨chainID, content, FormatInt s :: rest,
            s * second + (twelveHours - second)⟩ = Verdict.nil ∧
          validTimestamp ⟨chainID, content, FormatInt s :: rest,
            s * second - (twelveHours - second)⟩ = Verdict.nil ∧
          validTimestamp ⟨chainID, content, FormatInt s :: rest,
            s * second + (twelveHours + second)⟩
              = Verdict.error ValidErr.timestampSaltExpired ∧
          validTimestamp ⟨chainID, content, FormatInt s :: rest,
            s * second - (twelveHours + second)⟩
              = Verdict.error ValidErr.timestampSaltExpired)) :=
  ⟨rfl, validTimestamp_iff entrySaltFive [53] rfl⟩

end Fat0

end Fatd

namespace Fatd

namespace DB

theorem addressAdd_id (t : Table) (adr : FAAddress) (add : Nat) (t1 : Table) (id : Int)
    (h : addressAdd t adr add = Outcome.ret ⟨t1, id, none⟩) :
    SelectAddressID t1 adr = (id, none) := by
  unfold addressAdd at h
  simp only at h
  by_cases hv : int64 add < 0
  · rw [if_pos hv] at h
    simp at h
  · rw [if_neg hv] at h
    cases hf : findRow t adr with
    | none =>
      simp only [hf, Outcome.ret.injEq, AddResult.mk.injEq] at h
      obtain ⟨h1, h2, h3⟩ := h
      rw [← h1]
      exact Prod.ext h2 h3
    | some row =>
      simp only [hf] at h
      by_cases hbig : 2 ^ 63 ≤ row.balance + int64 add
      · rw [if_pos hbig] at h
        cases h
      · rw [if_neg hbig] at h
        simp only [Outcome.ret.injEq, AddResult.mk.injEq] at h
        obtain ⟨h1, h2, h3⟩ := h
        rw [← h1]
        exact Prod.ext h2 h3

/-- A credit of zero on an address that has a row leaves the table as it is and
returns the id of that row. -/
theorem addressAdd_zero_existing (t : Table) (adr : FAAddress) (row : Row) (hwf : WF t)
    (hf : findRow t adr = some row) :
    addressAdd t adr 0 = Outcome.ret ⟨t, row.id, none⟩ := by
  have hrow := hwf.2.2 row (findRow_some_mem hf).1
  have hv : int64 0 = 0 := by decide
  have hbig : ¬ (2 : Int) ^ 63 ≤ row.balance + 0 := by omega
  have hmap : t.map (fun r => if r.address = adr then { r with balance := r.balance + 0 } else r)
      = t := by
    have hid : (fun r : Row => if r.address = adr then { r with balance := r.balance + 0 }
        else r) = id := by
      funext r
      cases r with
      | mk i a b => by_cases h : a = adr <;> simp [h]
    rw [hid, List.map_id]
  unfold addressAdd
  simp only [hv, lt_self_iff_false, if_false, hf, if_neg hbig, hmap, SelectAddressID]

theorem addressSub_zero (t : Table) (adr : FAAddress) (t1 : Table) (id : Int)
    (h : addressAdd t adr 0 = Outcome.ret ⟨t1, id, none⟩) :
    addressSub t adr 0 = Outcome.ret ⟨t1, id, none, none⟩ := by
  unfold addressSub
  simp only [Nat.zero_mod, if_true, h]

theorem WF_nil : WF ([] : Table) := by
  refine ⟨by simp, by simp, ?_⟩
  intro r hr
  cases hr

/-- C21: on a table that obeys the schema and for every address, with or without a
row, `addressAdd(a, 0)` and `addressSub(a, 0)` return no error and the same id, the
address has a row afterwards, its balance is the one it had (0 when the row is
new), every other row is as before; called again on the result, both return that
id and change nothing. -/
theorem zero_amount_guarantees_row (t : Table) (adr : FAAddress) (hwf : WF t) :
    ∃ t1 id row,
      addressAdd t adr 0 = Outcome.ret ⟨t1, id, none⟩ ∧
      addressSub t adr 0 = Outcome.ret ⟨t1, id, none, none⟩ ∧
      findRow t1 adr = some row ∧ row.id = id ∧
      row.balance = balanceOf t adr ∧
      (findRow t adr = none → row.balance = 0) ∧
      (∀ other, other ≠ adr → findRow t1 other = findRow t other) ∧
      addressAdd t1 adr 0 = Outcome.ret ⟨t1, id, none⟩ ∧
      addressSub t1 adr 0 = Outcome.ret ⟨t1, id, none, none⟩ := by
  have hb := hwf.balance_nonneg adr
  have hrow0 : ∀ r, findRow t adr = some r → r.balance < 2 ^ 63 := fun r hr =>
    (hwf.2.2 r (findRow_some_mem hr).1).2.2
  have hsum : balanceOf t adr + ((0 : Nat) : Int) < 2 ^ 63 := by
    unfold balanceOf
    cases hf : findRow t adr with
    | none => simp
    | some r => have := hrow0 r hf; simp only; omega
  obtain ⟨t1, id, hadd, hwf1, hbal, hsome, hother⟩ := addressAdd_spec t adr 0 hwf hsum hb
  have hid := addressAdd_id t adr 0 t1 id hadd
  cases hf1 : findRow t1 adr with
  | none => rw [hf1] at hsome; cases hsome
  | some row =>
    have hrid : row.id = id := by
      simp only [SelectAddressID, hf1, Prod.mk.injEq, and_true] at hid
      exact hid
    have hrb : row.balance = balanceOf t adr := by
      have : balanceOf t1 adr = row.balance := by simp [balanceOf, hf1]
      rw [← this, hbal]
      simp
    have hagain := addressAdd_zero_existing t1 adr row hwf1 hf1
    rw [hrid] at hagain
    refine ⟨t1, id, row, hadd, addressSub_zero t adr t1 id hadd, hf1, hrid, hrb, ?_, hother,
      hagain, addressSub_zero t1 adr t1 id hagain⟩
    intro hnone
    rw [hrb]
    simp [balanceOf, hnone]

/-- Witness of C21: the empty table. -/
theorem zero_amount_guarantees_row_witness :
    WF ([] : Table) ∧
    ∃ t1 id row,
      addressAdd [] adrA 0 = Outcome.ret ⟨t1, id, none⟩ ∧
      addressSub [] adrA 0 = Outcome.ret ⟨t1, id, none, none⟩ ∧
      findRow t1 adrA = some row ∧ row.id = id ∧
      row.balance = balanceOf [] adrA ∧
      (findRow [] adrA = none → row.balance = 0) ∧
      (∀ other, other ≠ adrA → findRow t1 other = findRow [] other) ∧
      addressAdd t1 adrA 0 = Outcome.ret ⟨t1, id, none⟩ ∧
      addressSub t1 adrA 0 = Outcome.ret ⟨t1, id, none, none⟩ :=
  ⟨WF_nil, zero_amount_guarantees_row [] adrA WF_nil⟩

end DB

namespace Fat0

theorem structureLoop_no_panic (l : List Bytes) :
    ∀ todo i, 2 * (i + todo) ≤ l.length → structureLoop l todo i ≠ Verdict.panic := by
  intro todo
  induction todo with
  | zero => intro i _; simp [structureLoop]
  | succ todo ih =>
    intro i hlen
    rw [structureLoop_succ]
    have h1 : i * 2 < l.length := by omega
    have h2 : i * 2 + 1 < l.length := by omega
    rw [List.getElem?_eq_getElem h1, List.getElem?_eq_getElem h2]
    simp only
    by_cases hr : l[i * 2].length ≠ RCDSize
    · rw [if_pos hr]; simp
    · rw [if_neg hr]
      cases hh : l[i * 2].head? with
      | none =>
        exfalso
        rw [List.head?_eq_none_iff] at hh
        rw [hh] at hr
        simp [RCDSize, PublicKeySize] at hr
      | some b =>
        simp only
        by_cases hb : b ≠ RCDType
        · rw [if_pos hb]; simp
        · rw [if_neg hb]
          by_cases hs : l[i * 2 + 1].length ≠ SignatureSize
          · rw [if_pos hs]; simp
          · rw [if_neg hs]
            exact ih (i + 1) (by omega)

/-- C22: for every entry, `ValidExtIDs` returns nil or an error and never runs
into an index or a slice bound out of range: past the count check `ExtIDs[0]` and
every `ExtIDs[2i+1]`, `ExtIDs[2i+2]` of a pair exist; once the structure loop has
returned nil every reveal datum has `RCDSize` bytes, so `rcd[0]` and `rcd[1:]` are
in range; and the write offset `maxRcdSigIDSaltStrLen - len(decimal(i))` of
`validSignatures` is not negative for any index below the pair count. -/
theorem ValidExtIDs_no_panic (c : Crypto) (e : Entry) :
    ValidExtIDs c e ≠ Verdict.panic ∧
      (¬ (e.ExtIDs.length < 3 ∨ e.ExtIDs.length % 2 ≠ 1) →
        0 < e.ExtIDs.length ∧ ∀ i, i < e.numPairs → 2 * i + 2 < e.ExtIDs.length) ∧
      (structureLoop (e.ExtIDs.drop 1) ((e.ExtIDs.drop 1).length / 2) 0 = Verdict.nil →
        ∀ i, i < (e.ExtIDs.drop 1).length / 2 →
          (e.rcd i).length = RCDSize ∧ 0 < RCDSize) ∧
      (∀ i, i < e.numPairs →
        (0 : Int) ≤ (digitStrLen (e.numPairs : Int) : Int) - ((FormatUint i).length : Int)) := by
  refine ⟨?_, ?_, ?_, ?_⟩
  · unfold ValidExtIDs
    by_cases hcount : e.ExtIDs.length < 3 ∨ e.ExtIDs.length % 2 ≠ 1
    · rw [if_pos hcount]; simp
    · rw [if_neg hcount]
      have hne : e.ExtIDs ≠ [] := by
        intro h
        rw [h] at hcount
        simp at hcount
      have hhalf : (e.ExtIDs.drop 1).length / 2 = e.numPairs := by
        unfold Entry.numPairs
        rw [List.length_drop]
        omega
      have hts : validTimestamp e ≠ Verdict.panic := by
        obtain ⟨salt, rest, hsr⟩ := List.exists_cons_of_ne_nil hne
        rw [validTimestamp_verdict e salt (by rw [hsr]; rfl)]
        cases ParseInt salt with
        | none => simp
        | some sec =>
          simp only
          split_ifs <;> simp
      cases hv : validTimestamp e with
      | panic => exact absurd hv hts
      | error err => simp
      | nil =>
        simp only
        have hsl := structureLoop_no_panic (e.ExtIDs.drop 1) ((e.ExtIDs.drop 1).length / 2) 0
          (by omega)
        cases hs : structureLoop (e.ExtIDs.drop 1) ((e.ExtIDs.drop 1).length / 2) 0 with
        | panic => exact absurd hs hsl
        | error err => simp
        | nil =>
          simp only
          rw [hhalf] at hs
          have hst : ∀ j, j < e.numPairs → e.PairStructure j := by
            intro j hj
            exact (structureLoop_eq_nil _ _ _).mp hs j (Nat.zero_le _) (by omega)
          rcases validSignatures_spec c e hne hst with ⟨hnil, -⟩ | ⟨j, -, -, -, herr⟩
          · rw [hnil]; simp
          · rw [herr]; simp
  · intro hcount
    refine ⟨by omega, ?_⟩
    intro i hi
    unfold Entry.numPairs at hi
    omega
  · intro hs i hi
    have := (structureLoop_eq_nil _ _ _).mp hs i (Nat.zero_le _) (by omega)
    exact ⟨this.1, by decide⟩
  · intro i hi
    rw [digitStrLen_nat]
    have := FormatUint_length_mono e.numPairs i (by omega)
    omega

end Fat0

end Fatd
